import Mathlib

/-!
# fnordlicht PWM engine (`src/pwm.c`)

A shallow embedding of the software-multiplexed PWM engine of the fnordlicht
firmware: the fading engine (`update_brightness`), the timeslot builder
(`update_pwm_timeslots`), initialisation (`pwm_init`), the foreground poller
(`pwm_poll`) and the cycle scheduler (`prepare_next_timeslot` and the two timer
interrupt handlers).

Conventions of the embedding:
* `uint8_t` / `uint16_t` values are natural numbers; the 16-bit accumulator
  arithmetic of the fading engine is reduced modulo `65536` explicitly.
* C arrays are total maps `Nat → α`; a write is a pointwise update.
* Build-time configuration that lives in headers outside `src/` is collected in
  `config_t` and passed as a parameter.
* The volatile timer register `TCNT1` is an input: a handler reads it from a
  stream of readings, and its busy-wait loops carry fuel.
-/

namespace Fnordlicht

/-! ## Data model -/

/-- Number of PWM channels; `update_pwm_timeslots` hard-codes the initial
permutation `{ 0, 1, 2 }`, so the build has three channels. -/
def PWM_CHANNELS : Nat := 3

/-- Modelled from the spec: `struct channel_t` of `pwm.h` (not under `src/`).
`brightness_and_remainder` is a 16-bit accumulator whose high byte aliases
`brightness` and whose low byte is `remainder`; the two bytes are kept as
separate fields here. `target_reached` is the one-bit field
`flags.target_reached`. -/
structure channel_t where
  remainder : Nat
  brightness : Nat
  target_brightness : Nat
  speed : Nat
  target_reached : Bool
  mask : Nat
deriving DecidableEq, Repr

/-- All fields of a channel are inside the range of their C type. -/
def channel_t.wf (c : channel_t) : Prop :=
  c.remainder < 256 ∧ c.brightness < 256 ∧ c.target_brightness < 256 ∧
    c.speed < 65536 ∧ c.mask < 256

instance (c : channel_t) : Decidable c.wf := by
  unfold channel_t.wf; infer_instance

/-- Read of the union member `brightness_and_remainder`. -/
def channel_t.brightness_and_remainder (c : channel_t) : Nat :=
  c.brightness * 256 + c.remainder

/-- Write of the union member `brightness_and_remainder` (a `uint16_t`): the
value is truncated to 16 bits, the high byte lands in `brightness`, the low
byte in `remainder`. -/
def channel_t.set_brightness_and_remainder (c : channel_t) (v : Nat) : channel_t :=
  { c with brightness := (v % 65536) / 256, remainder := (v % 65536) % 256 }

/-- Pointwise update of an array modelled as a total map. -/
def upd {α : Type} (a : Nat → α) (i : Nat) (v : α) : Nat → α :=
  fun k => if k = i then v else a k

/-! ## Fading engine -/

/-- Body of the channel loop of `update_brightness` (pwm.c:267-302) for one
channel. -/
def fade_channel (c : channel_t) : channel_t :=
  if c.brightness ≠ c.target_brightness then
    let old_brightness := c.brightness
    let c1 :=
      if c.brightness < c.target_brightness then
        -- brightness_and_remainder += speed
        let c2 := c.set_brightness_and_remainder (c.brightness_and_remainder + c.speed)
        if c2.brightness < old_brightness ∨ c2.brightness > c2.target_brightness then
          { c2 with brightness := c2.target_brightness, remainder := 0 }
        else c2
      else if c.brightness > c.target_brightness then
        -- brightness_and_remainder -= speed   (modulo 2^16)
        let c2 := c.set_brightness_and_remainder
          (c.brightness_and_remainder + (65536 - c.speed % 65536))
        if c2.brightness > old_brightness ∨ c2.brightness < c2.target_brightness then
          { c2 with brightness := c2.target_brightness, remainder := 0 }
        else c2
      else c
    if c1.brightness = c1.target_brightness then
      { c1 with target_reached := true }
    else c1
  else c

/-- The function `update_brightness` (pwm.c:261-304): one fading pass over the
channel array. -/
def update_brightness (channels : Nat → channel_t) : Nat → channel_t :=
  (List.range PWM_CHANNELS).foldl (fun ch i => upd ch i (fade_channel (ch i))) channels

/-! ## Brightness curve table -/

/-- The flash table `timeslot_table` (pwm.c:58-91): timer top values for the
brightness levels 1..254, entry `L - 1` for level `L`. -/
def timeslot_table : List Nat := [
      2,     8,    18,    31,    49,    71,    96,   126,
    159,   197,   238,   283,   333,   386,   443,   504,
    569,   638,   711,   787,   868,   953,  1041,  1134,
   1230,  1331,  1435,  1543,  1655,  1772,  1892,  2016,
   2144,  2276,  2411,  2551,  2695,  2842,  2994,  3150,
   3309,  3472,  3640,  3811,  3986,  4165,  4348,  4535,
   4726,  4921,  5120,  5323,  5529,  5740,  5955,  6173,
   6396,  6622,  6852,  7087,  7325,  7567,  7813,  8063,
   8317,  8575,  8836,  9102,  9372,  9646,  9923, 10205,
  10490, 10779, 11073, 11370, 11671, 11976, 12285, 12598,
  12915, 13236, 13561, 13890, 14222, 14559, 14899, 15244,
  15592, 15945, 16301, 16661, 17025, 17393, 17765, 18141,
  18521, 18905, 19293, 19685, 20080, 20480, 20884, 21291,
  21702, 22118, 22537, 22960, 23387, 23819, 24254, 24693,
  25135, 25582, 26033, 26488, 26946, 27409, 27876, 28346,
  28820, 29299, 29781, 30267, 30757, 31251, 31750, 32251,
  32757, 33267, 33781, 34299, 34820, 35346, 35875, 36409,
  36946, 37488, 38033, 38582, 39135, 39692, 40253, 40818,
  41387, 41960, 42537, 43117, 43702, 44291, 44883, 45480,
  46080, 46684, 47293, 47905, 48521, 49141, 49765, 50393,
  51025, 51661, 52300, 52944, 53592, 54243, 54899, 55558,
  56222, 56889, 57560, 58235, 58914, 59598, 60285, 60975,
  61670, 62369, 63072, 63779,   489,  1204,  1922,  2645,
   3371,  4101,  4836,  5574,  6316,  7062,  7812,  8566,
   9324, 10085, 10851, 11621, 12394, 13172, 13954, 14739,
  15528, 16322, 17119, 17920, 18725, 19534, 20347, 21164,
  21985, 22810, 23638, 24471, 25308, 26148, 26993, 27841,
  28693, 29550, 30410, 31274, 32142, 33014, 33890, 34770,
  35654, 36542, 37433, 38329, 39229, 40132, 41040, 41951,
  42866, 43786, 44709, 45636, 46567, 47502, 48441, 49384,
  50331, 51282, 52236, 53195, 54158, 55124, 56095, 57069,
  58047, 59030, 60016, 61006, 62000, 62998]

/-- Flash read `pgm_read_word(&timeslot_table[i])`. -/
def pgm_read_word (i : Nat) : Nat := timeslot_table.getD i 0

/-! ## Timeslot builder -/

/-- One entry of `pwm.slots` (the anonymous struct of `struct timeslots_t`,
pwm.c:42-45). -/
structure slot_t where
  mask : Nat
  top : Nat
deriving DecidableEq, Repr

/-- The record `struct timeslots_t` (pwm.c:40-51). -/
structure timeslots_t where
  slots : Nat → slot_t
  index : Nat
  count : Nat
  next_bitmask : Nat
  new_cycle : Nat

/-- The machine state touched by `pwm.c`: the channel array
`global_pwm.channels`, the static `pwm`, the two signal flags of
`global.flags`, and the hardware registers written by the module. -/
structure state_t where
  channels : Nat → channel_t
  pwm : timeslots_t
  pwm_last_pulse : Bool
  pwm_start : Bool
  PWM_PORT : Nat
  PWM_DDR : Nat
  TCCR1B : Nat
  TIMSK_TIMER1 : Nat
  OCR1A : Nat
  OCR1B : Nat

/-- Build-time configuration taken from headers that are not under `src/`
(`config.h`, `pwm.h`, `<avr/io.h>`, `static_scripts.h`): output polarity,
the port mask of the channel pins, whether static scripts are compiled in
together with their entry point, and the bit numbers of the timer registers. -/
structure config_t where
  PWM_INVERTED : Bool
  PWM_CHANNEL_MASK : Nat
  STATIC_SCRIPTS : Bool
  execute_script_threads : state_t → state_t
  CS10 : Nat
  WGM12 : Nat
  OCIE1A : Nat
  OCIE1B : Nat

/-- The avr-libc bit-value helper `_BV(i)`, that is `1 << i`. -/
def _BV (i : Nat) : Nat := 1 <<< i

/-- An 8-bit `x & ~m`. -/
def and_not8 (x m : Nat) : Nat := x &&& (255 ^^^ m)

/-- Array initialiser `{ v0, v1, ... }` as a total map. -/
def of_list (l : List Nat) : Nat → Nat := fun k => l.getD k 0

/-- The exchange sort of `update_pwm_timeslots` (pwm.c:172-185): the array
`sorted` of channel indices after the two nested loops. -/
def sort_channels (channels : Nat → channel_t) : Nat → Nat :=
  (List.range PWM_CHANNELS).foldl (fun sorted i =>
    (List.range' (i + 1) (PWM_CHANNELS - (i + 1))).foldl (fun sorted j =>
      if (channels (sorted j)).brightness < (channels (sorted i)).brightness then
        let temp := sorted i
        upd (upd sorted i (sorted j)) j temp
      else sorted) sorted)
    (of_list [0, 1, 2])

/-- The initial bitmask computed at pwm.c:187-199. -/
def initial_bitmask (cfg : config_t) (channels : Nat → channel_t) : Nat :=
  (List.range PWM_CHANNELS).foldl (fun bm i =>
    if (channels i).brightness > 0 then
      if cfg.PWM_INVERTED then and_not8 bm (channels i).mask
      else bm ||| (channels i).mask
    else bm)
    (if cfg.PWM_INVERTED then cfg.PWM_CHANNEL_MASK else 0)

/-- Locals of the slot loop of `update_pwm_timeslots` together with the slot
array it writes: `pwm.slots`, `j`, `mask` and `last_brightness`. -/
structure build_t where
  slots : Nat → slot_t
  j : Nat
  mask : Nat
  last_brightness : Nat

/-- The middle interrupt `pwm.slots[j].top = 65000; j++;` (pwm.c:214-215 and
pwm.c:248-249). Only the `top` field of the slot is written. -/
def insert_middle (st : build_t) : build_t :=
  { st with slots := upd st.slots st.j { st.slots st.j with top := 65000 }, j := st.j + 1 }

/-- Body of the slot loop of `update_pwm_timeslots` (pwm.c:207-243) for loop
index `i`. -/
def build_step (cfg : config_t) (channels : Nat → channel_t) (sorted : Nat → Nat)
    (st : build_t) (i : Nat) : build_t :=
  let c := channels (sorted i)
  if c.brightness > 0 ∧ c.brightness < 255 then
    let st1 :=
      if st.last_brightness < 181 ∧ c.brightness ≥ 181 then insert_middle st else st
    if c.brightness > st1.last_brightness then
      let mask := if cfg.PWM_INVERTED then st1.mask ||| c.mask else and_not8 st1.mask c.mask
      { slots := upd st1.slots st1.j { mask := mask, top := pgm_read_word (c.brightness - 1) },
        j := st1.j + 1, mask := mask, last_brightness := c.brightness }
    else
      let mask := if cfg.PWM_INVERTED then st1.mask ||| c.mask else and_not8 st1.mask c.mask
      { st1 with
        slots := upd st1.slots (st1.j - 1) { st1.slots (st1.j - 1) with mask := mask },
        mask := mask }
  else st

/-- The slot loop of `update_pwm_timeslots` followed by the trailing middle
interrupt (pwm.c:201-250). -/
def build_slots (cfg : config_t) (channels : Nat → channel_t) (slots : Nat → slot_t) : build_t :=
  let st := (List.range PWM_CHANNELS).foldl
    (build_step cfg channels (sort_channels channels))
    { slots := slots, j := 0, mask := initial_bitmask cfg channels, last_brightness := 0 }
  if st.last_brightness < 181 then insert_middle st else st

/-- The function `update_pwm_timeslots` (pwm.c:170-258). -/
def update_pwm_timeslots (cfg : config_t) (s : state_t) : state_t :=
  let st := build_slots cfg s.channels s.pwm.slots
  { s with pwm :=
      { slots := st.slots, index := 0, count := st.j,
        next_bitmask := initial_bitmask cfg s.channels, new_cycle := 1 } }

/-! ## Initialisation and foreground poller -/

/-- The function `pwm_init` (pwm.c:103-145). -/
def pwm_init (cfg : config_t) (s : state_t) : state_t :=
  let s1 := { s with
    PWM_PORT := if cfg.PWM_INVERTED then s.PWM_PORT ||| cfg.PWM_CHANNEL_MASK
                else and_not8 s.PWM_PORT cfg.PWM_CHANNEL_MASK,
    PWM_DDR := cfg.PWM_CHANNEL_MASK,
    TCCR1B := _BV cfg.CS10 ||| _BV cfg.WGM12,
    TIMSK_TIMER1 := s.TIMSK_TIMER1 ||| (_BV cfg.OCIE1A ||| _BV cfg.OCIE1B),
    OCR1A := 64000,
    OCR1B := 65000 }
  let s2 := { s1 with
    channels := (List.range PWM_CHANNELS).foldl (fun ch i =>
      upd ch i { brightness := 0, target_brightness := 0, speed := 0x0100,
                 target_reached := false, remainder := 0, mask := _BV i }) s1.channels }
  update_pwm_timeslots cfg s2

/-- The function `pwm_poll` (pwm.c:148-167). -/
def pwm_poll (cfg : config_t) (s : state_t) : state_t :=
  let s1 :=
    if s.pwm_last_pulse then update_pwm_timeslots cfg { s with pwm_last_pulse := false }
    else s
  if s1.pwm_start then
    let s2 := { s1 with pwm_start := false }
    let s3 := { s2 with channels := update_brightness s2.channels }
    if cfg.STATIC_SCRIPTS then cfg.execute_script_threads s3 else s3
  else s1

/-! ## Specification vocabulary -/

/-- A collaborator (script, remote, startup) writes a new `target_brightness`
into channel `i`; nothing else is touched. -/
def set_target (ch : Nat → channel_t) (i t : Nat) : Nat → channel_t :=
  upd ch i { ch i with target_brightness := t }


/-- A channel that needs a timeslot: `0 < brightness < 255` (the test at
pwm.c:210). -/
def dimmed (c : channel_t) : Prop := 0 < c.brightness ∧ c.brightness < 255

instance (c : channel_t) : Decidable (dimmed c) := by
  unfold dimmed; infer_instance

/-- Channel index `c` occurs among the first `i` entries of the array `s`. -/
def seen (s : Nat → Nat) (i c : Nat) : Prop := ∃ k, k < i ∧ s k = c

/-- Array position of the `n`-th emitted brightness level when the middle
interrupt sits after the first `a` levels. -/
def slot_pos (a n : Nat) : Nat := if n < a then n else n + 1

/-- Ghost description of the brightness levels that received a slot during the
first `i` iterations of the slot loop: `lv 0 < lv 1 < ... < lv (m-1)` are the
distinct levels of the dimmed channels among `s 0 .. s (i-1)`, the first `a` of
them lie below the threshold 181, and `last` is the value of
`last_brightness`. -/
structure levels_inv (ch : Nat → channel_t) (s : Nat → Nat) (i m a : Nat) (lv : Nat → Nat)
    (last : Nat) : Prop where
  a_le : a ≤ m
  m_le : m ≤ i
  mono : ∀ n n', n < n' → n' < m → lv n < lv n'
  from_ch : ∀ n, n < m → ∃ k, k < i ∧ dimmed (ch (s k)) ∧ (ch (s k)).brightness = lv n
  covers : ∀ k, k < i → dimmed (ch (s k)) → ∃ n, n < m ∧ lv n = (ch (s k)).brightness
  last_eq : last = if m = 0 then 0 else lv (m - 1)
  low : ∀ n, n < a → lv n < 181
  high : ∀ n, a ≤ n → n < m → 181 ≤ lv n

/-- Loop invariant of the slot loop of `update_pwm_timeslots` after `i`
iterations (non-inverted build): how the loop state `st` and the slot array
relate to the emitted levels. `prior` is the slot array before the call. -/
structure slots_inv (ch : Nat → channel_t) (s : Nat → Nat) (prior : Nat → slot_t)
    (i : Nat) (st : build_t) (m a : Nat) (lv : Nat → Nat) : Prop where
  j_eq : st.j = m + (if 181 ≤ st.last_brightness then 1 else 0)
  mask_bits : ∀ c, st.mask.testBit c = true ↔
    (c < 3 ∧ 0 < (ch c).brightness ∧ ¬ (dimmed (ch c) ∧ seen s i c))
  slot_top : ∀ n, n < m → (st.slots (slot_pos a n)).top = pgm_read_word (lv n - 1)
  slot_bits : ∀ n, n < m → ∀ c, (st.slots (slot_pos a n)).mask.testBit c = true ↔
    (c < 3 ∧ 0 < (ch c).brightness ∧
      ¬ (dimmed (ch c) ∧ seen s i c ∧ (ch c).brightness ≤ lv n))
  middle : 181 ≤ st.last_brightness → st.slots a = { prior a with top := 65000 }
  rest : ∀ p, st.j ≤ p → st.slots p = prior p

/-- What `update_pwm_timeslots` leaves in the slot array (non-inverted build),
in terms of the distinct dimmed brightness levels `lv 0 < ... < lv (m-1)` of
the channels, of which the first `a` lie below the threshold 181: the level
slots sit at `slot_pos a n`, the middle interrupt at position `a`. `prior` is
the slot array before the call and `st` the final loop state. -/
structure schedule_spec (ch : Nat → channel_t) (prior : Nat → slot_t) (st : build_t)
    (m a : Nat) (lv : Nat → Nat) : Prop where
  a_le : a ≤ m
  m_le : m ≤ 3
  mono : ∀ n n', n < n' → n' < m → lv n < lv n'
  levels : ∀ L, (∃ n, n < m ∧ lv n = L) ↔
    (∃ c, c < 3 ∧ dimmed (ch c) ∧ (ch c).brightness = L)
  low : ∀ n, n < a → lv n < 181
  high : ∀ n, a ≤ n → n < m → 181 ≤ lv n
  count_eq : st.j = m + 1
  slot_top : ∀ n, n < m → (st.slots (slot_pos a n)).top = pgm_read_word (lv n - 1)
  slot_bits : ∀ n, n < m → ∀ c, (st.slots (slot_pos a n)).mask.testBit c = true ↔
    (c < 3 ∧ lv n < (ch c).brightness)
  middle_top : (st.slots a).top = 65000
  middle_mask : (st.slots a).mask = (prior a).mask
  rest : ∀ p, m + 1 ≤ p → st.slots p = prior p

/-- The part of `schedule_spec` that concerns only the slot count and the
`top` fields; it holds for every polarity and every choice of channel masks. -/
structure shape_spec (ch : Nat → channel_t) (st : build_t) (m a : Nat) (lv : Nat → Nat) :
    Prop where
  a_le : a ≤ m
  m_le : m ≤ 3
  mono : ∀ n n', n < n' → n' < m → lv n < lv n'
  levels : ∀ L, (∃ n, n < m ∧ lv n = L) ↔
    (∃ c, c < 3 ∧ dimmed (ch c) ∧ (ch c).brightness = L)
  low : ∀ n, n < a → lv n < 181
  high : ∀ n, a ≤ n → n < m → 181 ≤ lv n
  count_eq : st.j = m + 1
  slot_top : ∀ n, n < m → (st.slots (slot_pos a n)).top = pgm_read_word (lv n - 1)
  middle_top : (st.slots a).top = 65000

/-! ## Cycle scheduler (interrupt handlers) -/

/-- The function `prepare_next_timeslot` (pwm.c:307-323). `pwm.index` is a
`uint8_t`, so the increment is reduced modulo 256. -/
def prepare_next_timeslot (s : state_t) : state_t :=
  if s.pwm.index ≥ s.pwm.count then
    { s with
      pwm := { s.pwm with index := 0 }
      pwm_last_pulse := true
      OCR1B := 65000 }
  else
    { s with
      OCR1B := (s.pwm.slots s.pwm.index).top
      pwm := { s.pwm with
               next_bitmask := (s.pwm.slots s.pwm.index).mask
               index := (s.pwm.index + 1) % 256 } }

/-- The port value `(PWM_PORT & ~(PWM_CHANNEL_MASK)) | v` written by the
handlers (pwm.c:333, 342, 363). -/
def port_out (cfg : config_t) (port v : Nat) : Nat :=
  and_not8 port cfg.PWM_CHANNEL_MASK ||| v

/-- The statement `PWM_PORT = (PWM_PORT & ~(PWM_CHANNEL_MASK)) | pwm.next_bitmask;`
of both handlers (pwm.c:333, 363). -/
def output_next_bitmask (cfg : config_t) (s : state_t) : state_t :=
  { s with PWM_PORT := port_out cfg s.PWM_PORT s.pwm.next_bitmask }

/-- The handler `ISR(SIG_OUTPUT_COMPARE1B)` (pwm.c:360-367). -/
def isr_compare_b (cfg : config_t) (s : state_t) : state_t :=
  prepare_next_timeslot (output_next_bitmask cfg s)

/-- The spin loop `while (pwm.slots[pwm.index].top > TCNT1);` (pwm.c:339). The
volatile timer register is an input of the model: `tcnt n` is the value that
the `n`-th read of `TCNT1` inside the handler returns, and `k` counts the reads
made so far. The result is the number of reads made when the loop is left, or
`none` when the fuel is used up. -/
def spin (tcnt : Nat → Nat) (top : Nat) : Nat → Nat → Option Nat
  | 0, _ => none
  | fuel + 1, k => if top > tcnt k then spin tcnt top fuel (k + 1) else some (k + 1)

/-- One iteration of the catch-up loop after its spin loop (pwm.c:341-346): the
mask of the current slot is written to the port and `pwm.index` is incremented
(a `uint8_t`). -/
def catch_up_body (cfg : config_t) (s : state_t) : state_t :=
  { s with
    PWM_PORT := port_out cfg s.PWM_PORT (s.pwm.slots s.pwm.index).mask
    pwm := { s.pwm with index := (s.pwm.index + 1) % 256 } }

/-- The catch-up loop `while (TCNT1 + 500 > pwm.slots[pwm.index].top) { ... }`
(pwm.c:336-347). `TCNT1 + 500` is computed in 16-bit unsigned arithmetic. The
result is the number of timer reads made and the state when the loop is left,
or `none` when the fuel is used up. -/
def catch_up (cfg : config_t) (tcnt : Nat → Nat) : Nat → Nat → state_t → Option (Nat × state_t)
  | 0, _, _ => none
  | fuel + 1, k, s =>
    if (tcnt k + 500) % 65536 > (s.pwm.slots s.pwm.index).top then
      match spin tcnt (s.pwm.slots s.pwm.index).top fuel (k + 1) with
      | none => none
      | some k' => catch_up cfg tcnt fuel k' (catch_up_body cfg s)
    else some (k + 1, s)

/-- The handler `ISR(SIG_OUTPUT_COMPARE1A)` (pwm.c:328-357), with the timer
reads `tcnt` and the fuel of its loops. -/
def isr_compare_a (cfg : config_t) (tcnt : Nat → Nat) (fuel : Nat) (s : state_t) :
    Option state_t :=
  if s.pwm.new_cycle ≠ 0 then
    match catch_up cfg tcnt fuel 0 (output_next_bitmask cfg s) with
    | none => none
    | some (_, s1) =>
      some (prepare_next_timeslot
        { s1 with pwm_start := true, pwm := { s1.pwm with new_cycle := 0 } })
  else some (prepare_next_timeslot s)

/-- What the foreground and the handlers do to the cursor of the timeslot list:
a rebuild, after the foreground has brought the channel array to `channels`, or
one `prepare_next_timeslot` step. -/
inductive cursor_op where
  | rebuild (channels : Nat → channel_t)
  | step

/-- The state after a sequence of rebuilds and `prepare_next_timeslot` steps. -/
def run_ops (cfg : config_t) : List cursor_op → state_t → state_t
  | [], s => s
  | cursor_op.rebuild ch :: ops, s =>
    run_ops cfg ops (update_pwm_timeslots cfg { s with channels := ch })
  | cursor_op.step :: ops, s => run_ops cfg ops (prepare_next_timeslot s)

/-! ## Timeslot builder with checked array accesses -/

/-- Initial values of the locals of the slot loop (pwm.c:201-206). -/
def build_init (cfg : config_t) (channels : Nat → channel_t) (slots : Nat → slot_t) : build_t :=
  { slots := slots, j := 0, mask := initial_bitmask cfg channels, last_brightness := 0 }

/-- State of the slot loop of `update_pwm_timeslots` after its first `i`
iterations. -/
def build_upto (cfg : config_t) (channels : Nat → channel_t) (slots : Nat → slot_t)
    (i : Nat) : build_t :=
  (List.range i).foldl (build_step cfg channels (sort_channels channels))
    (build_init cfg channels slots)

/-- The loop body `build_step` with its array accesses checked. The result is
`none` when the iteration writes `pwm.slots` at an index outside `0 .. cap - 1`
(this includes the index `j - 1` of the merge branch for `j = 0`) or reads
`timeslot_table` outside its 254 entries; otherwise it is the result of
`build_step`. `cap` stands for `PWM_MAX_TIMESLOTS` of `pwm.h`, which is not
under `src/`. -/
def build_step_checked (cap : Nat) (cfg : config_t) (channels : Nat → channel_t)
    (sorted : Nat → Nat) (st : build_t) (i : Nat) : Option build_t :=
  let c := channels (sorted i)
  if c.brightness > 0 ∧ c.brightness < 255 then
    let st1 :=
      if st.last_brightness < 181 ∧ c.brightness ≥ 181 then insert_middle st else st
    -- pwm.slots[j].top = 65000
    if (st.last_brightness < 181 ∧ c.brightness ≥ 181) ∧ ¬ st.j < cap then none
    else if c.brightness > st1.last_brightness then
      -- pwm.slots[j] and timeslot_table[brightness - 1]
      if st1.j < cap ∧ 1 ≤ c.brightness ∧ c.brightness - 1 < timeslot_table.length then
        some (build_step cfg channels sorted st i)
      else none
    else
      -- pwm.slots[j-1]
      if 1 ≤ st1.j ∧ st1.j - 1 < cap then some (build_step cfg channels sorted st i)
      else none
  else some st

/-- The function `build_slots` with its array accesses checked, the trailing
middle interrupt included. -/
def build_slots_checked (cap : Nat) (cfg : config_t) (channels : Nat → channel_t)
    (slots : Nat → slot_t) : Option build_t :=
  match (List.range PWM_CHANNELS).foldlM
      (build_step_checked cap cfg channels (sort_channels channels))
      (build_init cfg channels slots) with
  | none => none
  | some st =>
    if st.last_brightness < 181 then
      if st.j < cap then some (insert_middle st) else none
    else some st

/-- The function `update_pwm_timeslots` with the array accesses of its slot loop
checked against the capacity `cap` of `pwm.slots`. -/
def update_pwm_timeslots_checked (cap : Nat) (cfg : config_t) (s : state_t) : Option state_t :=
  match build_slots_checked cap cfg s.channels s.pwm.slots with
  | none => none
  | some st =>
    some { s with pwm :=
      { slots := st.slots, index := 0, count := st.j,
        next_bitmask := initial_bitmask cfg s.channels, new_cycle := 1 } }

/-- Invariant of the slot loop after `i` iterations that holds for every
polarity, every choice of channel masks and every index array `s`: where the
write index `j` stands, which slot was written last, and which slots still
hold what they held before the call (`prior`). -/
structure write_inv (ch : Nat → channel_t) (s : Nat → Nat) (prior : Nat → slot_t)
    (i : Nat) (st : build_t) : Prop where
  j_le : st.j ≤ i + (if 181 ≤ st.last_brightness then 1 else 0)
  last_from : st.last_brightness = 0 ∨
    ∃ k, k < i ∧ dimmed (ch (s k)) ∧ st.last_brightness = (ch (s k)).brightness
  last_slot : 0 < st.last_brightness →
    1 ≤ st.j ∧ (st.slots (st.j - 1)).top = pgm_read_word (st.last_brightness - 1)
  middle : 181 ≤ st.last_brightness →
    ∃ a, a + 2 ≤ st.j ∧ st.slots a = { prior a with top := 65000 }
  rest : ∀ p, st.j ≤ p → st.slots p = prior p

/-! ## Concrete inputs -/

/-- A non-inverted build without static scripts; the register bit numbers are
those of an ATmega8. -/
def example_cfg : config_t :=
  { PWM_INVERTED := false
    PWM_CHANNEL_MASK := 7
    STATIC_SCRIPTS := false
    execute_script_threads := fun x => x
    CS10 := 0
    WGM12 := 3
    OCIE1A := 4
    OCIE1B := 3 }

/-- A script entry point that starts a fade of channel 0 to brightness 50. -/
def example_script (x : state_t) : state_t :=
  { x with
    channels := upd x.channels 0
      { x.channels 0 with target_brightness := 50, target_reached := false } }

/-- The build of `example_cfg` with static scripts compiled in. -/
def example_cfg_scripts : config_t :=
  { example_cfg with STATIC_SCRIPTS := true, execute_script_threads := example_script }

/-- Channel array in which every channel has remainder `r`, brightness `b`,
target `t`, speed `v`, a clear `target_reached` flag and the mask `_BV c`. -/
def example_channels (r b t v : Nat) : Nat → channel_t := fun c =>
  { remainder := r, brightness := b, target_brightness := t, speed := v,
    target_reached := false, mask := _BV c }

/-- Channel array with brightness `b0`, `b1`, `b2` in the channels 0, 1, 2, each
channel at its target, with the masks `_BV c`. -/
def example_levels (b0 b1 b2 : Nat) : Nat → channel_t := fun c =>
  { remainder := 0, brightness := [b0, b1, b2].getD c 0,
    target_brightness := [b0, b1, b2].getD c 0, speed := 0x0100,
    target_reached := false, mask := _BV c }

/-- A machine state with the given channel array, a zeroed `pwm`, the given
signal flags and zeroed registers. -/
def example_state (ch : Nat → channel_t) (last_pulse start : Bool) : state_t :=
  { channels := ch
    pwm := { slots := fun _ => { mask := 0, top := 0 }, index := 0, count := 0,
             next_bitmask := 0, new_cycle := 0 }
    pwm_last_pulse := last_pulse
    pwm_start := start
    PWM_PORT := 0
    PWM_DDR := 0
    TCCR1B := 0
    TIMSK_TIMER1 := 0
    OCR1A := 0
    OCR1B := 0 }

/-- Timer readings as seen by a handler: the `n`-th read of `TCNT1` returns
`100 * n`, up to the timer TOP 64000. -/
def example_tcnt (n : Nat) : Nat := min (100 * n) 64000

/-- The state after `pwm_init` in the build `example_cfg`, with the brightness
of the channels then brought to (50, 150, 200) and the timeslot list rebuilt:
the slots are (4921, 0b110), (44291, 0b100), the middle interrupt and
(14739, 0). -/
def example_list : state_t :=
  update_pwm_timeslots example_cfg
    { pwm_init example_cfg (example_state (example_levels 0 0 0) false false) with
      channels := example_levels 50 150 200 }

/-- One PWM cycle of the handlers on `example_list` (compare A, two compare B,
compare A at the middle, compare B) without a call of `pwm_poll`, followed by
the compare-A interrupt of the next period boundary, which starts the next walk
through the list. -/
def example_walk : Option state_t :=
  (isr_compare_a example_cfg example_tcnt 5 example_list).bind fun s1 =>
    (isr_compare_a example_cfg example_tcnt 5
      (isr_compare_b example_cfg (isr_compare_b example_cfg s1))).bind fun s2 =>
      isr_compare_a example_cfg example_tcnt 5 (isr_compare_b example_cfg s2)

/-- The call of `pwm_poll` that follows `example_walk`, with the brightness of
the channels brought to (100, 0, 0) in the meantime. -/
def example_late_poll : Option state_t :=
  example_walk.map fun s => pwm_poll example_cfg { s with channels := example_levels 100 0 0 }

/-! ## Arrays and bit masks -/

/-- The channel loops run over the indices 0, 1, 2. -/
theorem range_channels : List.range PWM_CHANNELS = [0, 1, 2] := rfl

/-- Reading an array at the index just written. -/
theorem upd_eq {α : Type} (a : Nat → α) (i : Nat) (v : α) : upd a i v i = v := by
  simp [upd]

/-- Reading an array at an index other than the one just written. -/
theorem upd_ne {α : Type} (a : Nat → α) (i k : Nat) (v : α) (h : k ≠ i) : upd a i v k = a k := by
  simp [upd, h]

/-- The bits of `0xFF`. -/
theorem testBit_255 (c : Nat) : Nat.testBit 255 c = decide (c < 8) := by
  have : (255 : Nat) = 2 ^ 8 - 1 := by norm_num
  rw [this, Nat.testBit_two_pow_sub_one]

/-- The bits of `_BV i`. -/
theorem testBit_BV (i c : Nat) : (_BV i).testBit c = decide (i = c) := by
  unfold _BV
  rw [Nat.one_shiftLeft, Nat.testBit_two_pow]

/-- The bits of an 8-bit `x & ~_BV(i)`. -/
theorem and_not8_BV_testBit (x i c : Nat) (hi : i < 8) :
    (and_not8 x (_BV i)).testBit c = (x.testBit c && decide (c < 8) && decide (c ≠ i)) := by
  unfold and_not8
  rw [Nat.testBit_and, Nat.testBit_xor, testBit_255, testBit_BV]
  by_cases h1 : c < 8 <;> by_cases h2 : i = c <;> simp [h1, h2] <;> omega

/-- The bits after a conditional `x |= _BV(i)`. -/
theorem ite_or_BV_testBit (p : Prop) [Decidable p] (x i c : Nat) :
    (if p then x ||| _BV i else x).testBit c = true ↔ (x.testBit c = true ∨ (p ∧ i = c)) := by
  by_cases hp : p
  · simp [hp, Nat.testBit_or, testBit_BV]
  · simp [hp]

/-! ## Fading engine: one channel -/

/-- Fading does not change the target. -/
theorem fade_channel_target (c : channel_t) :
    (fade_channel c).target_brightness = c.target_brightness := by
  unfold fade_channel channel_t.set_brightness_and_remainder
  simp only []
  split_ifs <;> rfl

/-- Fading does not change the speed. -/
theorem fade_channel_speed (c : channel_t) : (fade_channel c).speed = c.speed := by
  unfold fade_channel channel_t.set_brightness_and_remainder
  simp only []
  split_ifs <;> rfl

/-- A channel at its target is left untouched. -/
theorem fade_channel_at_target (c : channel_t) (h : c.brightness = c.target_brightness) :
    fade_channel c = c := by
  unfold fade_channel; simp [h]

/-- Fading keeps every field inside the range of its C type. -/
theorem fade_channel_wf (c : channel_t) (hwf : c.wf) : (fade_channel c).wf := by
  obtain ⟨r, b, t, s, f, m⟩ := c
  simp only [channel_t.wf] at hwf
  simp only [fade_channel, channel_t.set_brightness_and_remainder,
    channel_t.brightness_and_remainder, channel_t.wf]
  split_ifs <;> simp_all <;> omega

/-- One fading step leaves the brightness between its old value and the target. -/
theorem fade_channel_between (c : channel_t) :
    (c.brightness < c.target_brightness →
      c.brightness ≤ (fade_channel c).brightness ∧
      (fade_channel c).brightness ≤ c.target_brightness) ∧
    (c.target_brightness < c.brightness →
      c.target_brightness ≤ (fade_channel c).brightness ∧
      (fade_channel c).brightness ≤ c.brightness) ∧
    (c.brightness = c.target_brightness → (fade_channel c).brightness = c.brightness) := by
  unfold fade_channel channel_t.set_brightness_and_remainder
  simp only []
  split_ifs <;> simp_all <;> omega

/-- Repeated fading does not change the target. -/
theorem fade_channel_iterate_target (n : Nat) (c : channel_t) :
    (fade_channel^[n] c).target_brightness = c.target_brightness := by
  induction n with
  | zero => rfl
  | succ n ih => rw [Function.iterate_succ_apply', fade_channel_target, ih]

/-- Repeated fading does not change the speed. -/
theorem fade_channel_iterate_speed (n : Nat) (c : channel_t) :
    (fade_channel^[n] c).speed = c.speed := by
  induction n with
  | zero => rfl
  | succ n ih => rw [Function.iterate_succ_apply', fade_channel_speed, ih]

/-- Repeated fading leaves a channel at its target untouched. -/
theorem fade_channel_iterate_at_target (n : Nat) (c : channel_t)
    (h : c.brightness = c.target_brightness) : fade_channel^[n] c = c := by
  induction n with
  | zero => rfl
  | succ n ih => rw [Function.iterate_succ_apply', ih, fade_channel_at_target c h]

/-- Repeated fading keeps the brightness inside any interval that holds both the
brightness and the target. -/
theorem fade_channel_iterate_within (lo hi : Nat) (n : Nat) (c : channel_t)
    (hb : lo ≤ c.brightness ∧ c.brightness ≤ hi)
    (ht : lo ≤ c.target_brightness ∧ c.target_brightness ≤ hi) :
    lo ≤ (fade_channel^[n] c).brightness ∧ (fade_channel^[n] c).brightness ≤ hi := by
  induction n with
  | zero => exact hb
  | succ n ih =>
    rw [Function.iterate_succ_apply']
    have h := fade_channel_between (fade_channel^[n] c)
    rw [fade_channel_iterate_target] at h
    omega

/-- One upward step at speed `0x0100` adds one to the brightness and keeps the
remainder. -/
theorem fade_channel_whole_up (c : channel_t) (hs : c.speed = 0x0100) (hr : c.remainder < 256)
    (ht : c.target_brightness < 256) (hb : c.brightness < c.target_brightness) :
    fade_channel c =
      if c.brightness + 1 = c.target_brightness then
        { c with brightness := c.target_brightness, target_reached := true }
      else { c with brightness := c.brightness + 1 } := by
  obtain ⟨r, b, t, s, f, m⟩ := c
  simp only at hs hr ht hb
  subst hs
  have e1 : (b * 256 + r + 256) % 65536 / 256 = b + 1 := by omega
  have e2 : (b * 256 + r + 256) % 65536 % 256 = r := by omega
  have hne : b ≠ t := by omega
  have hle : ¬ t < b + 1 := by omega
  simp only [fade_channel, channel_t.set_brightness_and_remainder,
    channel_t.brightness_and_remainder, e1, e2]
  split_ifs <;> first | rfl | (exfalso; omega) | simp_all

/-- One downward step at speed `0x0100` takes one off the brightness and keeps the
remainder. -/
theorem fade_channel_whole_down (c : channel_t) (hs : c.speed = 0x0100) (hr : c.remainder < 256)
    (hb256 : c.brightness < 256) (hb : c.target_brightness < c.brightness) :
    fade_channel c =
      if c.brightness - 1 = c.target_brightness then
        { c with brightness := c.target_brightness, target_reached := true }
      else { c with brightness := c.brightness - 1 } := by
  obtain ⟨r, b, t, s, f, m⟩ := c
  simp only at hs hr hb256 hb
  subst hs
  have e1 : (b * 256 + r + (65536 - 256 % 65536)) % 65536 / 256 = b - 1 := by omega
  have e2 : (b * 256 + r + (65536 - 256 % 65536)) % 65536 % 256 = r := by omega
  have hne : b ≠ t := by omega
  have h1 : ¬ b < t := by omega
  have h2 : ¬ b < b - 1 := by omega
  have h3 : ¬ b - 1 < t := by omega
  simp only [fade_channel, channel_t.set_brightness_and_remainder,
    channel_t.brightness_and_remainder, e1, e2]
  split_ifs <;> first | rfl | (exfalso; omega) | simp_all

/-- Closed form of `k` upward steps at speed `0x0100`. -/
theorem fade_channel_whole_up_iterate (c : channel_t) (hs : c.speed = 0x0100)
    (hr : c.remainder < 256) (ht : c.target_brightness < 256)
    (hb : c.brightness < c.target_brightness) (k : Nat) :
    fade_channel^[k] c =
      if k < c.target_brightness - c.brightness then { c with brightness := c.brightness + k }
      else { c with brightness := c.target_brightness, target_reached := true } := by
  induction k with
  | zero => rw [if_pos (by omega)]; rfl
  | succ k ih =>
    rw [Function.iterate_succ_apply', ih]
    by_cases h1 : k < c.target_brightness - c.brightness
    · have e := fade_channel_whole_up { c with brightness := c.brightness + k } hs hr ht
        (show c.brightness + k < c.target_brightness by omega)
      simp only at e
      rw [if_pos h1, e]
      by_cases h2 : k + 1 < c.target_brightness - c.brightness
      · rw [if_pos h2, if_neg (by omega)]; rfl
      · rw [if_neg h2, if_pos (by omega)]
    · rw [if_neg h1, if_neg (by omega), fade_channel_at_target _ rfl]

/-- Closed form of `k` downward steps at speed `0x0100`. -/
theorem fade_channel_whole_down_iterate (c : channel_t) (hs : c.speed = 0x0100)
    (hr : c.remainder < 256) (hb256 : c.brightness < 256)
    (hb : c.target_brightness < c.brightness) (k : Nat) :
    fade_channel^[k] c =
      if k < c.brightness - c.target_brightness then { c with brightness := c.brightness - k }
      else { c with brightness := c.target_brightness, target_reached := true } := by
  induction k with
  | zero => rw [if_pos (by omega)]; rfl
  | succ k ih =>
    rw [Function.iterate_succ_apply', ih]
    by_cases h1 : k < c.brightness - c.target_brightness
    · have e := fade_channel_whole_down { c with brightness := c.brightness - k } hs hr
        (show c.brightness - k < 256 by omega)
        (show c.target_brightness < c.brightness - k by omega)
      simp only at e
      rw [if_pos h1, e]
      by_cases h2 : k + 1 < c.brightness - c.target_brightness
      · rw [if_pos h2, if_neg (by omega)]; rfl
      · rw [if_neg h2, if_pos (by omega)]
    · rw [if_neg h1, if_neg (by omega), fade_channel_at_target _ rfl]

/-- One upward step that does not land on the target adds exactly `speed` to the
accumulator, provided the speed is at most `0xFF00`. -/
theorem fade_channel_up_step (c : channel_t) (hr : c.remainder < 256)
    (ht : c.target_brightness < 256) (hb : c.brightness < c.target_brightness)
    (hs : c.speed ≤ 65280) :
    (fade_channel c).brightness = c.target_brightness ∨
    ((fade_channel c).brightness < c.target_brightness ∧ (fade_channel c).remainder < 256 ∧
      (fade_channel c).brightness_and_remainder = c.brightness_and_remainder + c.speed) := by
  obtain ⟨r, b, t, s, f, m⟩ := c
  simp only at hr ht hb hs
  simp only [fade_channel, channel_t.set_brightness_and_remainder,
    channel_t.brightness_and_remainder]
  split_ifs <;> first | (simp_all; done) | (simp_all; omega)

/-- One downward step that does not land on the target takes exactly `speed` off
the accumulator, provided the speed is at most `0xFF00`. -/
theorem fade_channel_down_step (c : channel_t) (hr : c.remainder < 256)
    (hb256 : c.brightness < 256) (hb : c.target_brightness < c.brightness)
    (hs : c.speed ≤ 65280) :
    (fade_channel c).brightness = c.target_brightness ∨
    (c.target_brightness < (fade_channel c).brightness ∧ (fade_channel c).remainder < 256 ∧
      (fade_channel c).brightness < 256 ∧
      (fade_channel c).brightness_and_remainder + c.speed = c.brightness_and_remainder) := by
  obtain ⟨r, b, t, s, f, m⟩ := c
  simp only at hr hb256 hb hs
  simp only [fade_channel, channel_t.set_brightness_and_remainder,
    channel_t.brightness_and_remainder]
  split_ifs <;> simp_all <;> omega

/-- At a speed above `0xFF00` a step either lands on the target or keeps the
brightness and moves the remainder by `65536 - speed` against the direction of
the fade. -/
theorem fade_channel_fast_step (c : channel_t) (hwf : c.wf) (hs : 65280 < c.speed) :
    (fade_channel c).brightness = c.target_brightness ∨
    ((fade_channel c).brightness = c.brightness ∧
      ((c.brightness < c.target_brightness ∧
          (fade_channel c).remainder + (65536 - c.speed) = c.remainder) ∨
       (c.target_brightness < c.brightness ∧
          (fade_channel c).remainder = c.remainder + (65536 - c.speed)))) := by
  obtain ⟨r, b, t, s, f, m⟩ := c
  simp only [channel_t.wf] at hwf
  simp only at hs
  simp only [fade_channel, channel_t.set_brightness_and_remainder,
    channel_t.brightness_and_remainder]
  split_ifs <;> simp_all <;> omega

/-- At a speed in `0xFF01 ..= 0xFF80` two steps reach the target. -/
theorem fade_channel_twice_fast (c : channel_t) (hwf : c.wf)
    (hs : 65280 < c.speed) (hs2 : c.speed ≤ 65408) :
    (fade_channel (fade_channel c)).brightness = c.target_brightness := by
  have h1 := fade_channel_fast_step c hwf hs
  have hwf1 := fade_channel_wf c hwf
  have h2 := fade_channel_fast_step (fade_channel c) hwf1 (by rw [fade_channel_speed]; exact hs)
  rw [fade_channel_target, fade_channel_speed] at h2
  rcases h1 with h1 | ⟨hb1, h1⟩
  · rw [fade_channel_at_target _ (by rw [fade_channel_target]; exact h1)]; exact h1
  · rcases h2 with h2 | ⟨hb2, h2⟩
    · exact h2
    · exfalso
      have hwf2 := fade_channel_wf _ hwf1
      simp only [channel_t.wf] at hwf hwf1 hwf2
      omega

/-- The bound `⌈65536 / s⌉` times `s` covers the whole accumulator range. -/
theorem ceil_mul_ge (s : Nat) (hs : 1 ≤ s) : 65536 ≤ ((65536 + s - 1) / s) * s := by
  have h1 := Nat.div_add_mod (65536 + s - 1) s
  have h2 := Nat.mod_lt (65536 + s - 1) (show s > 0 by omega)
  rw [Nat.mul_comm] at h1
  omega

/-- After `n` upward steps at a speed of at most `0xFF00` the channel is at its
target or the accumulator has grown by `n * speed`. -/
theorem fade_channel_up_iterate (n : Nat) (c : channel_t) (hr : c.remainder < 256)
    (ht : c.target_brightness < 256) (hb : c.brightness < c.target_brightness)
    (hs : c.speed ≤ 65280) :
    (fade_channel^[n] c).brightness = c.target_brightness ∨
    ((fade_channel^[n] c).brightness < c.target_brightness ∧
      (fade_channel^[n] c).remainder < 256 ∧
      (fade_channel^[n] c).brightness_and_remainder = c.brightness_and_remainder + n * c.speed) := by
  induction n with
  | zero => right; simp [hr, hb]
  | succ n ih =>
    rw [Function.iterate_succ_apply']
    rcases ih with ih | ⟨ih1, ih2, ih3⟩
    · left
      rw [fade_channel_at_target _ (by rw [fade_channel_iterate_target]; exact ih)]; exact ih
    · have h := fade_channel_up_step (fade_channel^[n] c) ih2
        (by rw [fade_channel_iterate_target]; exact ht)
        (by rw [fade_channel_iterate_target]; exact ih1)
        (by rw [fade_channel_iterate_speed]; exact hs)
      rw [fade_channel_iterate_target, fade_channel_iterate_speed] at h
      rcases h with h | ⟨h1, h2, h3⟩
      · left; exact h
      · right
        refine ⟨h1, h2, ?_⟩
        rw [h3, ih3, Nat.succ_mul]; omega

/-- After `n` downward steps at a speed of at most `0xFF00` the channel is at its
target or the accumulator has shrunk by `n * speed`. -/
theorem fade_channel_down_iterate (n : Nat) (c : channel_t) (hr : c.remainder < 256)
    (hb256 : c.brightness < 256) (hb : c.target_brightness < c.brightness)
    (hs : c.speed ≤ 65280) :
    (fade_channel^[n] c).brightness = c.target_brightness ∨
    (c.target_brightness < (fade_channel^[n] c).brightness ∧
      (fade_channel^[n] c).remainder < 256 ∧ (fade_channel^[n] c).brightness < 256 ∧
      (fade_channel^[n] c).brightness_and_remainder + n * c.speed =
        c.brightness_and_remainder) := by
  induction n with
  | zero => right; simp [hr, hb, hb256]
  | succ n ih =>
    rw [Function.iterate_succ_apply']
    rcases ih with ih | ⟨ih1, ih2, ih3, ih4⟩
    · left
      rw [fade_channel_at_target _ (by rw [fade_channel_iterate_target]; exact ih)]; exact ih
    · have h := fade_channel_down_step (fade_channel^[n] c) ih2 ih3
        (by rw [fade_channel_iterate_target]; exact ih1)
        (by rw [fade_channel_iterate_speed]; exact hs)
      rw [fade_channel_iterate_target, fade_channel_iterate_speed] at h
      rcases h with h | ⟨h1, h2, h3, h4⟩
      · left; exact h
      · right
        refine ⟨h1, h2, h3, ?_⟩
        rw [Nat.succ_mul]; omega

/-- For speeds `1 ..= 0xFF80` the target is reached after `⌈65536 / speed⌉` steps. -/
theorem fade_channel_converges (c : channel_t) (hwf : c.wf) (h1 : 1 ≤ c.speed)
    (h2 : c.speed ≤ 65408) :
    (fade_channel^[(65536 + c.speed - 1) / c.speed] c).brightness = c.target_brightness := by
  have hN := ceil_mul_ge c.speed h1
  by_cases hfast : 65280 < c.speed
  · have e : (65536 + c.speed - 1) / c.speed = 2 := by
      apply Nat.div_eq_of_lt_le <;> omega
    rw [e]
    exact fade_channel_twice_fast c hwf hfast h2
  · simp only [channel_t.wf] at hwf
    rcases Nat.lt_trichotomy c.brightness c.target_brightness with hb | hb | hb
    · rcases fade_channel_up_iterate ((65536 + c.speed - 1) / c.speed) c hwf.1 hwf.2.2.1 hb
        (by omega) with h | ⟨h3, h4, h5⟩
      · exact h
      · exfalso
        simp only [channel_t.brightness_and_remainder] at h5
        omega
    · rw [fade_channel_iterate_at_target _ _ hb]; exact hb
    · rcases fade_channel_down_iterate ((65536 + c.speed - 1) / c.speed) c hwf.1 hwf.2.1 hb
        (by omega) with h | ⟨h3, h4, h5, h6⟩
      · exact h
      · exfalso
        simp only [channel_t.brightness_and_remainder] at h6
        omega

/-! ## Fading engine: the pass over the channel array -/

/-- The pass fades each of the channels 0, 1, 2 once and touches nothing else. -/
theorem update_brightness_eq (ch : Nat → channel_t) :
    update_brightness ch = fun k => if k < PWM_CHANNELS then fade_channel (ch k) else ch k := by
  funext k
  simp only [update_brightness, range_channels, List.foldl, upd, PWM_CHANNELS]
  by_cases h0 : k = 0
  · subst h0; simp
  by_cases h1 : k = 1
  · subst h1; simp
  by_cases h2 : k = 2
  · subst h2; simp
  have : ¬ k < 3 := by omega
  simp [h0, h1, h2, this]

/-- The pass applies the fading step to channel `i`. -/
theorem update_brightness_apply (ch : Nat → channel_t) (i : Nat) (hi : i < PWM_CHANNELS) :
    update_brightness ch i = fade_channel (ch i) := by
  rw [update_brightness_eq]; simp [hi]

/-- Repeated passes apply the fading step repeatedly to channel `i`. -/
theorem update_brightness_iterate (n : Nat) (ch : Nat → channel_t) (i : Nat)
    (hi : i < PWM_CHANNELS) :
    (update_brightness^[n] ch) i = fade_channel^[n] (ch i) := by
  induction n with
  | zero => rfl
  | succ n ih =>
    rw [Function.iterate_succ_apply', Function.iterate_succ_apply',
      update_brightness_apply _ _ hi, ih]

/-! ## Curve table -/

set_option maxRecDepth 100000 in
/-- Neighbouring table entries grow over the levels 1..180. -/
theorem table_low_step : ∀ i, i < 179 → pgm_read_word i < pgm_read_word (i + 1) := by
  decide

set_option maxRecDepth 100000 in
/-- Neighbouring table entries grow over the levels 181..254. -/
theorem table_high_step : ∀ i, i < 73 → pgm_read_word (180 + i) < pgm_read_word (180 + i + 1) := by
  decide

set_option maxRecDepth 100000 in
/-- Every table entry is below the timer TOP 64000. -/
theorem table_lt_top : ∀ i, i < 254 → pgm_read_word i < 64000 := by
  decide

/-- Strict monotonicity on an index range follows from strict growth between
neighbours. -/
theorem strict_mono_of_step (f : Nat → Nat) (lo hi : Nat)
    (h : ∀ i, lo ≤ i → i < hi → f i < f (i + 1)) (a b : Nat) (ha : lo ≤ a) (hab : a < b)
    (hb : b ≤ hi) : f a < f b := by
  induction b with
  | zero => omega
  | succ b ih =>
    by_cases e : a = b
    · subst e; exact h a ha (by omega)
    · have h1 := ih (by omega) (by omega)
      have h2 := h b (by omega) (by omega)
      omega

/-- The table is strictly increasing over the levels 1..180 (indices 0..179). -/
theorem table_strict_low (a b : Nat) (hab : a < b) (hb : b ≤ 179) :
    pgm_read_word a < pgm_read_word b :=
  strict_mono_of_step pgm_read_word 0 179 (fun i _ hi => table_low_step i hi) a b
    (Nat.zero_le _) hab hb

/-- The table is strictly increasing over the levels 181..254 (indices 180..253). -/
theorem table_strict_high (a b : Nat) (ha : 180 ≤ a) (hab : a < b) (hb : b ≤ 253) :
    pgm_read_word a < pgm_read_word b := by
  apply strict_mono_of_step pgm_read_word 180 253 _ a b ha hab hb
  intro i h1 h2
  have := table_high_step (i - 180) (by omega)
  rw [show 180 + (i - 180) = i by omega] at this
  exact this

/-- The three compare-and-swap steps of the exchange sort, unrolled. -/
theorem sort_channels_perm (ch : Nat → channel_t) :
    ∃ p q r, sort_channels ch 0 = p ∧ sort_channels ch 1 = q ∧ sort_channels ch 2 = r ∧
      ((p = 0 ∧ q = 1 ∧ r = 2) ∨ (p = 0 ∧ q = 2 ∧ r = 1) ∨ (p = 1 ∧ q = 0 ∧ r = 2) ∨
       (p = 1 ∧ q = 2 ∧ r = 0) ∨ (p = 2 ∧ q = 0 ∧ r = 1) ∨ (p = 2 ∧ q = 1 ∧ r = 0)) ∧
      (ch p).brightness ≤ (ch q).brightness ∧ (ch q).brightness ≤ (ch r).brightness := by
  have e : sort_channels ch =
      (fun s2 : Nat → Nat =>
        if (ch (s2 2)).brightness < (ch (s2 1)).brightness then upd (upd s2 1 (s2 2)) 2 (s2 1)
        else s2)
      ((fun s1 : Nat → Nat =>
        if (ch (s1 2)).brightness < (ch (s1 0)).brightness then upd (upd s1 0 (s1 2)) 2 (s1 0)
        else s1)
      ((fun s0 : Nat → Nat =>
        if (ch (s0 1)).brightness < (ch (s0 0)).brightness then upd (upd s0 0 (s0 1)) 1 (s0 0)
        else s0) (of_list [0, 1, 2]))) := rfl
  have e0 : of_list [0, 1, 2] 0 = 0 := rfl
  have e1 : of_list [0, 1, 2] 1 = 1 := rfl
  have e2 : of_list [0, 1, 2] 2 = 2 := rfl
  refine ⟨_, _, _, rfl, rfl, rfl, ?_⟩
  rw [e]
  simp only [e0, e1, e2]
  by_cases h1 : (ch 1).brightness < (ch 0).brightness <;>
  by_cases h2 : (ch 2).brightness < (ch 1).brightness <;>
  by_cases h3 : (ch 2).brightness < (ch 0).brightness <;>
  simp [h1, h2, h3, upd, e0, e1, e2, ite_apply] <;> (try split_ifs) <;> omega

/-- The sorted array holds channel indices. -/
theorem sort_channels_lt (ch : Nat → channel_t) (k : Nat) (hk : k < 3) :
    sort_channels ch k < 3 := by
  obtain ⟨p, q, r, e0, e1, e2, hperm, _, _⟩ := sort_channels_perm ch
  have : k = 0 ∨ k = 1 ∨ k = 2 := by omega
  rcases this with e | e | e <;> subst e <;> omega

/-- The sort only looks at the brightness of the channels. -/
theorem sort_channels_congr (ch ch' : Nat → channel_t)
    (h : ∀ c, (ch c).brightness = (ch' c).brightness) :
    sort_channels ch = sort_channels ch' := by
  unfold sort_channels
  simp only [h]

/-! ## Timeslot builder: one loop iteration -/

/-- A channel at 0 or 255 leaves the loop state unchanged. -/
theorem build_step_skip (cfg : config_t) (ch : Nat → channel_t) (s : Nat → Nat) (st : build_t)
    (i : Nat) (hd : ¬ dimmed (ch (s i))) : build_step cfg ch s st i = st := by
  unfold dimmed at hd
  simp only [build_step, gt_iff_lt, hd, if_false]

/-- A dimmed channel at the level emitted last is merged into the last slot. -/
theorem build_step_merge (cfg : config_t) (hinv : cfg.PWM_INVERTED = false)
    (ch : Nat → channel_t) (s : Nat → Nat) (st : build_t) (i : Nat)
    (hd : dimmed (ch (s i))) (hle : (ch (s i)).brightness ≤ st.last_brightness) :
    build_step cfg ch s st i =
      { st with
        slots := upd st.slots (st.j - 1)
          { st.slots (st.j - 1) with mask := and_not8 st.mask (ch (s i)).mask },
        mask := and_not8 st.mask (ch (s i)).mask } := by
  unfold dimmed at hd
  have h1 : ¬ (st.last_brightness < 181 ∧ (ch (s i)).brightness ≥ 181) := by omega
  have h2 : ¬ (st.last_brightness < (ch (s i)).brightness) := by omega
  simp [build_step, hd, h1, h2, hinv]

/-- A dimmed channel above the level emitted last gets a new slot. -/
theorem build_step_new (cfg : config_t) (hinv : cfg.PWM_INVERTED = false)
    (ch : Nat → channel_t) (s : Nat → Nat) (st : build_t) (i : Nat)
    (hd : dimmed (ch (s i))) (hgt : st.last_brightness < (ch (s i)).brightness)
    (hx : ¬ (st.last_brightness < 181 ∧ 181 ≤ (ch (s i)).brightness)) :
    build_step cfg ch s st i =
      { slots := upd st.slots st.j
          { mask := and_not8 st.mask (ch (s i)).mask,
            top := pgm_read_word ((ch (s i)).brightness - 1) },
        j := st.j + 1,
        mask := and_not8 st.mask (ch (s i)).mask,
        last_brightness := (ch (s i)).brightness } := by
  unfold dimmed at hd
  simp [build_step, hd, hx, hgt, hinv]

/-- A dimmed channel that crosses the threshold 181 gets the middle interrupt and
a new slot after it. -/
theorem build_step_cross (cfg : config_t) (hinv : cfg.PWM_INVERTED = false)
    (ch : Nat → channel_t) (s : Nat → Nat) (st : build_t) (i : Nat)
    (hd : dimmed (ch (s i))) (h1 : st.last_brightness < 181)
    (h2 : 181 ≤ (ch (s i)).brightness) :
    build_step cfg ch s st i =
      { slots := upd (upd st.slots st.j { st.slots st.j with top := 65000 }) (st.j + 1)
          { mask := and_not8 st.mask (ch (s i)).mask,
            top := pgm_read_word ((ch (s i)).brightness - 1) },
        j := st.j + 1 + 1,
        mask := and_not8 st.mask (ch (s i)).mask,
        last_brightness := (ch (s i)).brightness } := by
  unfold dimmed at hd
  have hgt : st.last_brightness < (ch (s i)).brightness := by omega
  simp [build_step, hd, h1, h2, hgt, hinv, insert_middle]

/-- The slot count, `last_brightness` and the `top` fields written by one loop
iteration do not depend on the channel masks or on the output polarity. -/
theorem build_step_shape (cfg cfg' : config_t) (ch ch' : Nat → channel_t) (s : Nat → Nat)
    (st st' : build_t) (i : Nat)
    (hb : (ch (s i)).brightness = (ch' (s i)).brightness)
    (hj : st.j = st'.j) (hl : st.last_brightness = st'.last_brightness)
    (ht : ∀ k, (st.slots k).top = (st'.slots k).top) :
    (build_step cfg ch s st i).j = (build_step cfg' ch' s st' i).j ∧
    (build_step cfg ch s st i).last_brightness =
      (build_step cfg' ch' s st' i).last_brightness ∧
    ∀ k, ((build_step cfg ch s st i).slots k).top = ((build_step cfg' ch' s st' i).slots k).top := by
  obtain ⟨sl, j, mk, lb⟩ := st
  obtain ⟨sl', j', mk', lb'⟩ := st'
  simp only at hj hl ht
  subst hj hl
  simp only [build_step, insert_middle, ← hb]
  split_ifs <;> refine ⟨rfl, rfl, ?_⟩ <;> intro k <;> simp only [upd] <;>
    (try split_ifs) <;> first | rfl | exact ht _

/-- The slot loop, unrolled. -/
theorem build_slots_unroll (cfg : config_t) (ch : Nat → channel_t) (prior : Nat → slot_t) :
    build_slots cfg ch prior =
      (fun st : build_t => if st.last_brightness < 181 then insert_middle st else st)
      (build_step cfg ch (sort_channels ch)
        (build_step cfg ch (sort_channels ch)
          (build_step cfg ch (sort_channels ch)
            { slots := prior, j := 0, mask := initial_bitmask cfg ch, last_brightness := 0 }
            0) 1) 2) := rfl

/-- The slot count and the `top` fields left by the slot loop depend only on the
brightness of the channels and on the `top` fields found in the slot array. -/
theorem build_slots_shape (cfg cfg' : config_t) (ch ch' : Nat → channel_t)
    (prior prior' : Nat → slot_t)
    (hb : ∀ c, (ch c).brightness = (ch' c).brightness)
    (ht : ∀ k, (prior k).top = (prior' k).top) :
    (build_slots cfg ch prior).j = (build_slots cfg' ch' prior').j ∧
    ∀ k, ((build_slots cfg ch prior).slots k).top = ((build_slots cfg' ch' prior').slots k).top := by
  have hs := sort_channels_congr ch ch' hb
  have e : ∀ (cfg : config_t) (ch : Nat → channel_t) (prior : Nat → slot_t),
      build_slots cfg ch prior =
        (fun st : build_t => if st.last_brightness < 181 then insert_middle st else st)
        (build_step cfg ch (sort_channels ch)
          (build_step cfg ch (sort_channels ch)
            (build_step cfg ch (sort_channels ch)
              { slots := prior, j := 0, mask := initial_bitmask cfg ch, last_brightness := 0 }
              0) 1) 2) := fun _ _ _ => rfl
  rw [e cfg ch prior, e cfg' ch' prior', ← hs]
  obtain ⟨a1, a2, a3⟩ := build_step_shape cfg cfg' ch ch' (sort_channels ch)
    { slots := prior, j := 0, mask := initial_bitmask cfg ch, last_brightness := 0 }
    { slots := prior', j := 0, mask := initial_bitmask cfg' ch', last_brightness := 0 }
    0 (hb _) rfl rfl ht
  obtain ⟨b1, b2, b3⟩ := build_step_shape cfg cfg' ch ch' (sort_channels ch) _ _ 1 (hb _) a1 a2 a3
  obtain ⟨c1, c2, c3⟩ := build_step_shape cfg cfg' ch ch' (sort_channels ch) _ _ 2 (hb _) b1 b2 b3
  simp only [← c2]
  split_ifs
  · refine ⟨by simp only [insert_middle, c1], fun k => ?_⟩
    simp only [insert_middle, upd, c1]
    split_ifs
    · rfl
    · exact c3 k
  · exact ⟨c1, c3⟩

/-- Without a dimmed channel the list consists of the middle interrupt alone. -/
theorem build_slots_no_dimmed (cfg : config_t) (ch : Nat → channel_t) (prior : Nat → slot_t)
    (h : ∀ c, c < 3 → ¬ dimmed (ch c)) :
    build_slots cfg ch prior =
      insert_middle
        { slots := prior, j := 0, mask := initial_bitmask cfg ch, last_brightness := 0 } := by
  rw [build_slots_unroll,
    build_step_skip cfg ch _ _ 0 (h _ (sort_channels_lt ch 0 (by omega))),
    build_step_skip cfg ch _ _ 1 (h _ (sort_channels_lt ch 1 (by omega))),
    build_step_skip cfg ch _ _ 2 (h _ (sort_channels_lt ch 2 (by omega)))]
  rfl

/-- The record `pwm` after `update_pwm_timeslots`. -/
theorem update_pwm_timeslots_pwm (cfg : config_t) (s : state_t) :
    (update_pwm_timeslots cfg s).pwm =
      { slots := (build_slots cfg s.channels s.pwm.slots).slots, index := 0,
        count := (build_slots cfg s.channels s.pwm.slots).j,
        next_bitmask := initial_bitmask cfg s.channels, new_cycle := 1 } := rfl

/-! ## Timeslot builder: emitted levels -/

/-- Before the first iteration no channel has been seen. -/
theorem seen_zero (s : Nat → Nat) (c : Nat) : ¬ seen s 0 c := by
  rintro ⟨k, hk, _⟩
  omega

/-- The channels seen after one more iteration. -/
theorem seen_succ (s : Nat → Nat) (i c : Nat) : seen s (i + 1) c ↔ seen s i c ∨ s i = c := by
  unfold seen
  constructor
  · rintro ⟨k, hk, e⟩
    by_cases h : k = i
    · right; subst h; exact e
    · left; exact ⟨k, by omega, e⟩
  · rintro (⟨k, hk, e⟩ | e)
    · exact ⟨k, by omega, e⟩
    · exact ⟨i, by omega, e⟩

/-- In a sorted array the channels seen so far are no brighter than the next one. -/
theorem seen_le (ch : Nat → channel_t) (s : Nat → Nat) (i c : Nat)
    (hsorted : ∀ k, k < i → (ch (s k)).brightness ≤ (ch (s i)).brightness)
    (h : seen s i c) : (ch c).brightness ≤ (ch (s i)).brightness := by
  obtain ⟨k, hk, e⟩ := h
  rw [← e]; exact hsorted k hk

/-- A channel that is not dimmed does not change which dimmed channels were seen. -/
theorem seen_skip (ch : Nat → channel_t) (s : Nat → Nat) (i c : Nat)
    (hd : ¬ dimmed (ch (s i))) :
    (dimmed (ch c) ∧ seen s (i + 1) c) ↔ (dimmed (ch c) ∧ seen s i c) := by
  rw [seen_succ]
  constructor
  · rintro ⟨h1, h2 | h2⟩
    · exact ⟨h1, h2⟩
    · subst h2; exact absurd h1 hd
  · rintro ⟨h1, h2⟩
    exact ⟨h1, Or.inl h2⟩

/-- Every emitted level is at most `last_brightness`. -/
theorem levels_inv.lv_le_last {ch : Nat → channel_t} {s : Nat → Nat} {i m a : Nat} {lv : Nat → Nat}
    {last : Nat} (h : levels_inv ch s i m a lv last) (n : Nat) (hn : n < m) : lv n ≤ last := by
  have e := h.last_eq
  have hm : m ≠ 0 := by omega
  rw [if_neg hm] at e
  by_cases hn' : n = m - 1
  · rw [e, hn']
  · have := h.mono n (m - 1) (by omega) (by omega)
    omega

/-- Every emitted level lies in 1..254. -/
theorem levels_inv.lv_pos {ch : Nat → channel_t} {s : Nat → Nat} {i m a : Nat} {lv : Nat → Nat}
    {last : Nat} (h : levels_inv ch s i m a lv last) (n : Nat) (hn : n < m) :
    0 < lv n ∧ lv n < 255 := by
  obtain ⟨k, _, hd, e⟩ := h.from_ch n hn
  unfold dimmed at hd
  omega

/-- Before the middle interrupt every emitted level lies below 181. -/
theorem levels_inv.a_eq {ch : Nat → channel_t} {s : Nat → Nat} {i m a : Nat} {lv : Nat → Nat}
    {last : Nat} (h : levels_inv ch s i m a lv last) (hl : last < 181) : a = m := by
  have e := h.last_eq
  have := h.a_le
  by_cases hm : m = 0
  · omega
  · rw [if_neg hm] at e
    by_contra hne
    have := h.high (m - 1) (by omega) (by omega)
    omega

/-- After the middle interrupt some emitted level lies at or above 181. -/
theorem levels_inv.a_lt {ch : Nat → channel_t} {s : Nat → Nat} {i m a : Nat} {lv : Nat → Nat}
    {last : Nat} (h : levels_inv ch s i m a lv last) (hl : 181 ≤ last) : a < m := by
  have e := h.last_eq
  by_cases hm : m = 0
  · rw [if_pos hm] at e; omega
  · rw [if_neg hm] at e
    by_contra hne
    have := h.low (m - 1) (by omega)
    omega

/-- In a sorted array `last_brightness` is at most the brightness of the next
channel. -/
theorem levels_inv.last_le {ch : Nat → channel_t} {s : Nat → Nat} {i m a : Nat} {lv : Nat → Nat}
    {last : Nat} (h : levels_inv ch s i m a lv last)
    (hsorted : ∀ k, k < i → (ch (s k)).brightness ≤ (ch (s i)).brightness) :
    last ≤ (ch (s i)).brightness := by
  have e := h.last_eq
  by_cases hm : m = 0
  · rw [if_pos hm] at e; omega
  · rw [if_neg hm] at e
    obtain ⟨k, hk, _, e'⟩ := h.from_ch (m - 1) (by omega)
    have := hsorted k hk
    omega

/-- A channel that is not dimmed leaves the emitted levels unchanged. -/
theorem levels_inv.skip_channel {ch : Nat → channel_t} {s : Nat → Nat} {i m a : Nat} {lv : Nat → Nat}
    {last : Nat} (h : levels_inv ch s i m a lv last) (hd : ¬ dimmed (ch (s i))) :
    levels_inv ch s (i + 1) m a lv last where
  a_le := h.a_le
  m_le := by have := h.m_le; omega
  mono := h.mono
  from_ch := fun n hn => by
    obtain ⟨k, hk, r⟩ := h.from_ch n hn
    exact ⟨k, by omega, r⟩
  covers := fun k hk hdk => by
    by_cases e : k = i
    · subst e; exact absurd hdk hd
    · exact h.covers k (by omega) hdk
  last_eq := h.last_eq
  low := h.low
  high := h.high

/-- A dimmed channel at the level emitted last leaves the emitted levels unchanged. -/
theorem levels_inv.merge_level {ch : Nat → channel_t} {s : Nat → Nat} {i m a : Nat} {lv : Nat → Nat}
    {last : Nat} (h : levels_inv ch s i m a lv last) (hd : dimmed (ch (s i)))
    (he : (ch (s i)).brightness = last) :
    levels_inv ch s (i + 1) m a lv last where
  a_le := h.a_le
  m_le := by have := h.m_le; omega
  mono := h.mono
  from_ch := fun n hn => by
    obtain ⟨k, hk, r⟩ := h.from_ch n hn
    exact ⟨k, by omega, r⟩
  covers := fun k hk hdk => by
    by_cases e : k = i
    · subst e
      have e' := h.last_eq
      have hm : m ≠ 0 := by
        intro hm; rw [if_pos hm] at e'; unfold dimmed at hd; omega
      rw [if_neg hm] at e'
      exact ⟨m - 1, by omega, by omega⟩
    · exact h.covers k (by omega) hdk
  last_eq := h.last_eq
  low := h.low
  high := h.high

/-- A dimmed channel above the level emitted last appends its level. -/
theorem levels_inv.extend_level {ch : Nat → channel_t} {s : Nat → Nat} {i m a : Nat} {lv : Nat → Nat}
    {last : Nat} (h : levels_inv ch s i m a lv last) (hd : dimmed (ch (s i)))
    (hgt : last < (ch (s i)).brightness) :
    levels_inv ch s (i + 1) (m + 1) (if (ch (s i)).brightness < 181 then m + 1 else a)
      (upd lv m (ch (s i)).brightness) (ch (s i)).brightness where
  a_le := by have := h.a_le; split_ifs <;> omega
  m_le := by have := h.m_le; omega
  mono := fun n n' h1 h2 => by
    by_cases e : n' = m
    · subst e
      rw [upd_eq, upd_ne _ _ _ _ (by omega)]
      have := h.lv_le_last n h1
      omega
    · rw [upd_ne _ _ _ _ e, upd_ne _ _ _ _ (by omega)]
      exact h.mono n n' h1 (by omega)
  from_ch := fun n hn => by
    by_cases e : n = m
    · subst e
      exact ⟨i, by omega, hd, by rw [upd_eq]⟩
    · obtain ⟨k, hk, r⟩ := h.from_ch n (by omega)
      exact ⟨k, by omega, by rw [upd_ne _ _ _ _ e]; exact r⟩
  covers := fun k hk hdk => by
    by_cases e : k = i
    · subst e; exact ⟨m, by omega, by rw [upd_eq]⟩
    · obtain ⟨n, hn, r⟩ := h.covers k (by omega) hdk
      exact ⟨n, by omega, by rw [upd_ne _ _ _ _ (by omega)]; exact r⟩
  last_eq := by simp [upd_eq]
  low := fun n hn => by
    by_cases hb : (ch (s i)).brightness < 181
    · rw [if_pos hb] at hn
      by_cases e : n = m
      · subst e; rw [upd_eq]; exact hb
      · rw [upd_ne _ _ _ _ e]
        have := h.lv_le_last n (by omega)
        omega
    · rw [if_neg hb] at hn
      have := h.a_le
      rw [upd_ne _ _ _ _ (by omega)]
      exact h.low n hn
  high := fun n h1 h2 => by
    by_cases hb : (ch (s i)).brightness < 181
    · rw [if_pos hb] at h1; omega
    · rw [if_neg hb] at h1
      by_cases e : n = m
      · subst e; rw [upd_eq]; omega
      · rw [upd_ne _ _ _ _ e]
        exact h.high n h1 (by omega)

/-! ## Timeslot builder: loop invariant -/

/-- Clearing the bit of the dimmed channel `s i` turns the mask of the channels
not yet switched off after `i` iterations into the one after `i + 1`. -/
theorem mask_step (ch : Nat → channel_t) (s : Nat → Nat) (i x : Nat)
    (hbits : ∀ c, x.testBit c = true ↔
      (c < 3 ∧ 0 < (ch c).brightness ∧ ¬ (dimmed (ch c) ∧ seen s i c)))
    (hd : dimmed (ch (s i))) (hs : s i < 3) (c : Nat) :
    (and_not8 x (_BV (s i))).testBit c = true ↔
      (c < 3 ∧ 0 < (ch c).brightness ∧ ¬ (dimmed (ch c) ∧ seen s (i + 1) c)) := by
  rw [and_not8_BV_testBit _ _ _ (by omega)]
  simp only [Bool.and_eq_true, decide_eq_true_eq, hbits c, seen_succ]
  constructor
  · rintro ⟨⟨⟨h1, h2, h3⟩, _⟩, h5⟩
    refine ⟨h1, h2, ?_⟩
    rintro ⟨h6, h7 | h7⟩
    · exact h3 ⟨h6, h7⟩
    · exact h5 h7.symm
  · rintro ⟨h1, h2, h3⟩
    refine ⟨⟨⟨h1, h2, fun h => h3 ⟨h.1, Or.inl h.2⟩⟩, by omega⟩, ?_⟩
    intro e
    subst e
    exact h3 ⟨hd, Or.inr rfl⟩

/-- The slot of the level of channel `s i` switches off every dimmed channel
seen so far. -/
theorem bits_top (ch : Nat → channel_t) (s : Nat → Nat) (i : Nat)
    (hsorted : ∀ k, k < i → (ch (s k)).brightness ≤ (ch (s i)).brightness) (c : Nat) :
    (c < 3 ∧ 0 < (ch c).brightness ∧ ¬ (dimmed (ch c) ∧ seen s (i + 1) c)) ↔
    (c < 3 ∧ 0 < (ch c).brightness ∧
      ¬ (dimmed (ch c) ∧ seen s (i + 1) c ∧ (ch c).brightness ≤ (ch (s i)).brightness)) := by
  have key : seen s (i + 1) c → (ch c).brightness ≤ (ch (s i)).brightness := by
    rw [seen_succ]
    rintro (h | h)
    · exact seen_le ch s i c hsorted h
    · rw [h]
  constructor
  · rintro ⟨h1, h2, h3⟩
    exact ⟨h1, h2, fun h => h3 ⟨h.1, h.2.1⟩⟩
  · rintro ⟨h1, h2, h3⟩
    exact ⟨h1, h2, fun h => h3 ⟨h.1, h.2, key h.2⟩⟩

/-- Slots of levels below the brightness of channel `s i` are not affected by
iteration `i`. -/
theorem bits_old (ch : Nat → channel_t) (s : Nat → Nat) (i L : Nat)
    (hL : L < (ch (s i)).brightness) (c : Nat) :
    (c < 3 ∧ 0 < (ch c).brightness ∧
      ¬ (dimmed (ch c) ∧ seen s i c ∧ (ch c).brightness ≤ L)) ↔
    (c < 3 ∧ 0 < (ch c).brightness ∧
      ¬ (dimmed (ch c) ∧ seen s (i + 1) c ∧ (ch c).brightness ≤ L)) := by
  rw [seen_succ]
  constructor
  · rintro ⟨h1, h2, h3⟩
    refine ⟨h1, h2, ?_⟩
    rintro ⟨h4, h5 | h5, h6⟩
    · exact h3 ⟨h4, h5, h6⟩
    · subst h5; omega
  · rintro ⟨h1, h2, h3⟩
    exact ⟨h1, h2, fun h => h3 ⟨h.1, Or.inl h.2.1, h.2.2⟩⟩

/-- Every level slot lies below the write index `j`. -/
theorem slot_pos_lt_j {ch : Nat → channel_t} {s : Nat → Nat} {prior : Nat → slot_t} {i : Nat}
    {st : build_t} {m a : Nat} {lv : Nat → Nat}
    (hl : levels_inv ch s i m a lv st.last_brightness) (h : slots_inv ch s prior i st m a lv)
    (n : Nat) (hn : n < m) : slot_pos a n < st.j := by
  have hj := h.j_eq
  unfold slot_pos
  by_cases hlast : 181 ≤ st.last_brightness
  · rw [if_pos hlast] at hj
    split_ifs <;> omega
  · have := hl.a_eq (by omega)
    rw [if_neg hlast] at hj
    split_ifs <;> omega

/-- The loop invariant is kept by a channel at 0 or 255. -/
theorem slots_skip {ch : Nat → channel_t} {s : Nat → Nat} {prior : Nat → slot_t} {i : Nat}
    {st : build_t} {m a : Nat} {lv : Nat → Nat}
    (h : slots_inv ch s prior i st m a lv) (hd : ¬ dimmed (ch (s i))) :
    slots_inv ch s prior (i + 1) st m a lv where
  j_eq := h.j_eq
  mask_bits := fun c => by rw [seen_skip ch s i c hd]; exact h.mask_bits c
  slot_top := h.slot_top
  slot_bits := fun n hn c => by
    have key := seen_skip ch s i c hd
    rw [h.slot_bits n hn c]
    constructor
    · rintro ⟨h1, h2, h3⟩
      exact ⟨h1, h2, fun g => h3 ⟨g.1, (key.1 ⟨g.1, g.2.1⟩).2, g.2.2⟩⟩
    · rintro ⟨h1, h2, h3⟩
      exact ⟨h1, h2, fun g => h3 ⟨g.1, (key.2 ⟨g.1, g.2.1⟩).2, g.2.2⟩⟩
  middle := h.middle
  rest := h.rest

/-- The loop invariant is kept by a dimmed channel at the level emitted last. -/
theorem slots_merge {cfg : config_t} {ch : Nat → channel_t} {s : Nat → Nat}
    {prior : Nat → slot_t} {i : Nat} {st : build_t} {m a : Nat} {lv : Nat → Nat}
    (hinv : cfg.PWM_INVERTED = false)
    (hl : levels_inv ch s i m a lv st.last_brightness) (h : slots_inv ch s prior i st m a lv)
    (hd : dimmed (ch (s i))) (he : (ch (s i)).brightness = st.last_brightness)
    (hs : s i < 3) (hmask : (ch (s i)).mask = _BV (s i))
    (hsorted : ∀ k, k < i → (ch (s k)).brightness ≤ (ch (s i)).brightness) :
    slots_inv ch s prior (i + 1) (build_step cfg ch s st i) m a lv := by
  rw [build_step_merge cfg hinv ch s st i hd (by omega), hmask]
  have hm : m ≠ 0 := by
    intro hm
    have e := hl.last_eq
    rw [if_pos hm] at e
    unfold dimmed at hd; omega
  have hlast : st.last_brightness = lv (m - 1) := by
    have e := hl.last_eq
    rw [if_neg hm] at e; exact e
  have hj := h.j_eq
  have hpos : slot_pos a (m - 1) = st.j - 1 := by
    unfold slot_pos
    by_cases hlast' : 181 ≤ st.last_brightness
    · have := hl.a_lt hlast'
      rw [if_pos hlast'] at hj
      split_ifs <;> omega
    · have := hl.a_eq (by omega)
      rw [if_neg hlast'] at hj
      split_ifs <;> omega
  have hother : ∀ n, n < m → n ≠ m - 1 → slot_pos a n ≠ st.j - 1 := by
    intro n hn hne
    rw [← hpos]
    unfold slot_pos
    split_ifs <;> omega
  refine
    { j_eq := h.j_eq
      mask_bits := mask_step ch s i st.mask h.mask_bits hd hs
      slot_top := ?_
      slot_bits := ?_
      middle := ?_
      rest := ?_ }
  · intro n hn
    simp only
    by_cases e : n = m - 1
    · subst e
      rw [hpos, upd_eq]
      simp only
      rw [← hpos]
      exact h.slot_top (m - 1) hn
    · rw [upd_ne _ _ _ _ (hother n hn e)]
      exact h.slot_top n hn
  · intro n hn c
    simp only
    by_cases e : n = m - 1
    · subst e
      rw [hpos, upd_eq]
      simp only
      rw [mask_step ch s i st.mask h.mask_bits hd hs c, bits_top ch s i hsorted c, he, hlast]
    · rw [upd_ne _ _ _ _ (hother n hn e), h.slot_bits n hn c]
      have := hl.mono n (m - 1) (by omega) (by omega)
      exact bits_old ch s i (lv n) (by omega) c
  · intro hlast'
    simp only at hlast' ⊢
    have := hl.a_lt hlast'
    rw [if_pos hlast'] at hj
    rw [upd_ne _ _ _ _ (by omega)]
    exact h.middle hlast'
  · intro p hp
    simp only at hp ⊢
    have : 0 < st.j := by
      have := slot_pos_lt_j hl h (m - 1) (by omega)
      omega
    rw [upd_ne _ _ _ _ (by omega)]
    exact h.rest p hp

/-- The loop invariant is kept by a dimmed channel that gets a new slot without
crossing the threshold 181. -/
theorem slots_new {cfg : config_t} {ch : Nat → channel_t} {s : Nat → Nat}
    {prior : Nat → slot_t} {i : Nat} {st : build_t} {m a : Nat} {lv : Nat → Nat}
    (hinv : cfg.PWM_INVERTED = false)
    (hl : levels_inv ch s i m a lv st.last_brightness) (h : slots_inv ch s prior i st m a lv)
    (hd : dimmed (ch (s i))) (hgt : st.last_brightness < (ch (s i)).brightness)
    (hx : ¬ (st.last_brightness < 181 ∧ 181 ≤ (ch (s i)).brightness))
    (hs : s i < 3) (hmask : (ch (s i)).mask = _BV (s i))
    (hsorted : ∀ k, k < i → (ch (s k)).brightness ≤ (ch (s i)).brightness) :
    slots_inv ch s prior (i + 1) (build_step cfg ch s st i) (m + 1)
      (if (ch (s i)).brightness < 181 then m + 1 else a) (upd lv m (ch (s i)).brightness) := by
  rw [build_step_new cfg hinv ch s st i hd hgt hx, hmask]
  have hj := h.j_eq
  have hale := hl.a_le
  have hcase : ((ch (s i)).brightness < 181 ∧ st.last_brightness < 181 ∧ a = m ∧ st.j = m) ∨
      (181 ≤ (ch (s i)).brightness ∧ 181 ≤ st.last_brightness ∧ a < m ∧ st.j = m + 1) := by
    by_cases hlast : 181 ≤ st.last_brightness
    · right
      rw [if_pos hlast] at hj
      exact ⟨by omega, hlast, hl.a_lt hlast, hj⟩
    · left
      rw [if_neg hlast] at hj
      exact ⟨by omega, by omega, hl.a_eq (by omega), hj⟩
  have hposm : slot_pos (if (ch (s i)).brightness < 181 then m + 1 else a) m = st.j := by
    unfold slot_pos
    rcases hcase with ⟨h1, _, _, h4⟩ | ⟨h1, _, _, h4⟩
    · rw [if_pos h1]; split_ifs <;> omega
    · rw [if_neg (show ¬ (ch (s i)).brightness < 181 by omega)]; split_ifs <;> omega
  have hposn : ∀ n, n < m →
      slot_pos (if (ch (s i)).brightness < 181 then m + 1 else a) n = slot_pos a n := by
    intro n hn
    unfold slot_pos
    rcases hcase with ⟨h1, _, h3, _⟩ | ⟨h1, _, _, _⟩
    · rw [if_pos h1]; split_ifs <;> omega
    · rw [if_neg (show ¬ (ch (s i)).brightness < 181 by omega)]
  have hlt : ∀ n, n < m → slot_pos a n ≠ st.j := by
    intro n hn
    have := slot_pos_lt_j hl h n hn
    omega
  refine
    { j_eq := ?_
      mask_bits := mask_step ch s i st.mask h.mask_bits hd hs
      slot_top := ?_
      slot_bits := ?_
      middle := ?_
      rest := ?_ }
  · simp only
    rcases hcase with ⟨h1, _, _, h4⟩ | ⟨h1, _, _, h4⟩
    · rw [if_neg (show ¬ 181 ≤ (ch (s i)).brightness by omega), h4]
    · rw [if_pos h1, h4]
  · intro n hn
    simp only
    by_cases e : n = m
    · subst e
      rw [hposm, upd_eq, upd_eq]
    · rw [hposn n (by omega), upd_ne _ _ _ _ (hlt n (by omega)), upd_ne _ _ _ _ e]
      exact h.slot_top n (by omega)
  · intro n hn c
    simp only
    by_cases e : n = m
    · subst e
      rw [hposm, upd_eq, upd_eq]
      simp only
      rw [mask_step ch s i st.mask h.mask_bits hd hs c, bits_top ch s i hsorted c]
    · rw [hposn n (by omega), upd_ne _ _ _ _ (hlt n (by omega)), upd_ne _ _ _ _ e,
        h.slot_bits n (by omega) c]
      have := hl.lv_le_last n (by omega)
      exact bits_old ch s i (lv n) (by omega) c
  · intro hb
    simp only at hb ⊢
    rcases hcase with ⟨h1, _, _, _⟩ | ⟨_, h2, h3, h4⟩
    · omega
    · rw [if_neg (show ¬ (ch (s i)).brightness < 181 by omega), upd_ne _ _ _ _ (by omega)]
      exact h.middle h2
  · intro p hp
    simp only at hp ⊢
    rw [upd_ne _ _ _ _ (by omega)]
    exact h.rest p (by omega)

/-- The loop invariant is kept by a dimmed channel that crosses the threshold 181. -/
theorem slots_cross {cfg : config_t} {ch : Nat → channel_t} {s : Nat → Nat}
    {prior : Nat → slot_t} {i : Nat} {st : build_t} {m a : Nat} {lv : Nat → Nat}
    (hinv : cfg.PWM_INVERTED = false)
    (hl : levels_inv ch s i m a lv st.last_brightness) (h : slots_inv ch s prior i st m a lv)
    (hd : dimmed (ch (s i))) (h1 : st.last_brightness < 181)
    (h2 : 181 ≤ (ch (s i)).brightness)
    (hs : s i < 3) (hmask : (ch (s i)).mask = _BV (s i))
    (hsorted : ∀ k, k < i → (ch (s k)).brightness ≤ (ch (s i)).brightness) :
    slots_inv ch s prior (i + 1) (build_step cfg ch s st i) (m + 1)
      (if (ch (s i)).brightness < 181 then m + 1 else a) (upd lv m (ch (s i)).brightness) := by
  rw [build_step_cross cfg hinv ch s st i hd h1 h2, hmask,
    if_neg (show ¬ (ch (s i)).brightness < 181 by omega)]
  have hj : st.j = m := by
    have := h.j_eq
    rw [if_neg (show ¬ 181 ≤ st.last_brightness by omega)] at this
    omega
  have ha : a = m := hl.a_eq h1
  have hposm : slot_pos a m = st.j + 1 := by
    unfold slot_pos
    split_ifs <;> omega
  have hposn : ∀ n, n < m → slot_pos a n = n := by
    intro n hn
    unfold slot_pos
    split_ifs <;> omega
  refine
    { j_eq := ?_
      mask_bits := mask_step ch s i st.mask h.mask_bits hd hs
      slot_top := ?_
      slot_bits := ?_
      middle := ?_
      rest := ?_ }
  · simp only
    rw [if_pos h2, hj]
  · intro n hn
    simp only
    by_cases e : n = m
    · subst e
      rw [hposm, upd_eq, upd_eq]
    · have hp := hposn n (by omega)
      have e1 := h.slot_top n (by omega)
      rw [hp] at e1
      rw [hp, upd_ne _ _ _ _ (by omega), upd_ne _ _ _ _ (by omega), upd_ne _ _ _ _ e]
      exact e1
  · intro n hn c
    simp only
    by_cases e : n = m
    · subst e
      rw [hposm, upd_eq, upd_eq]
      simp only
      rw [mask_step ch s i st.mask h.mask_bits hd hs c, bits_top ch s i hsorted c]
    · have hp := hposn n (by omega)
      have e1 := h.slot_bits n (by omega) c
      rw [hp] at e1
      rw [hp, upd_ne _ _ _ _ (by omega), upd_ne _ _ _ _ (by omega), upd_ne _ _ _ _ e, e1]
      have := hl.lv_le_last n (by omega)
      exact bits_old ch s i (lv n) (by omega) c
  · intro _
    simp only
    rw [upd_ne _ _ _ _ (by omega), ha, ← hj, upd_eq, h.rest st.j (le_refl _)]
  · intro p hp
    simp only at hp ⊢
    rw [upd_ne _ _ _ _ (by omega), upd_ne _ _ _ _ (by omega)]
    exact h.rest p (by omega)

/-- One iteration of the slot loop preserves the loop invariant. -/
theorem build_step_inv {cfg : config_t} {ch : Nat → channel_t} {s : Nat → Nat}
    {prior : Nat → slot_t} {i : Nat} {st : build_t} {m a : Nat} {lv : Nat → Nat}
    (hinv : cfg.PWM_INVERTED = false)
    (hl : levels_inv ch s i m a lv st.last_brightness) (h : slots_inv ch s prior i st m a lv)
    (hs : s i < 3) (hmask : (ch (s i)).mask = _BV (s i))
    (hsorted : ∀ k, k < i → (ch (s k)).brightness ≤ (ch (s i)).brightness) :
    ∃ m' a' lv',
      levels_inv ch s (i + 1) m' a' lv' (build_step cfg ch s st i).last_brightness ∧
      slots_inv ch s prior (i + 1) (build_step cfg ch s st i) m' a' lv' := by
  by_cases hd : dimmed (ch (s i))
  · by_cases hgt : st.last_brightness < (ch (s i)).brightness
    · refine ⟨m + 1, if (ch (s i)).brightness < 181 then m + 1 else a,
        upd lv m (ch (s i)).brightness, ?_, ?_⟩
      · have e : (build_step cfg ch s st i).last_brightness = (ch (s i)).brightness := by
          by_cases hx : st.last_brightness < 181 ∧ 181 ≤ (ch (s i)).brightness
          · rw [build_step_cross cfg hinv ch s st i hd hx.1 hx.2]
          · rw [build_step_new cfg hinv ch s st i hd hgt hx]
        rw [e]
        exact hl.extend_level hd hgt
      · by_cases hx : st.last_brightness < 181 ∧ 181 ≤ (ch (s i)).brightness
        · exact slots_cross hinv hl h hd hx.1 hx.2 hs hmask hsorted
        · exact slots_new hinv hl h hd hgt hx hs hmask hsorted
    · have he : (ch (s i)).brightness = st.last_brightness := by
        have := hl.last_le hsorted
        omega
      refine ⟨m, a, lv, ?_, slots_merge hinv hl h hd he hs hmask hsorted⟩
      rw [build_step_merge cfg hinv ch s st i hd (by omega)]
      exact hl.merge_level hd he
  · rw [build_step_skip cfg ch s st i hd]
    exact ⟨m, a, lv, hl.skip_channel hd, slots_skip h hd⟩

/-- Bit `c` of the initial bitmask is set exactly for the channels `c < 3`
with non-zero brightness (non-inverted build, channel masks `_BV c`). -/
theorem initial_bitmask_testBit (cfg : config_t) (ch : Nat → channel_t)
    (hinv : cfg.PWM_INVERTED = false) (hmask : ∀ c, c < 3 → (ch c).mask = _BV c) (c : Nat) :
    (initial_bitmask cfg ch).testBit c = true ↔ (c < 3 ∧ 0 < (ch c).brightness) := by
  simp only [initial_bitmask, range_channels, List.foldl, hinv, hmask 0 (by omega),
    hmask 1 (by omega), hmask 2 (by omega), Bool.false_eq_true, if_false, gt_iff_lt]
  rw [ite_or_BV_testBit, ite_or_BV_testBit, ite_or_BV_testBit]
  simp only [Nat.zero_testBit, Bool.false_eq_true, false_or]
  constructor
  · rintro ((⟨h, e⟩ | ⟨h, e⟩) | ⟨h, e⟩) <;> subst e <;> exact ⟨by omega, h⟩
  · rintro ⟨h1, h2⟩
    have : c = 0 ∨ c = 1 ∨ c = 2 := by omega
    rcases this with e | e | e <;> subst e
    · exact Or.inl (Or.inl ⟨h2, rfl⟩)
    · exact Or.inl (Or.inr ⟨h2, rfl⟩)
    · exact Or.inr ⟨h2, rfl⟩

/-- The loop invariant at the end of the loop, with the trailing middle
interrupt, gives the description of the final slot array. -/
theorem schedule_of_inv {ch : Nat → channel_t} {s : Nat → Nat} {prior : Nat → slot_t}
    {st : build_t} {m a : Nat} {lv : Nat → Nat}
    (hl : levels_inv ch s 3 m a lv st.last_brightness) (h : slots_inv ch s prior 3 st m a lv)
    (hs : ∀ k, k < 3 → s k < 3) (hsurj : ∀ c, c < 3 → seen s 3 c) :
    schedule_spec ch prior (if st.last_brightness < 181 then insert_middle st else st)
      m a lv := by
  have hj := h.j_eq
  have hlevels : ∀ L, (∃ n, n < m ∧ lv n = L) ↔
      (∃ c, c < 3 ∧ dimmed (ch c) ∧ (ch c).brightness = L) := by
    intro L
    constructor
    · rintro ⟨n, hn, e⟩
      obtain ⟨k, hk, hd, e'⟩ := hl.from_ch n hn
      exact ⟨s k, hs k hk, hd, by omega⟩
    · rintro ⟨c, hc, hd, e⟩
      obtain ⟨k, hk, e'⟩ := hsurj c hc
      subst e'
      obtain ⟨n, hn, e''⟩ := hl.covers k hk hd
      exact ⟨n, hn, by omega⟩
  have hbits : ∀ n, n < m → ∀ c,
      (c < 3 ∧ 0 < (ch c).brightness ∧
        ¬ (dimmed (ch c) ∧ seen s 3 c ∧ (ch c).brightness ≤ lv n)) ↔
      (c < 3 ∧ lv n < (ch c).brightness) := by
    intro n hn c
    have hp := hl.lv_pos n hn
    constructor
    · rintro ⟨h1, h2, h3⟩
      refine ⟨h1, ?_⟩
      by_contra hle
      exact h3 ⟨⟨h2, by omega⟩, hsurj c h1, by omega⟩
    · rintro ⟨h1, h2⟩
      exact ⟨h1, by omega, fun g => by omega⟩
  by_cases hlast : st.last_brightness < 181
  · rw [if_pos hlast]
    have ha : a = m := hl.a_eq hlast
    rw [if_neg (show ¬ 181 ≤ st.last_brightness by omega)] at hj
    have hjm : st.j = m := by omega
    have hpos : ∀ n, n < m → slot_pos a n ≠ st.j := by
      intro n hn
      unfold slot_pos
      split_ifs <;> omega
    refine
      { a_le := hl.a_le
        m_le := hl.m_le
        mono := hl.mono
        levels := hlevels
        low := hl.low
        high := hl.high
        count_eq := ?_
        slot_top := ?_
        slot_bits := ?_
        middle_top := ?_
        middle_mask := ?_
        rest := ?_ }
    · simp only [insert_middle]; omega
    · intro n hn
      simp only [insert_middle]
      rw [upd_ne _ _ _ _ (hpos n hn)]
      exact h.slot_top n hn
    · intro n hn c
      simp only [insert_middle]
      rw [upd_ne _ _ _ _ (hpos n hn), h.slot_bits n hn c]
      exact hbits n hn c
    · simp only [insert_middle]
      rw [ha, ← hjm, upd_eq]
    · simp only [insert_middle]
      rw [ha, ← hjm, upd_eq, h.rest st.j (le_refl _)]
    · intro p hp
      simp only [insert_middle]
      rw [upd_ne _ _ _ _ (by omega)]
      exact h.rest p (by omega)
  · rw [if_neg hlast]
    rw [if_pos (show 181 ≤ st.last_brightness by omega)] at hj
    have hmid := h.middle (by omega)
    exact
      { a_le := hl.a_le
        m_le := hl.m_le
        mono := hl.mono
        levels := hlevels
        low := hl.low
        high := hl.high
        count_eq := hj
        slot_top := h.slot_top
        slot_bits := fun n hn c => by rw [h.slot_bits n hn c]; exact hbits n hn c
        middle_top := by rw [hmid]
        middle_mask := by rw [hmid]
        rest := fun p hp => h.rest p (by omega) }

/-- The slot array written by `update_pwm_timeslots` (non-inverted build, channel
masks `_BV c`) is described by the distinct dimmed brightness levels. -/
theorem build_slots_spec (cfg : config_t) (ch : Nat → channel_t) (prior : Nat → slot_t)
    (hinv : cfg.PWM_INVERTED = false) (hmask : ∀ c, c < 3 → (ch c).mask = _BV c) :
    ∃ m a lv, schedule_spec ch prior (build_slots cfg ch prior) m a lv := by
  obtain ⟨p, q, r, e0, e1, e2, hperm, h01, h12⟩ := sort_channels_perm ch
  have hs : ∀ k, k < 3 → sort_channels ch k < 3 := by
    intro k hk
    have : k = 0 ∨ k = 1 ∨ k = 2 := by omega
    rcases this with e | e | e <;> subst e <;> omega
  have hsurj : ∀ c, c < 3 → seen (sort_channels ch) 3 c := by
    intro c hc
    unfold seen
    have : c = p ∨ c = q ∨ c = r := by omega
    rcases this with e | e | e
    · exact ⟨0, by omega, by omega⟩
    · exact ⟨1, by omega, by omega⟩
    · exact ⟨2, by omega, by omega⟩
  have hsorted : ∀ i, i < 3 → ∀ k, k < i →
      (ch (sort_channels ch k)).brightness ≤ (ch (sort_channels ch i)).brightness := by
    intro i hi k hk
    have : (i = 1 ∧ k = 0) ∨ (i = 2 ∧ k = 0) ∨ (i = 2 ∧ k = 1) := by omega
    rcases this with ⟨e, e'⟩ | ⟨e, e'⟩ | ⟨e, e'⟩ <;> subst e <;> subst e' <;>
      rw [e0, e1, e2] at * <;> omega
  have hm : ∀ k, k < 3 →
      (ch (sort_channels ch k)).mask = _BV (sort_channels ch k) :=
    fun k hk => hmask _ (hs k hk)
  have L0 : levels_inv ch (sort_channels ch) 0 0 0 (fun _ => 0) 0 :=
    { a_le := le_refl _
      m_le := le_refl _
      mono := fun n n' _ h2 => by omega
      from_ch := fun n hn => by omega
      covers := fun k hk => by omega
      last_eq := rfl
      low := fun n hn => by omega
      high := fun n _ hn => by omega }
  have S0 : slots_inv ch (sort_channels ch) prior 0
      { slots := prior, j := 0, mask := initial_bitmask cfg ch, last_brightness := 0 }
      0 0 (fun _ => 0) :=
    { j_eq := rfl
      mask_bits := fun c => by
        rw [initial_bitmask_testBit cfg ch hinv hmask c]
        have := seen_zero (sort_channels ch) c
        tauto
      slot_top := fun n hn => by omega
      slot_bits := fun n hn => by omega
      middle := fun hh => by simp only at hh; omega
      rest := fun p _ => rfl }
  obtain ⟨m1, a1, lv1, L1, S1⟩ :=
    build_step_inv hinv L0 S0 (hs 0 (by omega)) (hm 0 (by omega)) (hsorted 0 (by omega))
  obtain ⟨m2, a2, lv2, L2, S2⟩ :=
    build_step_inv hinv L1 S1 (hs 1 (by omega)) (hm 1 (by omega)) (hsorted 1 (by omega))
  obtain ⟨m3, a3, lv3, L3, S3⟩ :=
    build_step_inv hinv L2 S2 (hs 2 (by omega)) (hm 2 (by omega)) (hsorted 2 (by omega))
  exact ⟨m3, a3, lv3, schedule_of_inv L3 S3 hs hsurj⟩

/-- For every polarity and every choice of channel masks, the slot count and
the `top` fields left by the slot loop are described by the distinct dimmed
brightness levels. -/
theorem build_slots_shape_spec (cfg : config_t) (ch : Nat → channel_t) (prior : Nat → slot_t) :
    ∃ m a lv, shape_spec ch (build_slots cfg ch prior) m a lv := by
  obtain ⟨m, a, lv, h⟩ := build_slots_spec { cfg with PWM_INVERTED := false }
    (fun c => { ch c with mask := _BV c }) prior rfl (fun c _ => rfl)
  obtain ⟨hj, ht⟩ := build_slots_shape cfg { cfg with PWM_INVERTED := false } ch
    (fun c => { ch c with mask := _BV c }) prior prior (fun c => rfl) (fun k => rfl)
  exact ⟨m, a, lv,
    { a_le := h.a_le
      m_le := h.m_le
      mono := h.mono
      levels := h.levels
      low := h.low
      high := h.high
      count_eq := by rw [hj]; exact h.count_eq
      slot_top := fun n hn => by rw [ht]; exact h.slot_top n hn
      middle_top := by rw [ht]; exact h.middle_top }⟩

/-! ## Timeslot builder: reading the final slot array -/

/-- Every position below `m + 1` is the middle interrupt or a level slot. -/
theorem slot_pos_cases (a m k : Nat) (ha : a ≤ m) (hk : k < m + 1) :
    k = a ∨ ∃ n, n < m ∧ slot_pos a n = k := by
  by_cases h1 : k < a
  · right; exact ⟨k, by omega, by unfold slot_pos; rw [if_pos h1]⟩
  · by_cases h2 : k = a
    · left; exact h2
    · right
      refine ⟨k - 1, by omega, ?_⟩
      unfold slot_pos
      rw [if_neg (by omega)]; omega

/-- No level slot sits at the position of the middle interrupt. -/
theorem slot_pos_ne (a n : Nat) : slot_pos a n ≠ a := by
  unfold slot_pos; split_ifs <;> omega

/-- The level slots before the middle interrupt are those of the first `a` levels. -/
theorem slot_pos_lt_a (a n : Nat) : slot_pos a n < a ↔ n < a := by
  unfold slot_pos; split_ifs <;> omega

/-- Every emitted level lies in 1..254. -/
theorem shape_spec.lv_range {ch : Nat → channel_t} {st : build_t} {m a : Nat} {lv : Nat → Nat}
    (h : shape_spec ch st m a lv) (n : Nat) (hn : n < m) : 1 ≤ lv n ∧ lv n ≤ 254 := by
  obtain ⟨c, _, hd, e⟩ := (h.levels (lv n)).1 ⟨n, hn, rfl⟩
  unfold dimmed at hd
  omega

/-- Distinct slots carry distinct levels. -/
theorem shape_spec.lv_inj {ch : Nat → channel_t} {st : build_t} {m a : Nat} {lv : Nat → Nat}
    (h : shape_spec ch st m a lv) (n n' : Nat) (hn : n < m) (hn' : n' < m)
    (e : lv n = lv n') : n = n' := by
  by_contra hne
  rcases Nat.lt_or_gt_of_ne hne with hlt | hlt
  · have := h.mono n n' hlt hn'; omega
  · have := h.mono n' n hlt hn; omega

/-- A level slot never carries the tick of the middle interrupt. -/
theorem shape_spec.level_top_lt {ch : Nat → channel_t} {st : build_t} {m a : Nat} {lv : Nat → Nat}
    (h : shape_spec ch st m a lv) (n : Nat) (hn : n < m) :
    (st.slots (slot_pos a n)).top < 64000 := by
  rw [h.slot_top n hn]
  have := h.lv_range n hn
  exact table_lt_top _ (by omega)

/-- The only slot with tick 65000 is the middle interrupt. -/
theorem shape_spec.top_middle_iff {ch : Nat → channel_t} {st : build_t} {m a : Nat} {lv : Nat → Nat}
    (h : shape_spec ch st m a lv) (k : Nat) (hk : k < st.j) :
    (st.slots k).top = 65000 ↔ k = a := by
  constructor
  · intro e
    rw [h.count_eq] at hk
    rcases slot_pos_cases a m k h.a_le hk with e' | ⟨n, hn, e'⟩
    · exact e'
    · have := h.level_top_lt n hn
      rw [e'] at this
      omega
  · intro e
    rw [e]; exact h.middle_top

/-- Within one half-cycle the table ticks of the emitted levels grow with the
levels. -/
theorem shape_spec.level_top_lt_of_lt {ch : Nat → channel_t} {st : build_t} {m a : Nat}
    {lv : Nat → Nat} (h : shape_spec ch st m a lv) (n n' : Nat) (hlt : n < n') (hn' : n' < m)
    (hside : n' < a ∨ a ≤ n) :
    (st.slots (slot_pos a n)).top < (st.slots (slot_pos a n')).top := by
  rw [h.slot_top n (by omega), h.slot_top n' hn']
  have h1 := h.mono n n' hlt hn'
  have r1 := h.lv_range n (by omega)
  have r2 := h.lv_range n' hn'
  rcases hside with hs | hs
  · have := h.low n' hs
    exact table_strict_low _ _ (by omega) (by omega)
  · have := h.high n hs (by omega)
    exact table_strict_high _ _ (by omega) (by omega) (by omega)

/-- Ticks on one side of the middle interrupt are strictly increasing. -/
theorem shape_spec.top_lt_of_lt {ch : Nat → channel_t} {st : build_t} {m a : Nat}
    {lv : Nat → Nat} (h : shape_spec ch st m a lv) (i j : Nat) (hij : i < j) (hj : j < st.j)
    (hside : j < a ∨ a < i) :
    (st.slots i).top < (st.slots j).top := by
  rw [h.count_eq] at hj
  have hale := h.a_le
  rcases hside with hs | hs
  · have e1 : slot_pos a i = i := by unfold slot_pos; rw [if_pos (by omega)]
    have e2 : slot_pos a j = j := by unfold slot_pos; rw [if_pos hs]
    have := h.level_top_lt_of_lt i j hij (by omega) (Or.inl hs)
    rw [e1, e2] at this
    exact this
  · have e1 : slot_pos a (i - 1) = i := by
      unfold slot_pos; rw [if_neg (by omega)]; omega
    have e2 : slot_pos a (j - 1) = j := by
      unfold slot_pos; rw [if_neg (by omega)]; omega
    have := h.level_top_lt_of_lt (i - 1) (j - 1) (by omega) (by omega) (Or.inr (by omega))
    rw [e1, e2] at this
    exact this

/-- Every slot other than the middle interrupt has a tick below the timer TOP. -/
theorem shape_spec.top_lt_of_ne {ch : Nat → channel_t} {st : build_t} {m a : Nat}
    {lv : Nat → Nat} (h : shape_spec ch st m a lv) (k : Nat) (hk : k < st.j) (hne : k ≠ a) :
    (st.slots k).top < 64000 := by
  rw [h.count_eq] at hk
  rcases slot_pos_cases a m k h.a_le hk with e | ⟨n, hn, e⟩
  · exact absurd e hne
  · rw [← e]; exact h.level_top_lt n hn

/-- The list built by `update_pwm_timeslots` has between one and four slots. -/
theorem update_pwm_timeslots_count (cfg : config_t) (s : state_t) :
    1 ≤ (update_pwm_timeslots cfg s).pwm.count ∧ (update_pwm_timeslots cfg s).pwm.count ≤ 4 := by
  obtain ⟨m, a, lv, h⟩ := build_slots_shape_spec cfg s.channels s.pwm.slots
  rw [update_pwm_timeslots_pwm]
  simp only
  have := h.m_le
  rw [h.count_eq]
  omega

/-- The list built by `update_pwm_timeslots` has at most four slots, one of
them the middle interrupt with tick 65000, all others with ticks below the
timer TOP 64000. -/
theorem update_pwm_timeslots_marker (cfg : config_t) (s : state_t) :
    ∃ a, a < (update_pwm_timeslots cfg s).pwm.count ∧
      (update_pwm_timeslots cfg s).pwm.count ≤ 4 ∧
      ((update_pwm_timeslots cfg s).pwm.slots a).top = 65000 ∧
      ∀ i, i < (update_pwm_timeslots cfg s).pwm.count → i ≠ a →
        ((update_pwm_timeslots cfg s).pwm.slots i).top < 64000 := by
  obtain ⟨m, a, lv, h⟩ := build_slots_shape_spec cfg s.channels s.pwm.slots
  rw [update_pwm_timeslots_pwm]
  simp only
  have h1 := h.a_le
  have h2 := h.m_le
  have h3 := h.count_eq
  exact ⟨a, by omega, by omega, h.middle_top, fun i hi hne => h.top_lt_of_ne i hi hne⟩

/-! ## Initialisation and foreground poller -/

/-- The channel array after `pwm_init`. -/
theorem pwm_init_channels (cfg : config_t) (s : state_t) :
    (pwm_init cfg s).channels =
      upd (upd (upd s.channels
        0 { remainder := 0, brightness := 0, target_brightness := 0, speed := 0x0100,
            target_reached := false, mask := _BV 0 })
        1 { remainder := 0, brightness := 0, target_brightness := 0, speed := 0x0100,
            target_reached := false, mask := _BV 1 })
        2 { remainder := 0, brightness := 0, target_brightness := 0, speed := 0x0100,
            target_reached := false, mask := _BV 2 } := rfl

/-- The record `pwm` after `pwm_init`. -/
theorem pwm_init_pwm (cfg : config_t) (s : state_t) :
    (pwm_init cfg s).pwm =
      { slots := (build_slots cfg (pwm_init cfg s).channels s.pwm.slots).slots, index := 0,
        count := (build_slots cfg (pwm_init cfg s).channels s.pwm.slots).j,
        next_bitmask := initial_bitmask cfg (pwm_init cfg s).channels, new_cycle := 1 } := rfl

/-- With both signals clear `pwm_poll` changes nothing. -/
theorem pwm_poll_idle (cfg : config_t) (s : state_t) (h1 : s.pwm_last_pulse = false)
    (h2 : s.pwm_start = false) : pwm_poll cfg s = s := by
  simp [pwm_poll, h1, h2]

/-- Closed form of `pwm_poll`: the rebuild uses the channel array from before the
fading pass. -/
theorem pwm_poll_eq (cfg : config_t) (s : state_t) :
    pwm_poll cfg s =
      (if s.pwm_start = true ∧ cfg.STATIC_SCRIPTS = true then cfg.execute_script_threads
        else fun x => x)
        { s with
          pwm := if s.pwm_last_pulse = true then (update_pwm_timeslots cfg s).pwm else s.pwm
          channels := if s.pwm_start = true then update_brightness s.channels else s.channels
          pwm_last_pulse := false
          pwm_start := false } := by
  obtain ⟨ch, pwm, lp, st, r1, r2, r3, r4, r5, r6⟩ := s
  cases lp <;> cases st <;> cases hsc : cfg.STATIC_SCRIPTS <;>
    simp [pwm_poll, update_pwm_timeslots, hsc]

/-- The record `pwm` after `pwm_poll`, for a script entry point that leaves it
alone: it is rebuilt exactly when `pwm_last_pulse` was set. -/
theorem pwm_poll_pwm (cfg : config_t) (s : state_t)
    (hscript : cfg.STATIC_SCRIPTS = true → ∀ x, (cfg.execute_script_threads x).pwm = x.pwm) :
    (pwm_poll cfg s).pwm =
      if s.pwm_last_pulse = true then (update_pwm_timeslots cfg s).pwm else s.pwm := by
  rw [pwm_poll_eq]
  by_cases hc : s.pwm_start = true ∧ cfg.STATIC_SCRIPTS = true
  · rw [if_pos hc, hscript hc.2]
  · rw [if_neg hc]

/-! ## Timeslot builder: the untouched part of the slot array -/

/-- The mask computed by one loop iteration for the channel `c`, in either
polarity. -/
theorem build_step_merge_any (cfg : config_t) (ch : Nat → channel_t) (s : Nat → Nat)
    (st : build_t) (i : Nat) (hd : dimmed (ch (s i)))
    (hle : (ch (s i)).brightness ≤ st.last_brightness) :
    ∃ mk, build_step cfg ch s st i =
      { st with
        slots := upd st.slots (st.j - 1) { st.slots (st.j - 1) with mask := mk },
        mask := mk } := by
  unfold dimmed at hd
  have h1 : ¬ (st.last_brightness < 181 ∧ (ch (s i)).brightness ≥ 181) := by omega
  have h2 : ¬ (st.last_brightness < (ch (s i)).brightness) := by omega
  refine ⟨if cfg.PWM_INVERTED = true then st.mask ||| (ch (s i)).mask
    else and_not8 st.mask (ch (s i)).mask, ?_⟩
  simp [build_step, hd, h1, h2]

/-- A dimmed channel above the level emitted last gets a new slot, in either
polarity. -/
theorem build_step_new_any (cfg : config_t) (ch : Nat → channel_t) (s : Nat → Nat)
    (st : build_t) (i : Nat) (hd : dimmed (ch (s i)))
    (hgt : st.last_brightness < (ch (s i)).brightness)
    (hx : ¬ (st.last_brightness < 181 ∧ 181 ≤ (ch (s i)).brightness)) :
    ∃ mk, build_step cfg ch s st i =
      { slots := upd st.slots st.j
          { mask := mk, top := pgm_read_word ((ch (s i)).brightness - 1) },
        j := st.j + 1,
        mask := mk,
        last_brightness := (ch (s i)).brightness } := by
  unfold dimmed at hd
  refine ⟨if cfg.PWM_INVERTED = true then st.mask ||| (ch (s i)).mask
    else and_not8 st.mask (ch (s i)).mask, ?_⟩
  simp [build_step, hd, hx, hgt]

/-- A dimmed channel that crosses the threshold 181 gets the middle interrupt
and a new slot after it, in either polarity. -/
theorem build_step_cross_any (cfg : config_t) (ch : Nat → channel_t) (s : Nat → Nat)
    (st : build_t) (i : Nat) (hd : dimmed (ch (s i))) (h1 : st.last_brightness < 181)
    (h2 : 181 ≤ (ch (s i)).brightness) :
    ∃ mk, build_step cfg ch s st i =
      { slots := upd (upd st.slots st.j { st.slots st.j with top := 65000 }) (st.j + 1)
          { mask := mk, top := pgm_read_word ((ch (s i)).brightness - 1) },
        j := st.j + 1 + 1,
        mask := mk,
        last_brightness := (ch (s i)).brightness } := by
  unfold dimmed at hd
  have hgt : st.last_brightness < (ch (s i)).brightness := by omega
  refine ⟨if cfg.PWM_INVERTED = true then st.mask ||| (ch (s i)).mask
    else and_not8 st.mask (ch (s i)).mask, ?_⟩
  simp [build_step, hd, h1, h2, hgt, insert_middle]

/-- One iteration of the slot loop preserves `write_inv`. -/
theorem write_inv_step (cfg : config_t) {ch : Nat → channel_t} {s : Nat → Nat}
    {prior : Nat → slot_t} {i : Nat} {st : build_t} (h : write_inv ch s prior i st) :
    write_inv ch s prior (i + 1) (build_step cfg ch s st i) := by
  have hj := h.j_le
  have hfrom : st.last_brightness = 0 ∨ ∃ k, k < i + 1 ∧ dimmed (ch (s k)) ∧
      st.last_brightness = (ch (s k)).brightness := by
    rcases h.last_from with e | ⟨k, hk, r⟩
    · exact Or.inl e
    · exact Or.inr ⟨k, by omega, r⟩
  by_cases hd : dimmed (ch (s i))
  · have hd' := hd
    unfold dimmed at hd'
    by_cases hgt : st.last_brightness < (ch (s i)).brightness
    · by_cases hx : st.last_brightness < 181 ∧ 181 ≤ (ch (s i)).brightness
      · obtain ⟨mk, e⟩ := build_step_cross_any cfg ch s st i hd hx.1 hx.2
        rw [e]
        rw [if_neg (show ¬ 181 ≤ st.last_brightness by omega)] at hj
        refine
          { j_le := ?_
            last_from := Or.inr ⟨i, by omega, hd, rfl⟩
            last_slot := ?_
            middle := ?_
            rest := ?_ }
        · simp only
          rw [if_pos hx.2]; omega
        · intro _
          simp only
          refine ⟨by omega, ?_⟩
          rw [show st.j + 1 + 1 - 1 = st.j + 1 by omega, upd_eq]
        · intro _
          simp only
          refine ⟨st.j, by omega, ?_⟩
          rw [upd_ne _ _ _ _ (by omega), upd_eq, h.rest st.j (le_refl _)]
        · intro p hp
          simp only at hp ⊢
          rw [upd_ne _ _ _ _ (by omega), upd_ne _ _ _ _ (by omega)]
          exact h.rest p (by omega)
      · obtain ⟨mk, e⟩ := build_step_new_any cfg ch s st i hd hgt hx
        rw [e]
        refine
          { j_le := ?_
            last_from := Or.inr ⟨i, by omega, hd, rfl⟩
            last_slot := ?_
            middle := ?_
            rest := ?_ }
        · simp only
          split_ifs at hj ⊢ <;> omega
        · intro _
          simp only
          refine ⟨by omega, ?_⟩
          rw [show st.j + 1 - 1 = st.j by omega, upd_eq]
        · intro hb
          simp only at hb ⊢
          obtain ⟨a, ha, e'⟩ := h.middle (by omega)
          refine ⟨a, by omega, ?_⟩
          rw [upd_ne _ _ _ _ (by omega)]
          exact e'
        · intro p hp
          simp only at hp ⊢
          rw [upd_ne _ _ _ _ (by omega)]
          exact h.rest p (by omega)
    · obtain ⟨mk, e⟩ := build_step_merge_any cfg ch s st i hd (by omega)
      rw [e]
      have hpos := h.last_slot (by omega)
      refine
        { j_le := by simp only; omega
          last_from := hfrom
          last_slot := ?_
          middle := ?_
          rest := ?_ }
      · intro _
        simp only
        refine ⟨hpos.1, ?_⟩
        rw [upd_eq]
        exact hpos.2
      · intro hb
        simp only at hb ⊢
        obtain ⟨a, ha, e'⟩ := h.middle hb
        refine ⟨a, ha, ?_⟩
        rw [upd_ne _ _ _ _ (by omega)]
        exact e'
      · intro p hp
        simp only at hp ⊢
        rw [upd_ne _ _ _ _ (by omega)]
        exact h.rest p hp
  · rw [build_step_skip cfg ch s st i hd]
    exact
      { j_le := by omega
        last_from := hfrom
        last_slot := h.last_slot
        middle := h.middle
        rest := h.rest }

/-- The invariant `write_inv` holds before the first iteration. -/
theorem write_inv_init (cfg : config_t) (ch : Nat → channel_t) (s : Nat → Nat)
    (prior : Nat → slot_t) : write_inv ch s prior 0 (build_init cfg ch prior) :=
  { j_le := Nat.zero_le _
    last_from := Or.inl rfl
    last_slot := fun h => absurd h (Nat.lt_irrefl 0)
    middle := fun h => by simp [build_init] at h
    rest := fun _ _ => rfl }

/-- One more iteration of the slot loop. -/
theorem build_upto_succ (cfg : config_t) (ch : Nat → channel_t) (prior : Nat → slot_t)
    (i : Nat) :
    build_upto cfg ch prior (i + 1) =
      build_step cfg ch (sort_channels ch) (build_upto cfg ch prior i) i := by
  simp [build_upto, List.range_succ, List.foldl_append]

/-- The invariant `write_inv` holds after every number of iterations. -/
theorem write_inv_upto (cfg : config_t) (ch : Nat → channel_t) (prior : Nat → slot_t)
    (i : Nat) : write_inv ch (sort_channels ch) prior i (build_upto cfg ch prior i) := by
  induction i with
  | zero => exact write_inv_init cfg ch _ prior
  | succ i ih =>
    rw [build_upto_succ]
    exact write_inv_step cfg ih

/-- The slot loop of `build_slots` is the loop state after three iterations. -/
theorem build_slots_eq_upto (cfg : config_t) (ch : Nat → channel_t) (prior : Nat → slot_t) :
    build_slots cfg ch prior =
      if (build_upto cfg ch prior 3).last_brightness < 181
      then insert_middle (build_upto cfg ch prior 3) else build_upto cfg ch prior 3 := rfl

/-- The middle interrupt written by the slot loop keeps the mask its slot held
before the call; it holds for every polarity and every choice of channel
masks. -/
theorem build_slots_middle_untouched (cfg : config_t) (ch : Nat → channel_t)
    (prior : Nat → slot_t) :
    ∃ a, a < (build_slots cfg ch prior).j ∧
      (build_slots cfg ch prior).slots a = { prior a with top := 65000 } := by
  have h := write_inv_upto cfg ch prior 3
  rw [build_slots_eq_upto]
  by_cases hl : (build_upto cfg ch prior 3).last_brightness < 181
  · rw [if_pos hl]
    refine ⟨(build_upto cfg ch prior 3).j, by simp [insert_middle], ?_⟩
    simp only [insert_middle]
    rw [upd_eq, h.rest _ (le_refl _)]
  · rw [if_neg hl]
    obtain ⟨a, ha, e⟩ := h.middle (by omega)
    exact ⟨a, by omega, e⟩

/-- The slots at and after the write index of the slot loop are those found in
the slot array before the call. -/
theorem build_slots_rest (cfg : config_t) (ch : Nat → channel_t) (prior : Nat → slot_t)
    (p : Nat) (hp : (build_slots cfg ch prior).j ≤ p) :
    (build_slots cfg ch prior).slots p = prior p := by
  have h := write_inv_upto cfg ch prior 3
  rw [build_slots_eq_upto] at hp ⊢
  by_cases hl : (build_upto cfg ch prior 3).last_brightness < 181
  · rw [if_pos hl] at hp ⊢
    simp only [insert_middle] at hp ⊢
    rw [upd_ne _ _ _ _ (by omega)]
    exact h.rest p (by omega)
  · rw [if_neg hl] at hp ⊢
    exact h.rest p hp

/-- The middle interrupt is the only slot of the built list with the tick 65000,
and `update_pwm_timeslots` does not write its mask: the slot holds the mask
found there before the call. -/
theorem update_pwm_timeslots_middle_mask (cfg : config_t) (s : state_t) :
    ∃ a, a < (update_pwm_timeslots cfg s).pwm.count ∧
      ((update_pwm_timeslots cfg s).pwm.slots a).top = 65000 ∧
      (∀ k, k < (update_pwm_timeslots cfg s).pwm.count →
        ((update_pwm_timeslots cfg s).pwm.slots k).top = 65000 → k = a) ∧
      ((update_pwm_timeslots cfg s).pwm.slots a).mask = (s.pwm.slots a).mask := by
  obtain ⟨m, a, lv, h⟩ := build_slots_shape_spec cfg s.channels s.pwm.slots
  obtain ⟨a', ha', e⟩ := build_slots_middle_untouched cfg s.channels s.pwm.slots
  rw [update_pwm_timeslots_pwm]
  simp only
  have ea : a' = a := (h.top_middle_iff a' ha').1 (by rw [e])
  subst ea
  exact ⟨a', ha', by rw [e], fun k hk hk' => (h.top_middle_iff k hk).1 hk', by rw [e]⟩

/-! ## Timeslot builder: checked array accesses -/

set_option maxRecDepth 100000 in
/-- The table has 254 entries, one for each of the levels 1..254. -/
theorem timeslot_table_length : timeslot_table.length = 254 := by
  decide

/-- Under `write_inv` every array access of one loop iteration is inside a slot
array of four entries and inside the table. -/
theorem build_step_checked_ok (cfg : config_t) {ch : Nat → channel_t} {s : Nat → Nat}
    {prior : Nat → slot_t} {i : Nat} {st : build_t} (h : write_inv ch s prior i st)
    (hi : i < 3) :
    build_step_checked 4 cfg ch s st i = some (build_step cfg ch s st i) := by
  have hj := h.j_le
  by_cases hd : dimmed (ch (s i))
  · have hd' := hd
    unfold dimmed at hd'
    have hpos : st.last_brightness = 0 ∨ 1 ≤ st.j := by
      by_cases h0 : 0 < st.last_brightness
      · exact Or.inr (h.last_slot h0).1
      · exact Or.inl (by omega)
    simp only [build_step_checked, timeslot_table_length]
    split_ifs at hj ⊢ <;>
      first
      | rfl
      | (exfalso; simp only [insert_middle] at *; omega)
  · have hdc : ¬ ((ch (s i)).brightness > 0 ∧ (ch (s i)).brightness < 255) := hd
    simp only [build_step_checked, hdc, if_false]
    rw [build_step_skip cfg ch s st i hd]

/-- The checked slot loop never fails on a slot array of four entries, and
computes what `build_slots` computes. -/
theorem build_slots_checked_ok (cfg : config_t) (ch : Nat → channel_t) (prior : Nat → slot_t) :
    build_slots_checked 4 cfg ch prior = some (build_slots cfg ch prior) := by
  have h0 := write_inv_upto cfg ch prior 0
  have h1 := write_inv_upto cfg ch prior 1
  have h2 := write_inv_upto cfg ch prior 2
  have h3 := write_inv_upto cfg ch prior 3
  have e0 := build_step_checked_ok cfg h0 (by omega)
  have e1 := build_step_checked_ok cfg h1 (by omega)
  have e2 := build_step_checked_ok cfg h2 (by omega)
  rw [← build_upto_succ] at e0 e1 e2
  have e : (List.range PWM_CHANNELS).foldlM
      (build_step_checked 4 cfg ch (sort_channels ch)) (build_init cfg ch prior) =
      some (build_upto cfg ch prior 3) := by
    have hp0 : build_upto cfg ch prior 0 = build_init cfg ch prior := rfl
    rw [hp0] at e0
    simp only [range_channels, List.foldlM, e0, e1, e2, Option.bind_eq_bind, Option.some_bind,
      Option.pure_def]
  unfold build_slots_checked
  rw [e, build_slots_eq_upto]
  simp only
  have hj := h3.j_le
  by_cases hl : (build_upto cfg ch prior 3).last_brightness < 181
  · rw [if_pos hl, if_pos hl]
    rw [if_neg (show ¬ 181 ≤ (build_upto cfg ch prior 3).last_brightness by omega)] at hj
    rw [if_pos (by omega)]
  · rw [if_neg hl, if_neg hl]

/-- The sorted array lists the channels by non-decreasing brightness. -/
theorem sort_channels_sorted (ch : Nat → channel_t) (k k' : Nat) (hkk : k < k') (hk' : k' < 3) :
    (ch (sort_channels ch k)).brightness ≤ (ch (sort_channels ch k')).brightness := by
  obtain ⟨p, q, r, e0, e1, e2, _, h01, h12⟩ := sort_channels_perm ch
  have : (k = 0 ∧ k' = 1) ∨ (k = 0 ∧ k' = 2) ∨ (k = 1 ∧ k' = 2) := by omega
  rcases this with ⟨e, e'⟩ | ⟨e, e'⟩ | ⟨e, e'⟩ <;> subst e <;> subst e' <;>
    rw [e0, e1, e2] at * <;> omega

/-- The checked `update_pwm_timeslots` never fails on a slot array of four
entries. -/
theorem update_pwm_timeslots_checked_ok (cfg : config_t) (s : state_t) :
    update_pwm_timeslots_checked 4 cfg s = some (update_pwm_timeslots cfg s) := by
  unfold update_pwm_timeslots_checked
  rw [build_slots_checked_ok]
  rfl

/-! ## Cycle scheduler: the cursor -/

/-- The bits of the port value written by the handlers: inside the channel mask
they are the bits of the written bitmask, outside they are the old port bits,
provided the bitmask has no bit outside the channel mask. -/
theorem port_out_testBit (cfg : config_t) (port v : Nat)
    (hmask : cfg.PWM_CHANNEL_MASK < 256) (hport : port < 256)
    (hv : ∀ c, v.testBit c = true → cfg.PWM_CHANNEL_MASK.testBit c = true) (c : Nat) :
    (cfg.PWM_CHANNEL_MASK.testBit c = true → (port_out cfg port v).testBit c = v.testBit c) ∧
    (cfg.PWM_CHANNEL_MASK.testBit c = false →
      (port_out cfg port v).testBit c = port.testBit c) := by
  have h8 : ∀ x, x < 256 → x.testBit c = true → c < 8 := by
    intro x hx hb
    by_contra hc
    have h1 : x < 2 ^ c := by
      have : 2 ^ 8 ≤ 2 ^ c := Nat.pow_le_pow_right (by omega) (by omega)
      omega
    rw [Nat.testBit_lt_two_pow h1] at hb
    exact absurd hb (by simp)
  unfold port_out and_not8
  rw [Nat.testBit_or, Nat.testBit_and, Nat.testBit_xor, testBit_255]
  constructor
  · intro hm
    have := h8 _ hmask hm
    simp [hm, this]
  · intro hm
    have hvc : v.testBit c = false := by
      by_contra hne
      have := hv c (by simpa using hne)
      rw [hm] at this
      exact absurd this (by simp)
    by_cases hp : port.testBit c = true
    · have := h8 _ hport hp
      simp [hm, hvc, hp, this]
    · simp [hm, hvc, hp]

/-- The step `prepare_next_timeslot` while the list is not exhausted. -/
theorem prepare_next_timeslot_load (s : state_t) (h : s.pwm.index < s.pwm.count) :
    prepare_next_timeslot s =
      { s with
        OCR1B := (s.pwm.slots s.pwm.index).top
        pwm := { s.pwm with
                 next_bitmask := (s.pwm.slots s.pwm.index).mask
                 index := (s.pwm.index + 1) % 256 } } := by
  unfold prepare_next_timeslot
  rw [if_neg (by omega)]

/-- The step `prepare_next_timeslot` when the list is exhausted. -/
theorem prepare_next_timeslot_wrap (s : state_t) (h : ¬ s.pwm.index < s.pwm.count) :
    prepare_next_timeslot s =
      { s with
        pwm := { s.pwm with index := 0 }
        pwm_last_pulse := true
        OCR1B := 65000 } := by
  unfold prepare_next_timeslot
  rw [if_pos (by omega)]

/-- The step `prepare_next_timeslot` changes neither the port nor `pwm_start`,
`new_cycle`, the slots or the count. -/
theorem prepare_next_timeslot_frame (s : state_t) :
    (prepare_next_timeslot s).PWM_PORT = s.PWM_PORT ∧
    (prepare_next_timeslot s).pwm_start = s.pwm_start ∧
    (prepare_next_timeslot s).pwm.new_cycle = s.pwm.new_cycle ∧
    (prepare_next_timeslot s).pwm.slots = s.pwm.slots ∧
    (prepare_next_timeslot s).pwm.count = s.pwm.count := by
  unfold prepare_next_timeslot
  split_ifs <;> exact ⟨rfl, rfl, rfl, rfl, rfl⟩

/-- The cursor after `k + 1` steps of `prepare_next_timeslot` from a state with
the cursor at 0, as long as the list is not exhausted: slot `k` is loaded. -/
theorem prepare_next_timeslot_iterate (s : state_t) (h0 : s.pwm.index = 0)
    (hc : s.pwm.count < 256) (k : Nat) (hk : k < s.pwm.count) :
    prepare_next_timeslot^[k + 1] s =
      { s with
        OCR1B := (s.pwm.slots k).top
        pwm := { s.pwm with
                 next_bitmask := (s.pwm.slots k).mask
                 index := k + 1 } } := by
  induction k with
  | zero =>
    show prepare_next_timeslot s = _
    rw [prepare_next_timeslot_load s (by omega), h0]
  | succ k ih =>
    rw [Function.iterate_succ_apply', ih (by omega)]
    have e := prepare_next_timeslot_load
      { s with
        OCR1B := (s.pwm.slots k).top
        pwm := { s.pwm with
                 next_bitmask := (s.pwm.slots k).mask
                 index := k + 1 } } (show k + 1 < s.pwm.count by omega)
    rw [e]
    simp only
    rw [Nat.mod_eq_of_lt (show k + 1 + 1 < 256 by omega)]

/-- The cursor invariant: `index ≤ count` and `1 ≤ count ≤ 4`. -/
theorem cursor_inv_step (s : state_t)
    (h : s.pwm.index ≤ s.pwm.count ∧ 1 ≤ s.pwm.count ∧ s.pwm.count ≤ 4) :
    (prepare_next_timeslot s).pwm.index ≤ (prepare_next_timeslot s).pwm.count ∧
    1 ≤ (prepare_next_timeslot s).pwm.count ∧ (prepare_next_timeslot s).pwm.count ≤ 4 := by
  by_cases hlt : s.pwm.index < s.pwm.count
  · rw [prepare_next_timeslot_load s hlt]
    simp only
    rw [Nat.mod_eq_of_lt (show s.pwm.index + 1 < 256 by omega)]
    omega
  · rw [prepare_next_timeslot_wrap s hlt]
    simp only
    omega

/-- The cursor invariant holds after a rebuild. -/
theorem cursor_inv_rebuild (cfg : config_t) (s : state_t) :
    (update_pwm_timeslots cfg s).pwm.index ≤ (update_pwm_timeslots cfg s).pwm.count ∧
    1 ≤ (update_pwm_timeslots cfg s).pwm.count ∧ (update_pwm_timeslots cfg s).pwm.count ≤ 4 := by
  have h := update_pwm_timeslots_count cfg s
  exact ⟨Nat.zero_le _, h.1, h.2⟩

/-- The cursor invariant is kept by every sequence of rebuilds and steps. -/
theorem cursor_inv_run (cfg : config_t) (ops : List cursor_op) (s : state_t)
    (h : s.pwm.index ≤ s.pwm.count ∧ 1 ≤ s.pwm.count ∧ s.pwm.count ≤ 4) :
    (run_ops cfg ops s).pwm.index ≤ (run_ops cfg ops s).pwm.count ∧
    1 ≤ (run_ops cfg ops s).pwm.count ∧ (run_ops cfg ops s).pwm.count ≤ 4 := by
  induction ops generalizing s with
  | nil => exact h
  | cons op ops ih =>
    cases op with
    | rebuild ch => exact ih _ (cursor_inv_rebuild cfg _)
    | step => exact ih _ (cursor_inv_step s h)

/-! ## Cycle scheduler: the catch-up loop -/

/-- More fuel does not change a result of the inner busy-wait. -/
theorem spin_mono (tcnt : Nat → Nat) (top d : Nat) :
    ∀ fuel k r, spin tcnt top fuel k = some r → spin tcnt top (fuel + d) k = some r := by
  intro fuel
  induction fuel with
  | zero =>
    intro k r h
    simp [spin] at h
  | succ f ih =>
    intro k r h
    rw [Nat.add_right_comm]
    simp only [spin] at h ⊢
    split_ifs at h ⊢ with hc
    · exact ih _ _ h
    · exact h

/-- More fuel does not change a result of the catch-up loop. -/
theorem catch_up_mono (cfg : config_t) (tcnt : Nat → Nat) (d : Nat) :
    ∀ fuel k s r, catch_up cfg tcnt fuel k s = some r →
      catch_up cfg tcnt (fuel + d) k s = some r := by
  intro fuel
  induction fuel with
  | zero =>
    intro k s r h
    simp [catch_up] at h
  | succ f ih =>
    intro k s r h
    rw [Nat.add_right_comm]
    simp only [catch_up] at h ⊢
    split_ifs at h ⊢ with hc
    · cases hs : spin tcnt (s.pwm.slots s.pwm.index).top f (k + 1) with
      | none =>
        rw [hs] at h
        simp at h
      | some k1 =>
        rw [hs] at h
        rw [spin_mono tcnt _ d f (k + 1) k1 hs]
        exact ih _ _ _ h
    · exact h

/-- The inner busy-wait returns once a timer reading has reached the tick. -/
theorem spin_terminates (tcnt : Nat → Nat) (top : Nat) :
    ∀ n k, top ≤ tcnt (k + n) → ∃ fuel k1, spin tcnt top fuel k = some k1 := by
  intro n
  induction n with
  | zero =>
    intro k h
    refine ⟨1, k + 1, ?_⟩
    simp only [spin]
    rw [if_neg (by simpa using h)]
  | succ n ih =>
    intro k h
    by_cases hc : top > tcnt k
    · obtain ⟨f, k1, hf⟩ := ih (k + 1) (by rw [Nat.add_right_comm, Nat.add_assoc]; exact h)
      refine ⟨f + 1, k1, ?_⟩
      simp only [spin]
      rw [if_pos hc]
      exact hf
    · refine ⟨1, k + 1, ?_⟩
      simp only [spin]
      rw [if_neg hc]

/-- The loop condition of the catch-up loop is false at a slot with tick 65000
for every timer reading up to the timer TOP. -/
theorem catch_up_cond_marker (t : Nat) (ht : t ≤ 64000) : ¬ (t + 500) % 65536 > 65000 := by
  rw [Nat.mod_eq_of_lt (by omega)]
  omega

/-- The catch-up loop writes neither the slots nor the count. -/
theorem catch_up_frame (cfg : config_t) (tcnt : Nat → Nat) :
    ∀ fuel k (s : state_t) k1 r, catch_up cfg tcnt fuel k s = some (k1, r) →
      r.pwm.slots = s.pwm.slots ∧ r.pwm.count = s.pwm.count := by
  intro fuel
  induction fuel with
  | zero =>
    intro k s k1 r h
    simp [catch_up] at h
  | succ f ih =>
    intro k s k1 r h
    simp only [catch_up] at h
    split_ifs at h with hc
    · cases hs : spin tcnt (s.pwm.slots s.pwm.index).top f (k + 1) with
      | none =>
        rw [hs] at h
        simp at h
      | some k2 =>
        rw [hs] at h
        exact ih k2 (catch_up_body cfg s) k1 r h
    · simp only [Option.some.injEq, Prod.mk.injEq] at h
      rw [← h.2]
      exact ⟨rfl, rfl⟩

/-- Iterations of the catch-up body only move the cursor and the port. -/
theorem catch_up_body_iterate (cfg : config_t) (s : state_t) (n : Nat)
    (h : s.pwm.index + n < 256) :
    ((catch_up_body cfg)^[n] s).pwm.index = s.pwm.index + n ∧
    ((catch_up_body cfg)^[n] s).pwm.slots = s.pwm.slots ∧
    ((catch_up_body cfg)^[n] s).pwm.count = s.pwm.count ∧
    ((catch_up_body cfg)^[n] s).pwm.new_cycle = s.pwm.new_cycle ∧
    ((catch_up_body cfg)^[n] s).pwm_start = s.pwm_start ∧
    ((catch_up_body cfg)^[n] s).pwm_last_pulse = s.pwm_last_pulse := by
  induction n with
  | zero => exact ⟨rfl, rfl, rfl, rfl, rfl, rfl⟩
  | succ n ih =>
    obtain ⟨h1, h2, h3, h4, h5, h6⟩ := ih (by omega)
    rw [Function.iterate_succ_apply']
    refine ⟨?_, ?_, ?_, ?_, ?_, ?_⟩
    · show (((catch_up_body cfg)^[n] s).pwm.index + 1) % 256 = _
      rw [h1, Nat.mod_eq_of_lt (by omega)]
      omega
    · exact h2
    · exact h3
    · exact h4
    · exact h5
    · exact h6

/-- A result of the catch-up loop, started at or before a slot with tick 65000
and with timer readings up to the timer TOP, is reached by iterations of the
loop body that do not move the cursor past that slot. -/
theorem catch_up_bound (cfg : config_t) (tcnt : Nat → Nat) (htc : ∀ k, tcnt k ≤ 64000)
    (a : Nat) (ha : a < 256) :
    ∀ fuel k (s : state_t) k1 r, s.pwm.index ≤ a → (s.pwm.slots a).top = 65000 →
      catch_up cfg tcnt fuel k s = some (k1, r) →
      ∃ n, s.pwm.index + n ≤ a ∧ r = (catch_up_body cfg)^[n] s := by
  intro fuel
  induction fuel with
  | zero =>
    intro k s k1 r _ _ h
    simp [catch_up] at h
  | succ f ih =>
    intro k s k1 r hi hm h
    simp only [catch_up] at h
    split_ifs at h with hc
    · have hne : s.pwm.index ≠ a := by
        intro e
        rw [e, hm] at hc
        exact catch_up_cond_marker _ (htc k) hc
      cases hs : spin tcnt (s.pwm.slots s.pwm.index).top f (k + 1) with
      | none =>
        rw [hs] at h
        simp at h
      | some k2 =>
        rw [hs] at h
        have hidx : (catch_up_body cfg s).pwm.index = s.pwm.index + 1 := by
          show (s.pwm.index + 1) % 256 = _
          exact Nat.mod_eq_of_lt (by omega)
        obtain ⟨n, hn, hr⟩ := ih k2 (catch_up_body cfg s) k1 r (by rw [hidx]; omega) hm h
        rw [hidx] at hn
        exact ⟨n + 1, by omega, by rw [Function.iterate_succ_apply]; exact hr⟩
    · simp only [Option.some.injEq, Prod.mk.injEq] at h
      exact ⟨0, by omega, h.2.symm⟩

/-- The catch-up loop returns when the timer readings stay up to the timer TOP
and reach every tick below it, and the slots before a slot with tick 65000
have ticks below the timer TOP. -/
theorem catch_up_terminates (cfg : config_t) (tcnt : Nat → Nat) (htc : ∀ k, tcnt k ≤ 64000)
    (hp : ∀ k top, top < 64000 → ∃ n, top ≤ tcnt (k + n)) (a : Nat) (ha : a < 256) :
    ∀ d (s : state_t) k, s.pwm.index + d = a → (s.pwm.slots a).top = 65000 →
      (∀ i, i < a → (s.pwm.slots i).top < 64000) →
      ∃ fuel r, catch_up cfg tcnt fuel k s = some r := by
  intro d
  induction d with
  | zero =>
    intro s k hi hm _
    refine ⟨1, (k + 1, s), ?_⟩
    simp only [catch_up]
    rw [if_neg]
    rw [show s.pwm.index = a by omega, hm]
    exact catch_up_cond_marker _ (htc k)
  | succ d ih =>
    intro s k hi hm hlow
    by_cases hc : (tcnt k + 500) % 65536 > (s.pwm.slots s.pwm.index).top
    · obtain ⟨n, hn⟩ := hp (k + 1) _ (hlow s.pwm.index (by omega))
      obtain ⟨fs, k2, hs⟩ := spin_terminates tcnt _ n (k + 1) hn
      have hidx : (catch_up_body cfg s).pwm.index = s.pwm.index + 1 := by
        show (s.pwm.index + 1) % 256 = _
        exact Nat.mod_eq_of_lt (by omega)
      obtain ⟨fc, r, hr⟩ := ih (catch_up_body cfg s) k2 (by rw [hidx]; omega) hm hlow
      refine ⟨fs + fc + 1, r, ?_⟩
      simp only [catch_up]
      rw [if_pos hc, spin_mono tcnt _ fc fs (k + 1) k2 hs]
      have := catch_up_mono cfg tcnt fs fc k2 _ r hr
      rw [Nat.add_comm fc fs] at this
      exact this
    · refine ⟨1, (k + 1, s), ?_⟩
      simp only [catch_up]
      rw [if_neg hc]

/-- The timer readings of `example_tcnt` stay up to the timer TOP. -/
theorem example_tcnt_le (k : Nat) : example_tcnt k ≤ 64000 := Nat.min_le_right _ _

/-- The compare-A handler entered with `new_cycle` clear is one
`prepare_next_timeslot` step. -/
theorem isr_compare_a_old_cycle (cfg : config_t) (tcnt : Nat → Nat) (fuel : Nat) (s : state_t)
    (h : s.pwm.new_cycle = 0) :
    isr_compare_a cfg tcnt fuel s = some (prepare_next_timeslot s) := by
  unfold isr_compare_a
  rw [if_neg (by simpa using h)]

/-- A result of the compare-A handler entered with `new_cycle` set. -/
theorem isr_compare_a_new_cycle (cfg : config_t) (tcnt : Nat → Nat) (fuel : Nat) (s r : state_t)
    (h : s.pwm.new_cycle ≠ 0) (hr : isr_compare_a cfg tcnt fuel s = some r) :
    ∃ k s1,
      catch_up cfg tcnt fuel 0 (output_next_bitmask cfg s) = some (k, s1) ∧
      r = prepare_next_timeslot
        { s1 with pwm_start := true, pwm := { s1.pwm with new_cycle := 0 } } := by
  unfold isr_compare_a at hr
  rw [if_pos h] at hr
  cases hc : catch_up cfg tcnt fuel 0 (output_next_bitmask cfg s) with
  | none =>
    rw [hc] at hr
    simp at hr
  | some p =>
    obtain ⟨k, s1⟩ := p
    rw [hc] at hr
    simp only [Option.some.injEq] at hr
    exact ⟨k, s1, rfl, hr.symm⟩

/-! ## Claims -/

/-- C1: fading never overshoots. For every channel state, one pass of
`update_brightness` leaves the brightness between its old value and the target,
on the side of the target; over any number of passes the brightness stays
between the start value and the target; and after the target has been changed
in the middle of a fade, the next pass moves toward the new target. -/
theorem fading_never_overshoots (ch : Nat → channel_t) (i : Nat) (hi : i < PWM_CHANNELS) :
    ((ch i).brightness < (ch i).target_brightness →
      (ch i).brightness ≤ (update_brightness ch i).brightness ∧
      (update_brightness ch i).brightness ≤ (ch i).target_brightness) ∧
    ((ch i).target_brightness < (ch i).brightness →
      (ch i).target_brightness ≤ (update_brightness ch i).brightness ∧
      (update_brightness ch i).brightness ≤ (ch i).brightness) ∧
    ((ch i).brightness = (ch i).target_brightness →
      (update_brightness ch i).brightness = (ch i).brightness) ∧
    (∀ n, min (ch i).brightness (ch i).target_brightness ≤
        (update_brightness^[n] ch i).brightness ∧
      (update_brightness^[n] ch i).brightness ≤
        max (ch i).brightness (ch i).target_brightness) ∧
    (∀ n t,
      ((update_brightness^[n] ch i).brightness < t →
        (update_brightness^[n] ch i).brightness ≤
          (update_brightness (set_target (update_brightness^[n] ch) i t) i).brightness ∧
        (update_brightness (set_target (update_brightness^[n] ch) i t) i).brightness ≤ t) ∧
      (t < (update_brightness^[n] ch i).brightness →
        t ≤ (update_brightness (set_target (update_brightness^[n] ch) i t) i).brightness ∧
        (update_brightness (set_target (update_brightness^[n] ch) i t) i).brightness ≤
          (update_brightness^[n] ch i).brightness)) := by
  refine ⟨?_, ?_, ?_, ?_, ?_⟩
  · rw [update_brightness_apply _ _ hi]; exact (fade_channel_between (ch i)).1
  · rw [update_brightness_apply _ _ hi]; exact (fade_channel_between (ch i)).2.1
  · rw [update_brightness_apply _ _ hi]; exact (fade_channel_between (ch i)).2.2
  · intro n
    rw [update_brightness_iterate n ch i hi]
    exact fade_channel_iterate_within _ _ n (ch i)
      ⟨min_le_left _ _, le_max_left _ _⟩ ⟨min_le_right _ _, le_max_right _ _⟩
  · intro n t
    rw [update_brightness_apply _ _ hi, set_target, upd_eq]
    have h := fade_channel_between { update_brightness^[n] ch i with target_brightness := t }
    exact ⟨h.1, h.2.1⟩

/-- Witness for C1 at a wrapping speed: channel 0 at brightness 5, remainder 10,
target 200 and speed `0xFFFF` stays between 5 and 200 in one pass. -/
theorem fading_never_overshoots_witness :
    0 < PWM_CHANNELS ∧
    (example_channels 10 5 200 65535 0).brightness <
      (example_channels 10 5 200 65535 0).target_brightness ∧
    (example_channels 10 5 200 65535 0).brightness ≤
      (update_brightness (example_channels 10 5 200 65535) 0).brightness ∧
    (update_brightness (example_channels 10 5 200 65535) 0).brightness ≤
      (example_channels 10 5 200 65535 0).target_brightness :=
  ⟨by decide, by decide,
    (fading_never_overshoots (example_channels 10 5 200 65535) 0 (by decide)).1 (by decide)⟩

/-- C3: the count set by `update_pwm_timeslots` is one (the middle interrupt)
plus the number of distinct brightness values in 1..254 among the channels, and
never exceeds `2 * PWM_CHANNELS + 1`. -/
theorem timeslot_count (cfg : config_t) (s : state_t) :
    (update_pwm_timeslots cfg s).pwm.count =
      1 + (((Finset.range PWM_CHANNELS).image (fun c => (s.channels c).brightness)).filter
        (fun v => 1 ≤ v ∧ v ≤ 254)).card ∧
    (update_pwm_timeslots cfg s).pwm.count ≤ 2 * PWM_CHANNELS + 1 := by
  obtain ⟨m, a, lv, h⟩ := build_slots_shape_spec cfg s.channels s.pwm.slots
  rw [update_pwm_timeslots_pwm]
  simp only
  have hset : ((Finset.range PWM_CHANNELS).image (fun c => (s.channels c).brightness)).filter
      (fun v => 1 ≤ v ∧ v ≤ 254) = (Finset.range m).image lv := by
    ext L
    simp only [Finset.mem_filter, Finset.mem_image, Finset.mem_range, PWM_CHANNELS]
    rw [h.levels L]
    unfold dimmed
    constructor
    · rintro ⟨⟨c, hc, e⟩, h1, h2⟩
      exact ⟨c, hc, by omega, e⟩
    · rintro ⟨c, hc, hd, e⟩
      exact ⟨⟨c, hc, e⟩, by omega, by omega⟩
  have hcard : ((Finset.range m).image lv).card = m := by
    rw [Finset.card_image_of_injOn, Finset.card_range]
    intro x hx y hy e
    simp only [Finset.coe_range, Set.mem_Iio] at hx hy
    exact h.lv_inj x y hx hy e
  rw [hset, hcard, h.count_eq]
  have := h.m_le
  simp only [PWM_CHANNELS]
  omega

/-- C4: whole-step fading is exact. With speed `0x0100`, `target_reached` clear
and brightness `s` different from the target `t`, the brightness after `k ≤ |t - s|`
passes of `update_brightness` is `s + k` (upward) or `s - k` (downward); it is `t`
after `|t - s|` passes, and `target_reached` is set after `k` passes exactly when
`|t - s| ≤ k`. -/
theorem whole_step_fading_exact (ch : Nat → channel_t) (i : Nat) (hi : i < PWM_CHANNELS)
    (hs : (ch i).speed = 0x0100) (hr : (ch i).remainder < 256)
    (hb : (ch i).brightness < 256) (ht : (ch i).target_brightness < 256)
    (hf : (ch i).target_reached = false)
    (hne : (ch i).brightness ≠ (ch i).target_brightness) :
    (∀ k, k ≤ (if (ch i).brightness < (ch i).target_brightness
          then (ch i).target_brightness - (ch i).brightness
          else (ch i).brightness - (ch i).target_brightness) →
      (update_brightness^[k] ch i).brightness =
        if (ch i).brightness < (ch i).target_brightness then (ch i).brightness + k
        else (ch i).brightness - k) ∧
    (update_brightness^[if (ch i).brightness < (ch i).target_brightness
          then (ch i).target_brightness - (ch i).brightness
          else (ch i).brightness - (ch i).target_brightness] ch i).brightness =
      (ch i).target_brightness ∧
    (∀ k, (update_brightness^[k] ch i).target_reached =
      decide ((if (ch i).brightness < (ch i).target_brightness
          then (ch i).target_brightness - (ch i).brightness
          else (ch i).brightness - (ch i).target_brightness) ≤ k)) := by
  by_cases hlt : (ch i).brightness < (ch i).target_brightness
  · simp only [if_pos hlt, update_brightness_iterate _ ch i hi,
      fade_channel_whole_up_iterate (ch i) hs hr ht hlt]
    refine ⟨?_, ?_, ?_⟩
    · intro k hk
      split_ifs
      · rfl
      · simp only; omega
    · rw [if_neg (by omega)]
    · intro k
      split_ifs with h1
      · simp only [hf]
        exact (decide_eq_false (by omega)).symm
      · simp only
        exact (decide_eq_true (by omega)).symm
  · have hgt : (ch i).target_brightness < (ch i).brightness := by omega
    simp only [if_neg hlt, update_brightness_iterate _ ch i hi,
      fade_channel_whole_down_iterate (ch i) hs hr hb hgt]
    refine ⟨?_, ?_, ?_⟩
    · intro k hk
      split_ifs
      · rfl
      · simp only; omega
    · rw [if_neg (by omega)]
    · intro k
      split_ifs with h1
      · simp only [hf]
        exact (decide_eq_false (by omega)).symm
      · simp only
        exact (decide_eq_true (by omega)).symm

/-- Witness for C4: from brightness 10 to target 200 at speed `0x0100` takes
exactly 190 passes. -/
theorem whole_step_fading_exact_witness :
    (update_brightness^[190] (example_channels 10 10 200 0x0100) 0).brightness = 200 ∧
    (update_brightness^[189] (example_channels 10 10 200 0x0100) 0).brightness = 199 ∧
    (update_brightness^[189] (example_channels 10 10 200 0x0100) 0).target_reached = false ∧
    (update_brightness^[190] (example_channels 10 10 200 0x0100) 0).target_reached = true :=
  have h := whole_step_fading_exact (example_channels 10 10 200 0x0100) 0 (by decide)
    (by decide) (by decide) (by decide) (by decide) (by decide) (by decide)
  ⟨h.2.1, h.1 189 (by decide), h.2.2 189, h.2.2 190⟩

/-- C5: the list built by `update_pwm_timeslots` holds exactly one slot with the
tick 65000 of the middle interrupt; the slots before it carry the table ticks of
dimmed levels below 181, the slots after it those of dimmed levels from 181 on,
and without a dimmed level from 181 on the middle interrupt is the last slot. -/
theorem middle_exactly_once (cfg : config_t) (s : state_t) :
    ∃ a, a < (update_pwm_timeslots cfg s).pwm.count ∧
      ((update_pwm_timeslots cfg s).pwm.slots a).top = 65000 ∧
      (∀ k, k < (update_pwm_timeslots cfg s).pwm.count →
        ((update_pwm_timeslots cfg s).pwm.slots k).top = 65000 → k = a) ∧
      (∀ k, k < a → ∃ c, c < PWM_CHANNELS ∧ dimmed (s.channels c) ∧
        (s.channels c).brightness < 181 ∧
        ((update_pwm_timeslots cfg s).pwm.slots k).top =
          pgm_read_word ((s.channels c).brightness - 1)) ∧
      (∀ k, a < k → k < (update_pwm_timeslots cfg s).pwm.count →
        ∃ c, c < PWM_CHANNELS ∧ dimmed (s.channels c) ∧
        181 ≤ (s.channels c).brightness ∧
        ((update_pwm_timeslots cfg s).pwm.slots k).top =
          pgm_read_word ((s.channels c).brightness - 1)) ∧
      ((∀ c, c < PWM_CHANNELS → dimmed (s.channels c) → (s.channels c).brightness < 181) →
        a + 1 = (update_pwm_timeslots cfg s).pwm.count) := by
  obtain ⟨m, a, lv, h⟩ := build_slots_shape_spec cfg s.channels s.pwm.slots
  rw [update_pwm_timeslots_pwm]
  simp only [PWM_CHANNELS]
  have hale := h.a_le
  refine ⟨a, by rw [h.count_eq]; omega, h.middle_top,
    fun k hk e => (h.top_middle_iff k hk).1 e, ?_, ?_, ?_⟩
  · intro k hk
    obtain ⟨c, hc, hd, e⟩ := (h.levels (lv k)).1 ⟨k, by omega, rfl⟩
    have h1 := h.slot_top k (by omega)
    have h2 : slot_pos a k = k := by unfold slot_pos; rw [if_pos hk]
    rw [h2] at h1
    have := h.low k hk
    exact ⟨c, hc, hd, by omega, by rw [h1, e]⟩
  · intro k hk1 hk2
    rw [h.count_eq] at hk2
    obtain ⟨c, hc, hd, e⟩ := (h.levels (lv (k - 1))).1 ⟨k - 1, by omega, rfl⟩
    have h1 := h.slot_top (k - 1) (by omega)
    have h2 : slot_pos a (k - 1) = k := by
      unfold slot_pos; rw [if_neg (by omega)]; omega
    rw [h2] at h1
    have := h.high (k - 1) (by omega) (by omega)
    exact ⟨c, hc, hd, by omega, by rw [h1, e]⟩
  · intro hall
    rw [h.count_eq]
    by_contra hne
    have h1 := h.high a (le_refl _) (by omega)
    obtain ⟨c, hc, hd, e⟩ := (h.levels (lv a)).1 ⟨a, by omega, rfl⟩
    have := hall c hc hd
    omega

/-- Counterexample for C6: at speed `0xFFFF` the bound `⌈65536 / speed⌉` is 2, but
a channel at brightness 5, remainder 10 and target 200 is still at brightness 5
after 0, 1 and 2 passes. -/
theorem bounded_convergence_counterexample :
    (example_channels 10 5 200 65535 0).wf ∧
    1 ≤ (example_channels 10 5 200 65535 0).speed ∧
    (65536 + (example_channels 10 5 200 65535 0).speed - 1) /
      (example_channels 10 5 200 65535 0).speed = 2 ∧
    (example_channels 10 5 200 65535 0).target_brightness = 200 ∧
    (update_brightness^[0] (example_channels 10 5 200 65535) 0).brightness = 5 ∧
    (update_brightness^[1] (example_channels 10 5 200 65535) 0).brightness = 5 ∧
    (update_brightness^[2] (example_channels 10 5 200 65535) 0).brightness = 5 := by
  decide

/-- C6 (as amended): bounded convergence. For every well-formed channel state
with `1 ≤ speed ≤ 0xFF80`, the brightness equals the target after at most
`⌈65536 / speed⌉` passes of `update_brightness`, and stays there. -/
theorem bounded_convergence (ch : Nat → channel_t) (i : Nat) (hi : i < PWM_CHANNELS)
    (hwf : (ch i).wf) (h1 : 1 ≤ (ch i).speed) (h2 : (ch i).speed ≤ 0xFF80) :
    ∃ n, n ≤ (65536 + (ch i).speed - 1) / (ch i).speed ∧
      ∀ k, n ≤ k →
        (update_brightness^[k] ch i).brightness = (ch i).target_brightness := by
  refine ⟨(65536 + (ch i).speed - 1) / (ch i).speed, le_refl _, ?_⟩
  intro k hk
  rw [update_brightness_iterate _ ch i hi]
  have h := fade_channel_converges (ch i) hwf h1 h2
  obtain ⟨d, rfl⟩ := Nat.exists_eq_add_of_le hk
  rw [Nat.add_comm, Function.iterate_add_apply,
    fade_channel_iterate_at_target d _ (by rw [fade_channel_iterate_target]; exact h)]
  exact h

/-- Witness for C6 as amended: speed `0x0300` reaches the target within
`⌈65536 / 0x0300⌉ = 86` passes. -/
theorem bounded_convergence_witness :
    (example_channels 10 5 200 0x0300 0).wf ∧
    1 ≤ (example_channels 10 5 200 0x0300 0).speed ∧
    (example_channels 10 5 200 0x0300 0).speed ≤ 0xFF80 ∧
    ∃ n, n ≤ (65536 + (example_channels 10 5 200 0x0300 0).speed - 1) /
        (example_channels 10 5 200 0x0300 0).speed ∧
      ∀ k, n ≤ k →
        (update_brightness^[k] (example_channels 10 5 200 0x0300) 0).brightness =
          (example_channels 10 5 200 0x0300 0).target_brightness :=
  ⟨by decide, by decide, by decide,
    bounded_convergence (example_channels 10 5 200 0x0300) 0 (by decide) (by decide)
      (by decide) (by decide)⟩

/-- Counterexample for C7: right after `pwm_init` channel 0 has brightness 0 and
target 0 with `target_reached` clear; a pass of `update_brightness` leaves the
brightness equal to the target and the flag still clear. -/
theorem target_reached_counterexample :
    (update_brightness (pwm_init example_cfg
        (example_state (example_levels 7 7 7) false false)).channels 0).brightness =
      (update_brightness (pwm_init example_cfg
        (example_state (example_levels 7 7 7) false false)).channels 0).target_brightness ∧
    (update_brightness (pwm_init example_cfg
        (example_state (example_levels 7 7 7) false false)).channels 0).target_reached =
      false := by
  decide

/-- C7 (as amended): `target_reached` is set when a fade arrives at the target.
After a pass of `update_brightness` over a channel that was not at its target,
the flag is set if the brightness now equals the target; a channel that already
was at its target is left untouched, flag included. -/
theorem target_reached_on_arrival (ch : Nat → channel_t) (i : Nat) (hi : i < PWM_CHANNELS) :
    ((ch i).brightness ≠ (ch i).target_brightness →
      (update_brightness ch i).brightness = (update_brightness ch i).target_brightness →
      (update_brightness ch i).target_reached = true) ∧
    ((ch i).brightness = (ch i).target_brightness → update_brightness ch i = ch i) := by
  rw [update_brightness_apply _ _ hi]
  refine ⟨?_, fun h => fade_channel_at_target _ h⟩
  intro hne
  unfold fade_channel channel_t.set_brightness_and_remainder
  simp only [hne, ne_eq, not_false_eq_true, if_true]
  split_ifs <;> simp_all

/-- Witness for C7 as amended: a channel one whole step below its target. -/
theorem target_reached_on_arrival_witness :
    0 < PWM_CHANNELS ∧
    (update_brightness (example_channels 0 199 200 0x0100) 0).target_reached = true :=
  ⟨by decide,
    (target_reached_on_arrival (example_channels 0 199 200 0x0100) 0 (by decide)).1
      (by decide) (by decide)⟩

/-- C8: the curve table is non-decreasing within each half-cycle range: over the
levels 1..180 and over the levels 181..254. The two ranges meet at the threshold
181 of the builder, where the table falls from 63779 to 489. -/
theorem curve_table_monotone (a b : Nat) (ha : 1 ≤ a) (hab : a ≤ b) :
    (b ≤ 180 → pgm_read_word (a - 1) ≤ pgm_read_word (b - 1)) ∧
    (181 ≤ a → b ≤ 254 → pgm_read_word (a - 1) ≤ pgm_read_word (b - 1)) ∧
    pgm_read_word (181 - 1) < pgm_read_word (180 - 1) := by
  refine ⟨?_, ?_, by decide⟩
  · intro hb
    by_cases e : a = b
    · rw [e]
    · exact Nat.le_of_lt (table_strict_low (a - 1) (b - 1) (by omega) (by omega))
  · intro h1 hb
    by_cases e : a = b
    · rw [e]
    · exact Nat.le_of_lt (table_strict_high (a - 1) (b - 1) (by omega) (by omega) (by omega))

/-- Witness for C8: the ends of the two ranges. -/
theorem curve_table_monotone_witness :
    (1 ≤ 1 ∧ 1 ≤ 180) ∧ pgm_read_word (1 - 1) ≤ pgm_read_word (180 - 1) ∧
    (1 ≤ 181 ∧ 181 ≤ 254) ∧ pgm_read_word (181 - 1) ≤ pgm_read_word (254 - 1) :=
  ⟨by decide, (curve_table_monotone 1 180 (by decide) (by decide)).1 (by decide),
    by decide, (curve_table_monotone 181 254 (by decide) (by decide)).2.1 (by decide)
      (by decide)⟩

/-- C9: postcondition of `pwm_init`, for either polarity. Every channel 0..2 has
brightness 0, target 0, remainder 0, speed `0x0100`, a clear `target_reached`
flag and the mask `1 << i`; the first timeslot list consists of the middle
interrupt alone (count 1, tick 65000), the cursor is 0 and `new_cycle` is set;
in the non-inverted build the initial bitmask has every channel off (it is 0),
in the inverted build it is `PWM_CHANNEL_MASK`. -/
theorem pwm_init_postcondition (cfg : config_t) (s : state_t) :
    (∀ i, i < PWM_CHANNELS →
      (pwm_init cfg s).channels i =
        { remainder := 0, brightness := 0, target_brightness := 0, speed := 0x0100,
          target_reached := false, mask := 1 <<< i }) ∧
    (pwm_init cfg s).pwm.count = 1 ∧
    ((pwm_init cfg s).pwm.slots 0).top = 65000 ∧
    (pwm_init cfg s).pwm.index = 0 ∧
    (pwm_init cfg s).pwm.new_cycle = 1 ∧
    (cfg.PWM_INVERTED = false → (pwm_init cfg s).pwm.next_bitmask = 0) ∧
    (cfg.PWM_INVERTED = true → (pwm_init cfg s).pwm.next_bitmask = cfg.PWM_CHANNEL_MASK) := by
  have hch : ∀ i, i < 3 →
      (pwm_init cfg s).channels i =
        { remainder := 0, brightness := 0, target_brightness := 0, speed := 0x0100,
          target_reached := false, mask := 1 <<< i } := by
    intro i hi
    rw [pwm_init_channels]
    have : i = 0 ∨ i = 1 ∨ i = 2 := by omega
    rcases this with e | e | e <;> subst e <;> simp [upd, _BV]
  have hnd : ∀ c, c < 3 → ¬ dimmed ((pwm_init cfg s).channels c) := by
    intro c hc
    rw [hch c hc]
    unfold dimmed
    simp
  have hbm : initial_bitmask cfg (pwm_init cfg s).channels =
      if cfg.PWM_INVERTED then cfg.PWM_CHANNEL_MASK else 0 := by
    simp [initial_bitmask, range_channels, hch 0 (by omega), hch 1 (by omega),
      hch 2 (by omega)]
  rw [pwm_init_pwm, build_slots_no_dimmed cfg _ _ hnd]
  refine ⟨hch, rfl, by simp [insert_middle, upd], rfl, rfl, ?_, ?_⟩
  · intro hinv
    show initial_bitmask cfg (pwm_init cfg s).channels = 0
    rw [hbm, hinv]
    rfl
  · intro hinv
    show initial_bitmask cfg (pwm_init cfg s).channels = cfg.PWM_CHANNEL_MASK
    rw [hbm, hinv]
    rfl

/-- Witness for C9: `pwm_init` in the build `example_cfg`, started from a state
with lit channels. -/
theorem pwm_init_postcondition_witness :
    example_cfg.PWM_INVERTED = false ∧
    (pwm_init example_cfg (example_state (example_levels 9 128 255) true true)).pwm.count = 1 ∧
    ((pwm_init example_cfg
      (example_state (example_levels 9 128 255) true true)).pwm.slots 0).top = 65000 ∧
    (pwm_init example_cfg
      (example_state (example_levels 9 128 255) true true)).pwm.next_bitmask = 0 :=
  have h := pwm_init_postcondition example_cfg
    (example_state (example_levels 9 128 255) true true)
  ⟨rfl, h.2.1, h.2.2.1, h.2.2.2.2.2.1 rfl⟩

/-- C10: `pwm_poll` consumes its signals and is otherwise a no-op. After a call
both flags are clear (a compiled-in script entry point is assumed not to touch
them); the rebuild runs exactly when `pwm_last_pulse` was set, one fading pass
exactly when `pwm_start` was set, the rebuild reading the brightness from before
the fading pass; with both flags clear the call changes nothing, so a second
call in a row leaves the state of the first unchanged. -/
theorem pwm_poll_consumes_signals (cfg : config_t) (s : state_t)
    (hscript : cfg.STATIC_SCRIPTS = true → ∀ x,
      (cfg.execute_script_threads x).pwm_last_pulse = x.pwm_last_pulse ∧
      (cfg.execute_script_threads x).pwm_start = x.pwm_start) :
    ((pwm_poll cfg s).pwm_last_pulse = false ∧ (pwm_poll cfg s).pwm_start = false) ∧
    pwm_poll cfg s =
      (if s.pwm_start = true ∧ cfg.STATIC_SCRIPTS = true then cfg.execute_script_threads
        else fun x => x)
        { s with
          pwm := if s.pwm_last_pulse = true then (update_pwm_timeslots cfg s).pwm else s.pwm
          channels := if s.pwm_start = true then update_brightness s.channels else s.channels
          pwm_last_pulse := false
          pwm_start := false } ∧
    (s.pwm_last_pulse = false → s.pwm_start = false → pwm_poll cfg s = s) ∧
    pwm_poll cfg (pwm_poll cfg s) = pwm_poll cfg s := by
  have hflags : (pwm_poll cfg s).pwm_last_pulse = false ∧ (pwm_poll cfg s).pwm_start = false := by
    rw [pwm_poll_eq]
    by_cases hc : s.pwm_start = true ∧ cfg.STATIC_SCRIPTS = true
    · rw [if_pos hc]
      have h := hscript hc.2
      exact ⟨(h _).1, (h _).2⟩
    · rw [if_neg hc]
      exact ⟨rfl, rfl⟩
  exact ⟨hflags, pwm_poll_eq cfg s, pwm_poll_idle cfg s,
    pwm_poll_idle cfg _ hflags.1 hflags.2⟩

/-- Witness for C10: a build with a script entry point that retargets channel 0;
both signals pending. -/
theorem pwm_poll_consumes_signals_witness :
    (example_cfg_scripts.STATIC_SCRIPTS = true → ∀ x,
      (example_cfg_scripts.execute_script_threads x).pwm_last_pulse = x.pwm_last_pulse ∧
      (example_cfg_scripts.execute_script_threads x).pwm_start = x.pwm_start) ∧
    (pwm_poll example_cfg_scripts
      (example_state (example_levels 0 128 255) true true)).pwm_last_pulse = false ∧
    (pwm_poll example_cfg_scripts
      (example_state (example_levels 0 128 255) true true)).pwm_start = false ∧
    pwm_poll example_cfg_scripts (pwm_poll example_cfg_scripts
      (example_state (example_levels 0 128 255) true true)) =
      pwm_poll example_cfg_scripts (example_state (example_levels 0 128 255) true true) :=
  have hs : example_cfg_scripts.STATIC_SCRIPTS = true → ∀ x,
      (example_cfg_scripts.execute_script_threads x).pwm_last_pulse = x.pwm_last_pulse ∧
      (example_cfg_scripts.execute_script_threads x).pwm_start = x.pwm_start :=
    fun _ _ => ⟨rfl, rfl⟩
  have h := pwm_poll_consumes_signals example_cfg_scripts
    (example_state (example_levels 0 128 255) true true) hs
  ⟨hs, h.1.1, h.1.2, h.2.2.2⟩

/-- Counterexample for C11: brightness (180, 181, 0) gives the ticks 63779,
65000, 489, so the ticks of the slots 0 < 2 and 1 < 2 are not ascending. -/
theorem ticks_ascending_counterexample :
    (update_pwm_timeslots example_cfg
      (example_state (example_levels 180 181 0) true false)).pwm.count = 3 ∧
    ((update_pwm_timeslots example_cfg
      (example_state (example_levels 180 181 0) true false)).pwm.slots 0).top = 63779 ∧
    ((update_pwm_timeslots example_cfg
      (example_state (example_levels 180 181 0) true false)).pwm.slots 1).top = 65000 ∧
    ((update_pwm_timeslots example_cfg
      (example_state (example_levels 180 181 0) true false)).pwm.slots 2).top = 489 ∧
    ¬ (((update_pwm_timeslots example_cfg
        (example_state (example_levels 180 181 0) true false)).pwm.slots 0).top ≤
      ((update_pwm_timeslots example_cfg
        (example_state (example_levels 180 181 0) true false)).pwm.slots 2).top) := by
  decide

/-- C11 (as amended): the timeslot list is ordered ascending by tick within each
half-cycle. With the middle interrupt (tick 65000) at position `a`, the ticks
are ascending over the positions `0 .. a` and over the positions
`a + 1 .. count - 1`. -/
theorem ticks_ascending_per_half (cfg : config_t) (s : state_t) :
    ∃ a, a < (update_pwm_timeslots cfg s).pwm.count ∧
      ((update_pwm_timeslots cfg s).pwm.slots a).top = 65000 ∧
      (∀ i j, i < j → j ≤ a →
        ((update_pwm_timeslots cfg s).pwm.slots i).top ≤
          ((update_pwm_timeslots cfg s).pwm.slots j).top) ∧
      (∀ i j, a < i → i < j → j < (update_pwm_timeslots cfg s).pwm.count →
        ((update_pwm_timeslots cfg s).pwm.slots i).top ≤
          ((update_pwm_timeslots cfg s).pwm.slots j).top) := by
  obtain ⟨m, a, lv, h⟩ := build_slots_shape_spec cfg s.channels s.pwm.slots
  rw [update_pwm_timeslots_pwm]
  simp only
  have hale := h.a_le
  have hc := h.count_eq
  refine ⟨a, by omega, h.middle_top, ?_, ?_⟩
  · intro i j hij hja
    by_cases e : j = a
    · subst e
      have := h.top_lt_of_ne i (by omega) (by omega)
      rw [h.middle_top]; omega
    · exact Nat.le_of_lt (h.top_lt_of_lt i j hij (by omega) (Or.inl (by omega)))
  · intro i j hai hij hj
    exact Nat.le_of_lt (h.top_lt_of_lt i j hij hj (Or.inr hai))

/-- Counterexample for C12: there is one list, and `pwm_poll` rebuilds it while
the handlers execute it. After `example_walk` the cursor is at 1 of 4 and the
compare register is armed with the tick 4921 of slot 0. The late `pwm_poll`
writes the list for brightness (100, 0, 0) into the same slots: slot 0 now has
the tick 19685 while the compare register still holds 4921, slot 1 has become
the middle interrupt but kept its mask `0b100`, the slots 2 and 3 still hold
the entries of the old list, and the next compare-B interrupt loads the
rewritten slot 0. -/
theorem rebuild_in_place_counterexample :
    (example_walk.map fun s =>
      (s.pwm.index, s.pwm.count, s.pwm_last_pulse, s.OCR1B)) = some (1, 4, true, 4921) ∧
    (example_walk.map fun s =>
      (s.pwm.slots 0, s.pwm.slots 1, s.pwm.slots 2, s.pwm.slots 3)) =
      some ({ mask := 0b110, top := 4921 }, { mask := 0b100, top := 44291 },
        { mask := 0, top := 65000 }, { mask := 0, top := 14739 }) ∧
    (example_late_poll.map fun s =>
      (s.pwm.index, s.pwm.count, s.pwm.new_cycle, s.OCR1B)) = some (0, 2, 1, 4921) ∧
    (example_late_poll.map fun s =>
      (s.pwm.slots 0, s.pwm.slots 1, s.pwm.slots 2, s.pwm.slots 3)) =
      some ({ mask := 0, top := 19685 }, { mask := 0b100, top := 65000 },
        { mask := 0, top := 65000 }, { mask := 0, top := 14739 }) ∧
    (example_late_poll.map fun s => (isr_compare_b example_cfg s).OCR1B) = some 19685 := by
  decide

/-- C12 (as amended): the timeslot list that the handlers execute is a single
list, rebuilt in place. The handlers (`prepare_next_timeslot`, compare B,
compare A) never write its slots or its count, and `prepare_next_timeslot`
raises `pwm_last_pulse` exactly when the cursor has passed the last slot;
`pwm_poll` rebuilds the list exactly when `pwm_last_pulse` is set (a compiled-in
script entry point is assumed not to touch `pwm`); the rebuild writes the new
list into that same list, leaving every slot at a position `≥ count` as it was,
and ends with `index = 0` and `new_cycle = 1`. -/
theorem rebuild_in_place (cfg : config_t) (s : state_t)
    (hscript : cfg.STATIC_SCRIPTS = true → ∀ x, (cfg.execute_script_threads x).pwm = x.pwm) :
    ((prepare_next_timeslot s).pwm.slots = s.pwm.slots ∧
      (prepare_next_timeslot s).pwm.count = s.pwm.count) ∧
    ((isr_compare_b cfg s).pwm.slots = s.pwm.slots ∧
      (isr_compare_b cfg s).pwm.count = s.pwm.count) ∧
    (∀ tcnt fuel r, isr_compare_a cfg tcnt fuel s = some r →
      r.pwm.slots = s.pwm.slots ∧ r.pwm.count = s.pwm.count) ∧
    ((prepare_next_timeslot s).pwm_last_pulse = true ↔
      s.pwm_last_pulse = true ∨ s.pwm.count ≤ s.pwm.index) ∧
    (s.pwm_last_pulse = false → (pwm_poll cfg s).pwm = s.pwm) ∧
    (s.pwm_last_pulse = true → (pwm_poll cfg s).pwm = (update_pwm_timeslots cfg s).pwm) ∧
    (∀ p, (update_pwm_timeslots cfg s).pwm.count ≤ p →
      (update_pwm_timeslots cfg s).pwm.slots p = s.pwm.slots p) ∧
    (update_pwm_timeslots cfg s).pwm.index = 0 ∧
    (update_pwm_timeslots cfg s).pwm.new_cycle = 1 := by
  have hp := pwm_poll_pwm cfg s hscript
  refine ⟨?_, ?_, ?_, ?_, ?_, ?_, ?_, rfl, rfl⟩
  · have fr := prepare_next_timeslot_frame s
    exact ⟨fr.2.2.2.1, fr.2.2.2.2⟩
  · have fr := prepare_next_timeslot_frame (output_next_bitmask cfg s)
    exact ⟨fr.2.2.2.1, fr.2.2.2.2⟩
  · intro tcnt fuel r hr
    by_cases h : s.pwm.new_cycle = 0
    · rw [isr_compare_a_old_cycle cfg tcnt fuel s h] at hr
      simp only [Option.some.injEq] at hr
      have fr := prepare_next_timeslot_frame s
      rw [hr] at fr
      exact ⟨fr.2.2.2.1, fr.2.2.2.2⟩
    · obtain ⟨k, s1, hc, e⟩ := isr_compare_a_new_cycle cfg tcnt fuel s r h hr
      have fc := catch_up_frame cfg tcnt fuel 0 _ k s1 hc
      have fr := prepare_next_timeslot_frame
        { s1 with pwm_start := true, pwm := { s1.pwm with new_cycle := 0 } }
      rw [← e] at fr
      exact ⟨fr.2.2.2.1.trans fc.1, fr.2.2.2.2.trans fc.2⟩
  · by_cases h : s.pwm.index < s.pwm.count
    · rw [prepare_next_timeslot_load s h]
      simp only
      constructor
      · intro e; exact Or.inl e
      · rintro (e | e)
        · exact e
        · omega
    · rw [prepare_next_timeslot_wrap s h]
      simp only
      constructor
      · intro _; exact Or.inr (by omega)
      · intro _; trivial
  · intro h
    rw [hp, if_neg (by simp [h])]
  · intro h
    rw [hp, if_pos h]
  · intro p hpc
    rw [update_pwm_timeslots_pwm] at hpc ⊢
    exact build_slots_rest cfg s.channels s.pwm.slots p hpc

/-- Witness for C12: a build with a script entry point that only retargets
channel 0; `pwm_poll` leaves the list alone without `pwm_last_pulse` and rebuilds
it with `pwm_last_pulse`. -/
theorem rebuild_in_place_witness :
    (example_cfg_scripts.STATIC_SCRIPTS = true →
      ∀ x, (example_cfg_scripts.execute_script_threads x).pwm = x.pwm) ∧
    (pwm_poll example_cfg_scripts (example_state (example_levels 0 128 255) false true)).pwm =
      (example_state (example_levels 0 128 255) false true).pwm ∧
    (pwm_poll example_cfg_scripts (example_state (example_levels 0 128 255) true true)).pwm =
      (update_pwm_timeslots example_cfg_scripts
        (example_state (example_levels 0 128 255) true true)).pwm :=
  ⟨fun _ _ => rfl,
    (rebuild_in_place example_cfg_scripts (example_state (example_levels 0 128 255) false true)
      (fun _ _ => rfl)).2.2.2.2.1 rfl,
    (rebuild_in_place example_cfg_scripts (example_state (example_levels 0 128 255) true true)
      (fun _ _ => rfl)).2.2.2.2.2.1 rfl⟩

/-- C13: the per-timeslot handler (compare-B interrupt). It writes `next_bitmask`
to the channel bits of the port and leaves the other port bits as they are
(`next_bitmask` has no bit outside the channel mask); then, if `index < count`,
it loads the tick of slot `index` into the compare register and its mask into
`next_bitmask` and increments `index` without touching `pwm_last_pulse`;
otherwise it resets `index` to 0, programs the compare register to 65000 and
sets `pwm_last_pulse`, leaving slots, count and `next_bitmask` unchanged. -/
theorem compare_b_step (cfg : config_t) (s : state_t)
    (hmask : cfg.PWM_CHANNEL_MASK < 256) (hport : s.PWM_PORT < 256)
    (hcount : s.pwm.count < 256)
    (hnb : ∀ c, s.pwm.next_bitmask.testBit c = true →
      cfg.PWM_CHANNEL_MASK.testBit c = true) :
    (∀ c, cfg.PWM_CHANNEL_MASK.testBit c = true →
      (isr_compare_b cfg s).PWM_PORT.testBit c = s.pwm.next_bitmask.testBit c) ∧
    (∀ c, cfg.PWM_CHANNEL_MASK.testBit c = false →
      (isr_compare_b cfg s).PWM_PORT.testBit c = s.PWM_PORT.testBit c) ∧
    (s.pwm.index < s.pwm.count →
      (isr_compare_b cfg s).OCR1B = (s.pwm.slots s.pwm.index).top ∧
      (isr_compare_b cfg s).pwm.next_bitmask = (s.pwm.slots s.pwm.index).mask ∧
      (isr_compare_b cfg s).pwm.index = s.pwm.index + 1 ∧
      (isr_compare_b cfg s).pwm_last_pulse = s.pwm_last_pulse ∧
      (isr_compare_b cfg s).pwm.slots = s.pwm.slots ∧
      (isr_compare_b cfg s).pwm.count = s.pwm.count) ∧
    (¬ s.pwm.index < s.pwm.count →
      (isr_compare_b cfg s).pwm.index = 0 ∧
      (isr_compare_b cfg s).OCR1B = 65000 ∧
      (isr_compare_b cfg s).pwm_last_pulse = true ∧
      (isr_compare_b cfg s).pwm.slots = s.pwm.slots ∧
      (isr_compare_b cfg s).pwm.count = s.pwm.count ∧
      (isr_compare_b cfg s).pwm.next_bitmask = s.pwm.next_bitmask) := by
  have hport_eq : (isr_compare_b cfg s).PWM_PORT =
      port_out cfg s.PWM_PORT s.pwm.next_bitmask := by
    unfold isr_compare_b prepare_next_timeslot
    split_ifs <;> rfl
  refine ⟨?_, ?_, ?_, ?_⟩
  · intro c hc
    rw [hport_eq]
    exact (port_out_testBit cfg _ _ hmask hport hnb c).1 hc
  · intro c hc
    rw [hport_eq]
    exact (port_out_testBit cfg _ _ hmask hport hnb c).2 hc
  · intro h
    have e := prepare_next_timeslot_load (output_next_bitmask cfg s) h
    unfold isr_compare_b
    rw [e]
    exact ⟨rfl, rfl, Nat.mod_eq_of_lt (show s.pwm.index + 1 < 256 by omega), rfl, rfl, rfl⟩
  · intro h
    have e := prepare_next_timeslot_wrap (output_next_bitmask cfg s) h
    unfold isr_compare_b
    rw [e]
    exact ⟨rfl, rfl, rfl, rfl, rfl, rfl⟩

/-- Witness for C13: the handler on the list built for brightness (0, 128, 255),
before the first slot is loaded. -/
theorem compare_b_step_witness :
    example_cfg.PWM_CHANNEL_MASK < 256 ∧
    (update_pwm_timeslots example_cfg
      (example_state (example_levels 0 128 255) true false)).PWM_PORT < 256 ∧
    (update_pwm_timeslots example_cfg
      (example_state (example_levels 0 128 255) true false)).pwm.count < 256 ∧
    (isr_compare_b example_cfg (update_pwm_timeslots example_cfg
      (example_state (example_levels 0 128 255) true false))).PWM_PORT = 0b110 ∧
    (isr_compare_b example_cfg (update_pwm_timeslots example_cfg
      (example_state (example_levels 0 128 255) true false))).OCR1B = 32251 ∧
    (isr_compare_b example_cfg (update_pwm_timeslots example_cfg
      (example_state (example_levels 0 128 255) true false))).pwm.next_bitmask = 0b100 ∧
    (isr_compare_b example_cfg (update_pwm_timeslots example_cfg
      (example_state (example_levels 0 128 255) true false))).pwm.index = 1 :=
  have hnb : ∀ c, (update_pwm_timeslots example_cfg
      (example_state (example_levels 0 128 255) true false)).pwm.next_bitmask.testBit c = true →
      example_cfg.PWM_CHANNEL_MASK.testBit c = true := by
    intro c hc
    have e1 : (update_pwm_timeslots example_cfg
      (example_state (example_levels 0 128 255) true false)).pwm.next_bitmask = 6 := by decide
    have e2 : example_cfg.PWM_CHANNEL_MASK = 7 := rfl
    rw [e1] at hc
    rw [e2]
    have h6 : (6 : Nat) = 2 ^ 1 + 2 ^ 2 := by norm_num
    by_cases h3 : c < 3
    · have : c = 0 ∨ c = 1 ∨ c = 2 := by omega
      rcases this with e | e | e <;> subst e <;> decide
    · exfalso
      have hlt : (6 : Nat) < 2 ^ c := by
        have : 2 ^ 3 ≤ 2 ^ c := Nat.pow_le_pow_right (by omega) (by omega)
        omega
      rw [Nat.testBit_lt_two_pow hlt] at hc
      exact absurd hc (by simp)
  have h := compare_b_step example_cfg (update_pwm_timeslots example_cfg
      (example_state (example_levels 0 128 255) true false)) (by decide) (by decide)
      (by decide) hnb
  ⟨by decide, by decide, by decide, by decide, (h.2.2.1 (by decide)).1,
    (h.2.2.1 (by decide)).2.1, (h.2.2.1 (by decide)).2.2.1⟩

/-- C15: the catch-up loop is bounded by the timeslot list. In the state left by
`update_pwm_timeslots`, after the port write of the initial bitmask, and for
timer readings up to the timer TOP 64000: the list has a marker slot `a < count`
with tick 65000, at which the loop condition `TCNT1 + 500 > top` is false for
every reading; every result of the loop is reached by `n ≤ a` iterations (so
fewer than `count`), the slots read are at the indices `0 .. n`, all below
`count`, and the loop leaves `index = n < count` with the list unchanged; the
handler then loads slot `n` without raising `pwm_last_pulse`. The loop returns
when the readings reach every tick below the timer TOP. -/
theorem catch_up_bounded (cfg : config_t) (s : state_t) (tcnt : Nat → Nat)
    (htc : ∀ k, tcnt k ≤ 64000) :
    (update_pwm_timeslots cfg s).pwm.index = 0 ∧
    (update_pwm_timeslots cfg s).pwm.new_cycle = 1 ∧
    ∃ a, a < (update_pwm_timeslots cfg s).pwm.count ∧
      ((update_pwm_timeslots cfg s).pwm.slots a).top = 65000 ∧
      (∀ k, ¬ (tcnt k + 500) % 65536 > ((update_pwm_timeslots cfg s).pwm.slots a).top) ∧
      (∀ fuel k r,
        catch_up cfg tcnt fuel 0 (output_next_bitmask cfg (update_pwm_timeslots cfg s)) =
          some (k, r) →
        ∃ n, n ≤ a ∧
          r = (catch_up_body cfg)^[n] (output_next_bitmask cfg (update_pwm_timeslots cfg s)) ∧
          (∀ i, i ≤ n →
            ((catch_up_body cfg)^[i]
              (output_next_bitmask cfg (update_pwm_timeslots cfg s))).pwm.index = i ∧
            i < (update_pwm_timeslots cfg s).pwm.count) ∧
          r.pwm.index = n ∧ r.pwm.index < r.pwm.count ∧
          r.pwm.count = (update_pwm_timeslots cfg s).pwm.count ∧
          r.pwm.slots = (update_pwm_timeslots cfg s).pwm.slots) ∧
      (∀ fuel r, isr_compare_a cfg tcnt fuel (update_pwm_timeslots cfg s) = some r →
        ∃ n, n ≤ a ∧ r.pwm.index = n + 1 ∧
          r.OCR1B = ((update_pwm_timeslots cfg s).pwm.slots n).top ∧
          r.pwm_last_pulse = s.pwm_last_pulse) ∧
      ((∀ k top, top < 64000 → ∃ n, top ≤ tcnt (k + n)) →
        ∃ fuel k r,
          catch_up cfg tcnt fuel 0 (output_next_bitmask cfg (update_pwm_timeslots cfg s)) =
            some (k, r)) := by
  obtain ⟨a, ha, hcnt, hm, hlow⟩ := update_pwm_timeslots_marker cfg s
  have key : ∀ fuel k r,
      catch_up cfg tcnt fuel 0 (output_next_bitmask cfg (update_pwm_timeslots cfg s)) =
          some (k, r) →
        ∃ n, n ≤ a ∧
          r = (catch_up_body cfg)^[n] (output_next_bitmask cfg (update_pwm_timeslots cfg s)) ∧
          (∀ i, i ≤ n →
            ((catch_up_body cfg)^[i]
              (output_next_bitmask cfg (update_pwm_timeslots cfg s))).pwm.index = i ∧
            i < (update_pwm_timeslots cfg s).pwm.count) ∧
          r.pwm.index = n ∧ r.pwm.index < r.pwm.count ∧
          r.pwm.count = (update_pwm_timeslots cfg s).pwm.count ∧
          r.pwm.slots = (update_pwm_timeslots cfg s).pwm.slots ∧
          r.pwm_last_pulse = s.pwm_last_pulse := by
    intro fuel k r h
    have e0 : (output_next_bitmask cfg (update_pwm_timeslots cfg s)).pwm.index = 0 := rfl
    obtain ⟨n, hn, hr⟩ := catch_up_bound cfg tcnt htc a (by omega) fuel 0
      (output_next_bitmask cfg (update_pwm_timeslots cfg s)) k r (by rw [e0]; omega) hm h
    rw [e0] at hn
    have it := fun i (hi : i ≤ n) => catch_up_body_iterate cfg
      (output_next_bitmask cfg (update_pwm_timeslots cfg s)) i
      (show (output_next_bitmask cfg (update_pwm_timeslots cfg s)).pwm.index + i < 256 by
        rw [e0]; omega)
    obtain ⟨i1, i2, i3, _, _, i6⟩ := it n (le_refl _)
    rw [← hr, e0] at i1
    rw [← hr] at i2 i3 i6
    refine ⟨n, by omega, hr, ?_, ?_, ?_, i3, i2, i6⟩
    · intro i hi
      refine ⟨?_, by omega⟩
      rw [(it i hi).1, e0]
      omega
    · rw [i1]; omega
    · rw [i1, i3]
      show 0 + n < (update_pwm_timeslots cfg s).pwm.count
      omega
  refine ⟨rfl, rfl, a, ha, hm, ?_, ?_, ?_, ?_⟩
  · intro k
    rw [hm]
    exact catch_up_cond_marker _ (htc k)
  · intro fuel k r h
    obtain ⟨n, h1, h2, h3, h4, h5, h6, h7, _⟩ := key fuel k r h
    exact ⟨n, h1, h2, h3, h4, h5, h6, h7⟩
  · intro fuel r h
    obtain ⟨k, s1, hc, hr⟩ := isr_compare_a_new_cycle cfg tcnt fuel _ r
      (show (update_pwm_timeslots cfg s).pwm.new_cycle ≠ 0 by
        rw [update_pwm_timeslots_pwm]; simp) h
    obtain ⟨n, h1, _, _, h4, h5, h6, h7, h8⟩ := key fuel k s1 hc
    have e := prepare_next_timeslot_load
      { s1 with pwm_start := true, pwm := { s1.pwm with new_cycle := 0 } } h5
    rw [e] at hr
    refine ⟨n, h1, ?_, ?_, ?_⟩
    · rw [hr]
      show (s1.pwm.index + 1) % 256 = n + 1
      rw [h4, Nat.mod_eq_of_lt (by omega)]
    · rw [hr]
      show (s1.pwm.slots s1.pwm.index).top = _
      rw [h7, h4]
    · rw [hr]
      exact h8
  · intro hp
    obtain ⟨fuel, ⟨k, r⟩, h⟩ := catch_up_terminates cfg tcnt htc hp a (by omega) a
      (output_next_bitmask cfg (update_pwm_timeslots cfg s)) 0
      (show 0 + a = a by omega) hm (fun i hi => hlow i (by omega) (by omega))
    exact ⟨fuel, k, r, h⟩

/-- Witness for C15: brightness (1, 0, 255) and the readings 0, 100, 200, ...;
the slot of level 1 is due at entry, so the loop runs once and stops at the
marker with `index = 1 < count = 2`. -/
theorem catch_up_bounded_witness :
    (∀ k, example_tcnt k ≤ 64000) ∧
    (catch_up example_cfg example_tcnt 3 0
      (output_next_bitmask example_cfg (update_pwm_timeslots example_cfg
        (example_state (example_levels 1 0 255) true false)))).map
      (fun p => (p.1, p.2.pwm.index, p.2.pwm.count, p.2.PWM_PORT)) = some (3, 1, 2, 4) ∧
    ∃ a, a < (update_pwm_timeslots example_cfg
        (example_state (example_levels 1 0 255) true false)).pwm.count ∧
      ((update_pwm_timeslots example_cfg
        (example_state (example_levels 1 0 255) true false)).pwm.slots a).top = 65000 ∧
      ∀ k, ¬ (example_tcnt k + 500) % 65536 > ((update_pwm_timeslots example_cfg
        (example_state (example_levels 1 0 255) true false)).pwm.slots a).top :=
  ⟨example_tcnt_le, by decide,
    (catch_up_bounded example_cfg (example_state (example_levels 1 0 255) true false)
      example_tcnt example_tcnt_le).2.2.imp fun _ h => ⟨h.1, h.2.1, h.2.2.1⟩⟩

/-- Counterexample for C16: with brightness (2, 2, 1) the sort yields the order
2, 1, 0: the channels 1 and 0 have equal brightness and appear in descending
index order. -/
theorem stable_sort_counterexample :
    sort_channels (example_levels 2 2 1) 0 = 2 ∧
    sort_channels (example_levels 2 2 1) 1 = 1 ∧
    sort_channels (example_levels 2 2 1) 2 = 0 ∧
    (example_levels 2 2 1 1).brightness = (example_levels 2 2 1 0).brightness := by
  decide

/-- C16 (as amended): `update_pwm_timeslots` orders the channel indices by
ascending brightness. The resulting order is a permutation of 0, 1, 2 (every
entry is a channel index and every channel index occurs exactly once) with
non-decreasing brightness. -/
theorem sort_ascending (ch : Nat → channel_t) :
    (∀ k, k < PWM_CHANNELS → sort_channels ch k < PWM_CHANNELS) ∧
    (∀ c, c < PWM_CHANNELS → ∃! k, k < PWM_CHANNELS ∧ sort_channels ch k = c) ∧
    (∀ k k', k < k' → k' < PWM_CHANNELS →
      (ch (sort_channels ch k)).brightness ≤ (ch (sort_channels ch k')).brightness) := by
  obtain ⟨p, q, r, e0, e1, e2, hperm, h01, h12⟩ := sort_channels_perm ch
  simp only [PWM_CHANNELS]
  refine ⟨?_, ?_, ?_⟩
  · intro k hk
    have : k = 0 ∨ k = 1 ∨ k = 2 := by omega
    rcases this with e | e | e <;> subst e <;> omega
  · intro c hc
    have hc' : c = p ∨ c = q ∨ c = r := by omega
    rcases hc' with e | e | e
    · refine ⟨0, ⟨by omega, by omega⟩, ?_⟩
      rintro k ⟨hk, ek⟩
      have : k = 0 ∨ k = 1 ∨ k = 2 := by omega
      rcases this with e' | e' | e' <;> subst e' <;> omega
    · refine ⟨1, ⟨by omega, by omega⟩, ?_⟩
      rintro k ⟨hk, ek⟩
      have : k = 0 ∨ k = 1 ∨ k = 2 := by omega
      rcases this with e' | e' | e' <;> subst e' <;> omega
    · refine ⟨2, ⟨by omega, by omega⟩, ?_⟩
      rintro k ⟨hk, ek⟩
      have : k = 0 ∨ k = 1 ∨ k = 2 := by omega
      rcases this with e' | e' | e' <;> subst e' <;> omega
  · intro k k' hkk hk'
    have : (k = 0 ∧ k' = 1) ∨ (k = 0 ∧ k' = 2) ∨ (k = 1 ∧ k' = 2) := by omega
    rcases this with ⟨e, e'⟩ | ⟨e, e'⟩ | ⟨e, e'⟩ <;> subst e <;> subst e' <;>
      rw [e0, e1, e2] at * <;> omega

/-- C17: the middle interrupt written by `update_pwm_timeslots` carries a stale
mask. On the list built for brightness (50, 150, 200), a rebuild for brightness
(100, 0, 0) gives the initial bitmask `0b001`, slot 0 with the running mask 0
and the middle interrupt in slot 1, which keeps the mask `0b100` that slot 1
held in the old list instead of the running mask 0. After the late `pwm_poll`
of `example_late_poll`, two compare-B interrupts and the compare-A interrupt
write that mask to the port: channel 2, at brightness 0, is switched on. -/
theorem marker_mask_stale :
    ((update_pwm_timeslots example_cfg
        { example_list with channels := example_levels 100 0 0 }).pwm.count,
      (update_pwm_timeslots example_cfg
        { example_list with channels := example_levels 100 0 0 }).pwm.next_bitmask,
      (update_pwm_timeslots example_cfg
        { example_list with channels := example_levels 100 0 0 }).pwm.slots 0,
      (update_pwm_timeslots example_cfg
        { example_list with channels := example_levels 100 0 0 }).pwm.slots 1) =
      (2, 0b001, { mask := 0, top := 19685 }, { mask := 0b100, top := 65000 }) ∧
    (example_late_poll.map fun s => ((s.channels 2).brightness, s.pwm.slots 1)) =
      some (0, { mask := 0b100, top := 65000 }) ∧
    (example_late_poll.bind fun s =>
      (isr_compare_a example_cfg example_tcnt 5
        (isr_compare_b example_cfg (isr_compare_b example_cfg s))).map fun r =>
        r.PWM_PORT) = some 0b100 := by
  decide

/-- C18: `update_pwm_timeslots` is index-safe. With every array access of the
slot loop checked against a slot array of four entries and the 254-entry table,
the checked function never fails and returns what `update_pwm_timeslots`
returns; whenever an iteration takes the merge branch, `j ≥ 1` and slot `j - 1`
carries the table tick of that channel's own brightness level, so it is not the
middle interrupt; and every table lookup has `0 ≤ brightness - 1 ≤ 253`. -/
theorem update_pwm_timeslots_index_safe (cfg : config_t) (s : state_t) :
    update_pwm_timeslots_checked 4 cfg s = some (update_pwm_timeslots cfg s) ∧
    (∀ i, i < PWM_CHANNELS →
      dimmed (s.channels (sort_channels s.channels i)) →
      ¬ ((s.channels (sort_channels s.channels i)).brightness >
          (build_upto cfg s.channels s.pwm.slots i).last_brightness) →
      1 ≤ (build_upto cfg s.channels s.pwm.slots i).j ∧
      ((build_upto cfg s.channels s.pwm.slots i).slots
          ((build_upto cfg s.channels s.pwm.slots i).j - 1)).top =
        pgm_read_word ((s.channels (sort_channels s.channels i)).brightness - 1) ∧
      ((build_upto cfg s.channels s.pwm.slots i).slots
          ((build_upto cfg s.channels s.pwm.slots i).j - 1)).top ≠ 65000) ∧
    (∀ i, i < PWM_CHANNELS →
      dimmed (s.channels (sort_channels s.channels i)) →
      1 ≤ (s.channels (sort_channels s.channels i)).brightness ∧
      (s.channels (sort_channels s.channels i)).brightness - 1 ≤ 253) := by
  simp only [PWM_CHANNELS]
  refine ⟨update_pwm_timeslots_checked_ok cfg s, ?_, ?_⟩
  · intro i hi hd hle
    have h := write_inv_upto cfg s.channels s.pwm.slots i
    have hd' := hd
    unfold dimmed at hd'
    have hlast : (build_upto cfg s.channels s.pwm.slots i).last_brightness =
        (s.channels (sort_channels s.channels i)).brightness := by
      rcases h.last_from with e | ⟨k, hk, _, e⟩
      · omega
      · have := sort_channels_sorted s.channels k i hk hi
        omega
    obtain ⟨h1, h2⟩ := h.last_slot (by omega)
    rw [hlast] at h2
    refine ⟨h1, h2, ?_⟩
    rw [h2]
    have := table_lt_top ((s.channels (sort_channels s.channels i)).brightness - 1) (by omega)
    omega
  · intro i _ hd
    unfold dimmed at hd
    omega

/-- C19: schedule well-formedness per half-cycle. The ticks of the slots before
the middle interrupt are strictly increasing, so are the ticks of the slots
after it, and every other tick is below the timer TOP 64000 that `pwm_init`
programs, hence below the tick 65000 of the middle interrupt. -/
theorem schedule_well_formed (cfg : config_t) (s : state_t) :
    (pwm_init cfg s).OCR1A = 64000 ∧
    ∃ a, a < (update_pwm_timeslots cfg s).pwm.count ∧
      ((update_pwm_timeslots cfg s).pwm.slots a).top = 65000 ∧
      (∀ i j, i < j → j < a →
        ((update_pwm_timeslots cfg s).pwm.slots i).top <
          ((update_pwm_timeslots cfg s).pwm.slots j).top) ∧
      (∀ i j, a < i → i < j → j < (update_pwm_timeslots cfg s).pwm.count →
        ((update_pwm_timeslots cfg s).pwm.slots i).top <
          ((update_pwm_timeslots cfg s).pwm.slots j).top) ∧
      (∀ k, k < (update_pwm_timeslots cfg s).pwm.count → k ≠ a →
        ((update_pwm_timeslots cfg s).pwm.slots k).top < 64000 ∧
        ((update_pwm_timeslots cfg s).pwm.slots k).top <
          ((update_pwm_timeslots cfg s).pwm.slots a).top) := by
  refine ⟨rfl, ?_⟩
  obtain ⟨m, a, lv, h⟩ := build_slots_shape_spec cfg s.channels s.pwm.slots
  rw [update_pwm_timeslots_pwm]
  simp only
  have hale := h.a_le
  have hc := h.count_eq
  refine ⟨a, by omega, h.middle_top, ?_, ?_, ?_⟩
  · intro i j hij hja
    exact h.top_lt_of_lt i j hij (by omega) (Or.inl hja)
  · intro i j hai hij hj
    exact h.top_lt_of_lt i j hij hj (Or.inr hai)
  · intro k hk hne
    have := h.top_lt_of_ne k hk hne
    rw [h.middle_top]
    exact ⟨this, by omega⟩

/-- C20: cursor walk and invariant. From the state left by
`update_pwm_timeslots` with `count = n`, the `k + 1`-th `prepare_next_timeslot`
step for `k < n` loads slot `k` (compare register = its tick, `next_bitmask` =
its mask), moves the cursor to `k + 1` and leaves `pwm_last_pulse` as it was;
the `n + 1`-th step raises `pwm_last_pulse`, resets the cursor to 0 and programs
the compare register to 65000. In every state reached from a rebuild by
rebuilds and `prepare_next_timeslot` steps, `index ≤ count` and
`1 ≤ count ≤ 4`. -/
theorem cursor_walk (cfg : config_t) (s : state_t) :
    (∀ k, k < (update_pwm_timeslots cfg s).pwm.count →
      (prepare_next_timeslot^[k + 1] (update_pwm_timeslots cfg s)).OCR1B =
        ((update_pwm_timeslots cfg s).pwm.slots k).top ∧
      (prepare_next_timeslot^[k + 1] (update_pwm_timeslots cfg s)).pwm.next_bitmask =
        ((update_pwm_timeslots cfg s).pwm.slots k).mask ∧
      (prepare_next_timeslot^[k + 1] (update_pwm_timeslots cfg s)).pwm.index = k + 1 ∧
      (prepare_next_timeslot^[k + 1] (update_pwm_timeslots cfg s)).pwm_last_pulse =
        s.pwm_last_pulse) ∧
    ((prepare_next_timeslot^[(update_pwm_timeslots cfg s).pwm.count + 1]
        (update_pwm_timeslots cfg s)).pwm_last_pulse = true ∧
      (prepare_next_timeslot^[(update_pwm_timeslots cfg s).pwm.count + 1]
        (update_pwm_timeslots cfg s)).pwm.index = 0 ∧
      (prepare_next_timeslot^[(update_pwm_timeslots cfg s).pwm.count + 1]
        (update_pwm_timeslots cfg s)).OCR1B = 65000) ∧
    (∀ ops : List cursor_op,
      (run_ops cfg ops (update_pwm_timeslots cfg s)).pwm.index ≤
        (run_ops cfg ops (update_pwm_timeslots cfg s)).pwm.count ∧
      1 ≤ (run_ops cfg ops (update_pwm_timeslots cfg s)).pwm.count ∧
      (run_ops cfg ops (update_pwm_timeslots cfg s)).pwm.count ≤ 4) := by
  have hcnt := update_pwm_timeslots_count cfg s
  have h0 : (update_pwm_timeslots cfg s).pwm.index = 0 := rfl
  have hlp : (update_pwm_timeslots cfg s).pwm_last_pulse = s.pwm_last_pulse := rfl
  refine ⟨?_, ?_, fun ops => cursor_inv_run cfg ops _ (cursor_inv_rebuild cfg s)⟩
  · intro k hk
    rw [prepare_next_timeslot_iterate _ h0 (by omega) k hk]
    exact ⟨rfl, rfl, rfl, hlp⟩
  · obtain ⟨n, hn⟩ : ∃ n, (update_pwm_timeslots cfg s).pwm.count = n + 1 :=
      ⟨(update_pwm_timeslots cfg s).pwm.count - 1, by omega⟩
    rw [Function.iterate_succ_apply', hn,
      prepare_next_timeslot_iterate _ h0 (by omega) n (by omega)]
    have e := prepare_next_timeslot_wrap
      { update_pwm_timeslots cfg s with
        OCR1B := ((update_pwm_timeslots cfg s).pwm.slots n).top
        pwm := { (update_pwm_timeslots cfg s).pwm with
                 next_bitmask := ((update_pwm_timeslots cfg s).pwm.slots n).mask
                 index := n + 1 } }
      (show ¬ n + 1 < (update_pwm_timeslots cfg s).pwm.count by omega)
    rw [e]
    exact ⟨rfl, rfl, rfl⟩

end Fnordlicht
